import Mathlib

/-!
Verification of the skip list in src/src/object/skip_list.rs.

Embedding conventions:
- The node graph built from Rc<RefCell<SkipListNode>> is modelled as an arena:
  an Array of nodes addressed by stable indices (no node is ever freed, since
  the source only constructs and inserts).  The header sentinel lives at index 0
  and Rc pointer identity (Rc::ptr_eq) becomes index equality.
- Scores have Rust type f64; the insert routine only compares them with < , > , ==.
  On the non-NaN doubles these comparisons form a linear order, so scores are
  embedded as Int, any linearly ordered type with decidable comparisons.
- RobjPtr values are string objects; the code only calls .string() on them and
  compares the results, so an RobjPtr is embedded as the String it holds.
- Every Rust operation that can panic is made fallible: Option unwraps, Vec
  indexing, the usize subtractions in the span arithmetic (debug-mode overflow
  panics), and the dynamic RefCell borrow conflicts (a borrow_mut of a cell
  while the same cell is borrowed) each return none from the embedded insert.
- The global thread_rng in random_level is replaced by an explicit stream of
  uniform usize draws, consumed in order.
-/

/-- const SKIP_LIST_MAX_LEVEL: usize = 32. -/
def SKIP_LIST_MAX_LEVEL : Nat := 32

/-- struct SkipListLevel: a forward pointer and a span. -/
structure SkipListLevel where
  forward : Option Nat
  span : Nat
deriving Repr, DecidableEq

/-- struct SkipListNode: stored object (none only for the header), score,
backward pointer, and the per-level forward links. -/
structure SkipListNode where
  obj : Option String
  score : Int
  backward : Option Nat
  level : Array SkipListLevel
deriving Repr, DecidableEq

/-- SkipListNode::new: a node with the requested number of levels, every level
having no forward pointer and span 0, no backward pointer. -/
def SkipListNode.new (level : Nat) (score : Int) (obj : Option String) : SkipListNode :=
  { obj := obj, score := score, backward := none,
    level := Array.mkArray level { forward := none, span := 0 } }

/-- struct SkipList.  The header Rc is the arena slot 0, so the header field of
the Rust struct is implicit here. -/
structure SkipList where
  nodes : Array SkipListNode
  tail : Option Nat
  length : Nat
  level : Nat
deriving Repr, DecidableEq

/-- SkipList::new(): header of full height (score 0.0, no object), empty list. -/
def SkipList.new : SkipList :=
  { nodes := #[SkipListNode.new SKIP_LIST_MAX_LEVEL 0 none],
    tail := none, length := 0, level := 1 }

/-- The loop guard of random_level: ((num & 0xFFFF) as f64) < (0.25 * (0xFFFF as f64)).
Both sides of the Rust comparison are exactly representable in f64
(num & 0xFFFF is at most 65535 and 0.25 * 65535 = 16383.75 = 65535/4), so the
float comparison equals the exact rational comparison 4 * (num mod 2^16) < 65535. -/
def coinSuccess (num : Nat) : Bool := 4 * (num % 65536) < 65535

/-- The while loop of random_level: each draw that succeeds increments level;
the first failing draw ends the loop.  none when the stream runs out with every
draw succeeding (the Rust loop would keep drawing). -/
def randomLevelLoop : Nat → List Nat → Option Nat
  | _, [] => none
  | level, num :: rest =>
    if coinSuccess num then randomLevelLoop (level + 1) rest else some level

/-- SkipList::random_level() over an explicit stream of rng.gen() draws:
start at level 1, loop, then cap the result at SKIP_LIST_MAX_LEVEL. -/
def random_level (draws : List Nat) : Option Nat :=
  (randomLevelLoop 1 draws).map
    (fun level => if level < SKIP_LIST_MAX_LEVEL then level else SKIP_LIST_MAX_LEVEL)

/-- usize subtraction; panics (none) on underflow as in a debug build. -/
def checkedSub (a b : Nat) : Option Nat :=
  if b ≤ a then some (a - b) else none

/-- The inner advancing loop of insert at one level i, lines 111-131:
break if the forward pointer is none; otherwise compare the next node
(next_score > score || (next_score == score && next_obj.string() >= obj.string()))
and either break or accumulate the span into rank and advance x.
First argument bundle: arena, score, obj string, level i; then fuel
(the Rust loop has no bound, so exhausting fuel models divergence), the cursor
x and the running rank. -/
def searchLevel (nodes : Array SkipListNode) (score : Int) (obj : String) (i : Nat) :
    Nat → Nat → Nat → Option (Nat × Nat)
  | 0, _, _ => none
  | fuel + 1, x, rank => do
    let xn ← nodes[x]?
    let le ← xn.level[i]?
    match le.forward with
    | none => some (x, rank)
    | some f => do
      let fn ← nodes[f]?
      let fobj ← fn.obj
      if fn.score > score ∨ (fn.score = score ∧ obj ≤ fobj) then
        some (x, rank)
      else
        searchLevel nodes score obj i fuel f (rank + le.span)

/-- The descending search of insert, lines 103-134: process levels i-1 down
to 0; rank starts at 0 on the top level and is carried down, and after the
level-i loop stops at x the code records update[i] = x and rank[i]. -/
def searchDown (nodes : Array SkipListNode) (score : Int) (obj : String) (fuel : Nat) :
    Nat → Nat → Nat → Array (Option Nat) → Array Nat →
    Option (Array (Option Nat) × Array Nat)
  | 0, _, _, upd, rnk => some (upd, rnk)
  | i + 1, x, rank, upd, rnk => do
    let (x2, r2) ← searchLevel nodes score obj i fuel x rank
    searchDown nodes score obj fuel i x2 r2 (upd.setD i (some x2)) (rnk.setD i r2)

/-- Write one level entry of node a; out-of-bounds writes cannot occur at the
call sites (the entry was read first, forcing a bounds failure before). -/
def setLevel (nodes : Array SkipListNode) (a : Nat) (i : Nat) (le : SkipListLevel) :
    Array SkipListNode :=
  match nodes[a]? with
  | none => nodes
  | some nd => nodes.setD a { nd with level := nd.level.setD i le }

/-- Write the backward pointer of node a. -/
def setBackward (nodes : Array SkipListNode) (a : Nat) (b : Option Nat) :
    Array SkipListNode :=
  match nodes[a]? with
  | none => nodes
  | some nd => nodes.setD a { nd with backward := b }

/-- Lines 138-147: when the random level exceeds the current list level, each
newly used level i gets rank[i] = 0, update[i] = header, and the header span at
that level is set to the current length. -/
def raiseLoop (len : Nat) :
    List Nat → Array SkipListNode → Array (Option Nat) → Array Nat →
    Option (Array SkipListNode × Array (Option Nat) × Array Nat)
  | [], nodes, upd, rnk => some (nodes, upd, rnk)
  | i :: rest, nodes, upd, rnk => do
    let hd ← nodes[0]?
    let le ← hd.level[i]?
    raiseLoop len rest (setLevel nodes 0 i { le with span := len })
      (upd.setD i (some 0)) (rnk.setD i 0)

/-- Lines 156-171, one iteration per level i of the new node: splice the new
node after update[i].  The borrow_mut of the new node at line 159 runs while
update[i] is borrowed, so update[i] being the very same cell would be a RefCell
conflict (none); with distinct cells the four assignments of the source refine
to the two whole-entry writes below (the span read at line 167 happens after
the forward write at 165 but reads the untouched span field). -/
def spliceLoop (newIdx : Nat) (upd : Array (Option Nat)) (rnk : Array Nat) :
    List Nat → Array SkipListNode → Option (Array SkipListNode)
  | [], nodes => some nodes
  | i :: rest, nodes => do
    let uo ← upd[i]?
    let prevIdx ← uo
    if prevIdx = newIdx then none
    else do
      let prevNode ← nodes[prevIdx]?
      let prevLe ← prevNode.level[i]?
      let currNode ← nodes[newIdx]?
      let _ ← currNode.level[i]?
      let r0 ← rnk[0]?
      let ri ← rnk[i]?
      let d ← checkedSub r0 ri
      let sp ← checkedSub prevLe.span d
      let nodes2 := setLevel nodes newIdx i { forward := prevLe.forward, span := sp }
      let nodes3 := setLevel nodes2 prevIdx i { forward := some newIdx, span := d + 1 }
      spliceLoop newIdx upd rnk rest nodes3

/-- Lines 173-175: levels at or above the new node height but below the list
level get their update node span incremented. -/
def bumpLoop (upd : Array (Option Nat)) :
    List Nat → Array SkipListNode → Option (Array SkipListNode)
  | [], nodes => some nodes
  | i :: rest, nodes => do
    let uo ← upd[i]?
    let prevIdx ← uo
    let prevNode ← nodes[prevIdx]?
    let prevLe ← prevNode.level[i]?
    bumpLoop upd rest (setLevel nodes prevIdx i { prevLe with span := prevLe.span + 1 })

/-- SkipList::insert, lines 91-193, with the result of random_level passed in
as lvl (the source calls random_level between the search and the splice; the
call does not read or write the list, so the factoring is faithful).  The
mutated self is returned; the Rust fn itself returns no value.  none models a
panic or divergence of the source. -/
def SkipList.insert (s : SkipList) (score : Int) (obj : String) (lvl : Nat) :
    Option SkipList := do
  let fuel := s.nodes.size + 1
  let (upd, rnk) ← searchDown s.nodes score obj fuel s.level 0 0
    (Array.mkArray SKIP_LIST_MAX_LEVEL (none : Option Nat))
    (Array.mkArray SKIP_LIST_MAX_LEVEL (0 : Nat))
  let newLevel := if lvl > s.level then lvl else s.level
  let (nodes0, upd, rnk) ← raiseLoop s.length (List.range' s.level (newLevel - s.level))
    s.nodes upd rnk
  let newIdx := nodes0.size
  let nodes1 := nodes0.push (SkipListNode.new lvl score (some obj))
  let nodes2 ← spliceLoop newIdx upd rnk (List.range lvl) nodes1
  let nodes3 ← bumpLoop upd (List.range' lvl (newLevel - lvl)) nodes2
  let uo ← upd[0]?
  let upd0 ← uo
  let nodes4 := setBackward nodes3 newIdx (if upd0 = 0 then none else some upd0)
  let currNode ← nodes4[newIdx]?
  let currLe0 ← currNode.level[0]?
  match currLe0.forward with
  | some e =>
    if e = newIdx then none
    else some { nodes := setBackward nodes4 e (some newIdx), tail := s.tail,
                length := s.length + 1, level := newLevel }
  | none =>
    some { nodes := nodes4, tail := some newIdx,
           length := s.length + 1, level := newLevel }

/-- The value the Rust fn insert returns to its caller: the fn has no return
type annotation and its body ends without a trailing expression, so on normal
return the caller receives the unit value (none still models a panic). -/
def SkipList.insertReturnValue (s : SkipList) (score : Int) (obj : String) (lvl : Nat) :
    Option PUnit :=
  (s.insert score obj lvl).map (fun _ => PUnit.unit)

/-- insert with its node height drawn from a random stream via random_level,
exactly as the source calls it. -/
def SkipList.insertR (s : SkipList) (score : Int) (obj : String) (draws : List Nat) :
    Option SkipList :=
  (random_level draws).bind (s.insert score obj)

/-- Replay a sequence of inserts from a list of ((score, value), draw stream). -/
def runDraws : SkipList → List ((Int × String) × List Nat) → Option SkipList
  | s, [] => some s
  | s, ((k, v), ds) :: rest => (s.insertR k v ds).bind (fun s2 => runDraws s2 rest)

/-- A small concrete state: one insert into the empty list. -/
def skl1 : SkipList := (SkipList.insert SkipList.new 5 "a" 1).getD SkipList.new

/-- A small concrete state: two inserts into the empty list. -/
def skl2 : SkipList := (SkipList.insert skl1 3 "b" 2).getD SkipList.new

/-! Observers of a skip list state, used to phrase the claims. -/

/-- The level-i forward pointer of node a (none also when a or the level entry
does not exist). -/
def fwdAt (s : SkipList) (a : Nat) (i : Nat) : Option Nat :=
  match s.nodes[a]? with
  | none => none
  | some nd =>
    match nd.level[i]? with
    | none => none
    | some le => le.forward

/-- The level-i span of node a, none when node a has no level-i entry. -/
def spanAt (s : SkipList) (a : Nat) (i : Nat) : Option Nat :=
  match s.nodes[a]? with
  | none => none
  | some nd => (nd.level[i]?).map SkipListLevel.span

/-- The backward pointer of node a. -/
def backAt (s : SkipList) (a : Nat) : Option Nat :=
  match s.nodes[a]? with
  | none => none
  | some nd => nd.backward

/-- The number of levels of node a, none when a is not in the arena. -/
def heightAt (s : SkipList) (a : Nat) : Option Nat :=
  (s.nodes[a]?).map (fun nd => nd.level.size)

/-- Follow level-0 forward pointers from x, collecting the nodes visited. -/
def chase (s : SkipList) : Nat → Nat → List Nat
  | 0, _ => []
  | fuel + 1, x =>
    match fwdAt s x 0 with
    | none => []
    | some y => y :: chase s fuel y

/-- The bottom-level traversal from the header: every stored node in forward
order. -/
def spineIdx (s : SkipList) : List Nat :=
  chase s s.nodes.size 0

/-- The (score, value) data of node a. -/
def entryData (s : SkipList) (a : Nat) : Option (Int × String) :=
  (s.nodes[a]?).bind (fun nd => nd.obj.map (fun o => (nd.score, o)))

/-- The (score, value) pairs of the bottom-level traversal. -/
def toPairs (s : SkipList) : List (Int × String) :=
  (spineIdx s).filterMap (entryData s)

/-- States reachable from SkipList::new by insert calls whose node heights are
legal random_level results, with the list of inserted keys recorded. -/
inductive ReachableH : SkipList → List (Int × String) → Prop
  | new : ReachableH SkipList.new []
  | step {s ks k v l s2} : ReachableH s ks → 1 ≤ l → l ≤ SKIP_LIST_MAX_LEVEL →
      SkipList.insert s k v l = some s2 → ReachableH s2 (ks ++ [(k, v)])

/-- States reachable from SkipList::new by insert calls. -/
def Reachable (s : SkipList) : Prop := ∃ ks, ReachableH s ks

/-- Paths through the skip list: Hops s a b t holds when some sequence of
forward steps, each taken at an arbitrary level, leads from a to b with spans
summing to t. -/
inductive Hops (s : SkipList) : Nat → Nat → Nat → Prop
  | nil {a} : Hops s a a 0
  | cons {a b c i d t} : fwdAt s a i = some b → spanAt s a i = some d →
      Hops s b c t → Hops s a c (d + t)

/-!
The canonical model.  A reachable skip list is fully determined by the ordered
sequence of its entries (arena index, score, value, node height) together with
the current list level: every forward pointer, span, backward pointer and the
tail are computed from that data.  The model is the ordered entry list and
the level; concrete builds the arena a reachable state must equal.
-/

/-- One stored node of the model: arena index, score, value, node height. -/
structure Entry where
  idx : Nat
  score : Int
  obj : String
  height : Nat
deriving Repr, DecidableEq

/-- The ordering key of an entry. -/
def Entry.key (e : Entry) : Int × String := (e.score, e.obj)

/-- Strict lexicographic order on (score, value): score first, ties broken by
the string order, matching the advance condition of the search loop. -/
def kLt (a b : Int × String) : Prop := a.1 < b.1 ∨ (a.1 = b.1 ∧ a.2 < b.2)

/-- Non-strict lexicographic order on (score, value). -/
def kLe (a b : Int × String) : Prop := a.1 < b.1 ∨ (a.1 = b.1 ∧ a.2 ≤ b.2)

instance (a b : Int × String) : Decidable (kLt a b) := by
  unfold kLt; infer_instance

instance (a b : Int × String) : Decidable (kLe a b) := by
  unfold kLe; infer_instance

/-- Key-level insertion: a new (score, value) pair lands after exactly the
keys strictly smaller than it, before any equal key. -/
def insertKey (L : List (Int × String)) (q : Int × String) : List (Int × String) :=
  L.takeWhile (fun z => decide (kLt z q)) ++ q :: L.dropWhile (fun z => decide (kLt z q))

/-- The first entry of a list whose height exceeds i, with its offset. -/
def findAbove (i : Nat) : List Entry → Option (Nat × Entry)
  | [] => none
  | e :: rest =>
    if i < e.height then some (0, e)
    else (findAbove i rest).map (fun p => (p.1 + 1, p.2))

/-- The level-i entry of a node whose spine suffix (the entries strictly after
it in bottom order) is after: the forward pointer goes to the first later node
tall enough to appear at level i, and the span counts the bottom-level steps
to it; with no such node the span counts the nodes to the end of the list. -/
def mkLevel (after : List Entry) (i : Nat) : SkipListLevel :=
  match findAbove i after with
  | some (j, x) => { forward := some x.idx, span := j + 1 }
  | none => { forward := none, span := after.length }

/-- The arena node of an entry, given its bottom-order predecessor (none when
it is the first stored node) and the entries after it. -/
def mkNode (before : Option Entry) (e : Entry) (after : List Entry) : SkipListNode :=
  { obj := some e.obj, score := e.score,
    backward := before.map Entry.idx,
    level := (Array.range e.height).map (fun i => mkLevel after i) }

/-- The header node of a model: 32 levels, the levels below the list level
linking into the spine, the rest empty with span 0. -/
def headerNode (entries : List Entry) (lvl : Nat) : SkipListNode :=
  { obj := none, score := 0, backward := none,
    level := (Array.range SKIP_LIST_MAX_LEVEL).map
      (fun i => if i < lvl then mkLevel entries i else { forward := none, span := 0 }) }

/-- Walk the entry list looking for arena index a, building its node from its
zipper context. -/
def nodeAt (a : Nat) : Option Entry → List Entry → Option SkipListNode
  | _, [] => none
  | before, e :: rest =>
    if e.idx = a then some (mkNode before e rest) else nodeAt a (some e) rest

/-- A model: the stored entries in bottom (key) order plus the list level. -/
structure Model where
  entries : List Entry
  lvl : Nat
deriving Repr, DecidableEq

/-- The arena determined by a model. -/
def buildNodes (m : Model) : Array SkipListNode :=
  (Array.range (m.entries.length + 1)).map
    (fun a => if a = 0 then headerNode m.entries m.lvl
              else (nodeAt a none m.entries).getD (SkipListNode.new 0 0 none))

/-- The skip list state determined by a model. -/
def concrete (m : Model) : SkipList :=
  { nodes := buildNodes m,
    tail := (m.entries.getLast?).map Entry.idx,
    length := m.entries.length,
    level := m.lvl }

/-- The model of the empty list. -/
def mnew : Model := { entries := [], lvl := 1 }

/-- Model-level insert: the new entry takes the next arena index, lands after
exactly the entries with strictly smaller key (score first, ties by value, new
node before equal keys), and the list level absorbs the node height. -/
def minsert (m : Model) (k : Int) (v : String) (l : Nat) : Model :=
  { entries :=
      m.entries.takeWhile (fun e => decide (kLt e.key (k, v)))
        ++ ⟨m.entries.length + 1, k, v, l⟩ ::
          m.entries.dropWhile (fun e => decide (kLt e.key (k, v))),
    lvl := max m.lvl l }

/-- Well-formedness of a model: entries sorted by key, arena indices a
permutation of 1..n, heights between 1 and the list level, list level between
1 and the cap. -/
structure ModelInv (m : Model) : Prop where
  sorted : m.entries.Chain' (fun a b => kLe a.key b.key)
  idxPerm : (m.entries.map Entry.idx).Perm (List.range' 1 m.entries.length)
  heights : ∀ e ∈ m.entries, 1 ≤ e.height ∧ e.height ≤ m.lvl
  lvl_lb : 1 ≤ m.lvl
  lvl_ub : m.lvl ≤ SKIP_LIST_MAX_LEVEL

/-!
Proof-side functions describing what the search loop of insert does to a model:
the loop at level i starting at a node with spine suffix R hops along the
entries of R that are tall enough for level i while their keys stay below the
inserted key.
-/

/-- The final position of the level-i advancing loop relative to the start:
some (y, R2) when the loop moves, y the node it stops at and R2 the entries
after y; none when the loop does not move at all. -/
def advance (i : Nat) (k : Int) (v : String) : List Entry → Option (Entry × List Entry)
  | [] => none
  | y :: R =>
    if i < y.height then
      if kLt y.key (k, v) then some ((advance i k v R).getD (y, R)) else none
    else advance i k v R

/-- A search context: the node the descent currently sits on (none for the
header) and the entries after it in bottom order. -/
abbrev Ctx := Option Entry × List Entry

/-- Apply the level-i loop to a context. -/
def mstep (k : Int) (v : String) (i : Nat) (st : Ctx) : Ctx :=
  match advance i k v st.2 with
  | some (y, R) => (some y, R)
  | none => st

/-- Run the descent for c levels, from level j+c-1 down to level j. -/
def ctxIter (k : Int) (v : String) : Nat → Nat → Ctx → Ctx
  | 0, _, st => st
  | c + 1, j, st => ctxIter k v c j (mstep k v (j + c) st)

/-- The arena index of the node a context sits on (the header is index 0). -/
def ctxIdx (st : Ctx) : Nat :=
  match st.1 with
  | none => 0
  | some e => e.idx

/-- A context is a zipper into the entry list. -/
def CtxOK (es : List Entry) : Ctx → Prop
  | (none, R) => R = es
  | (some e, R) => ∃ A, es = A ++ e :: R

/-- The level-i entry of arena node a, none when either is missing. -/
def levAt (nodes : Array SkipListNode) (a i : Nat) : Option SkipListLevel :=
  (nodes[a]?).bind (fun nd => nd.level[i]?)

/-- Everything about a node except its level entries. -/
def nodeShape (nd : SkipListNode) : Option String × Int × Option Nat × Nat :=
  (nd.obj, nd.score, nd.backward, nd.level.size)

/-! Array access helper lemmas. -/

theorem getElem?_setD_self {α} (a : Array α) (i : Nat) (v : α) (h : i < a.size) :
    (a.setD i v)[i]? = some v := by
  have hs : i < (a.setD i v).size := by simpa [Array.size_setD] using h
  rw [Array.getElem?_eq_getElem hs, Array.getElem_setD]

theorem getElem?_setD_ne {α} (a : Array α) (i j : Nat) (v : α) (h : i ≠ j) :
    (a.setD i v)[j]? = a[j]? := by
  unfold Array.setD
  split
  · rename_i hlt
    by_cases hj : j < a.size
    · rw [Array.getElem?_eq_getElem (by simpa using hj), Array.getElem?_eq_getElem hj]
      simp [Array.getElem_set, h]
    · rw [Array.getElem?_ge _ (by simpa using Nat.le_of_not_lt hj),
        Array.getElem?_ge _ (Nat.le_of_not_lt hj)]
  · rfl

theorem range_getElem? (n a : Nat) :
    (Array.range n)[a]? = if a < n then some a else none := by
  split
  · rename_i h
    rw [Array.getElem?_eq_getElem (by simpa [Array.size_range] using h)]
    simp [Array.getElem_range]
  · rename_i h
    exact Array.getElem?_ge _ (by simpa [Array.size_range] using Nat.le_of_not_lt h)

theorem rangeMap_getElem? {β} (f : Nat → β) (n a : Nat) :
    ((Array.range n).map f)[a]? = if a < n then some (f a) else none := by
  rw [Array.getElem?_map, range_getElem?]
  split <;> rfl

/-! Order lemmas for the lexicographic key order. -/

theorem kLe_refl (a : Int × String) : kLe a a := Or.inr ⟨rfl, le_refl _⟩

theorem kLe_trans {a b c : Int × String} (h1 : kLe a b) (h2 : kLe b c) : kLe a c := by
  rcases h1 with h1 | ⟨e1, l1⟩
  · rcases h2 with h2 | ⟨e2, l2⟩
    · exact Or.inl (lt_trans h1 h2)
    · exact Or.inl (e2 ▸ h1)
  · rcases h2 with h2 | ⟨e2, l2⟩
    · exact Or.inl (e1 ▸ h2)
    · exact Or.inr ⟨e1.trans e2, le_trans l1 l2⟩

theorem kLe_of_kLt {a b : Int × String} (h : kLt a b) : kLe a b := by
  rcases h with h | ⟨e, l⟩
  · exact Or.inl h
  · exact Or.inr ⟨e, le_of_lt l⟩

theorem kLt_of_kLe_of_kLt {a b c : Int × String} (h1 : kLe a b) (h2 : kLt b c) : kLt a c := by
  rcases h1 with h1 | ⟨e1, l1⟩
  · rcases h2 with h2 | ⟨e2, l2⟩
    · exact Or.inl (lt_trans h1 h2)
    · exact Or.inl (e2 ▸ h1)
  · rcases h2 with h2 | ⟨e2, l2⟩
    · exact Or.inl (e1 ▸ h2)
    · exact Or.inr ⟨e1.trans e2, lt_of_le_of_lt l1 l2⟩

theorem kLt_of_kLt_of_kLe {a b c : Int × String} (h1 : kLt a b) (h2 : kLe b c) : kLt a c := by
  rcases h1 with h1 | ⟨e1, l1⟩
  · rcases h2 with h2 | ⟨e2, l2⟩
    · exact Or.inl (lt_trans h1 h2)
    · exact Or.inl (e2 ▸ h1)
  · rcases h2 with h2 | ⟨e2, l2⟩
    · exact Or.inl (e1 ▸ h2)
    · exact Or.inr ⟨e1.trans e2, lt_of_lt_of_le l1 l2⟩

theorem kLe_of_not_kLt {a b : Int × String} (h : ¬ kLt a b) : kLe b a := by
  unfold kLt at h
  push_neg at h
  rcases lt_trichotomy a.1 b.1 with hlt | heq | hgt
  · exact absurd hlt (not_lt_of_le h.1)
  · exact Or.inr ⟨heq.symm, le_of_not_lt (fun hl => absurd (h.2 heq) (not_le_of_lt hl))⟩
  · exact Or.inl hgt

theorem kLt_of_kLe_of_ne {a b : Int × String} (h1 : kLe a b) (h2 : a ≠ b) : kLt a b := by
  rcases h1 with h1 | ⟨e, l⟩
  · exact Or.inl h1
  · rcases lt_or_eq_of_le l with hl | he
    · exact Or.inr ⟨e, hl⟩
    · exact absurd (Prod.ext e he) h2

theorem not_kLt_self (a : Int × String) : ¬ kLt a a := by
  rintro (h | ⟨e, l⟩)
  · exact lt_irrefl _ h
  · exact lt_irrefl _ l

/-- The negation of the break test of the search loop is exactly the strict key
order of the next node below the inserted key. -/
theorem not_break_iff_kLt (s1 k : Int) (o1 v : String) :
    ¬ (s1 > k ∨ (s1 = k ∧ v ≤ o1)) ↔ kLt (s1, o1) (k, v) := by
  unfold kLt
  constructor
  · intro h
    push_neg at h
    rcases lt_trichotomy s1 k with hlt | heq | hgt
    · exact Or.inl hlt
    · exact Or.inr ⟨heq, lt_of_not_le (fun hl => absurd (h.2 heq) (not_lt_of_le hl))⟩
    · exact absurd hgt (not_lt_of_le h.1)
  · rintro (h | ⟨e, l⟩) <;> rintro (hgt | ⟨heq, hle⟩)
    · exact lt_asymm h hgt
    · exact absurd h (heq ▸ lt_irrefl k)
    · exact absurd hgt (by simp only at e; rw [e]; exact lt_irrefl k)
    · exact not_le_of_lt l hle

/-! Lemmas about findAbove. -/

theorem findAbove_eq_none {i : Nat} {R : List Entry} :
    findAbove i R = none ↔ ∀ e ∈ R, e.height ≤ i := by
  induction R with
  | nil => simp [findAbove]
  | cons e rest ih =>
    by_cases h : i < e.height
    · simp only [findAbove, if_pos h]
      constructor
      · intro hc; simp at hc
      · intro hall
        exact absurd (hall e (by simp)) (Nat.not_le_of_lt h)
    · simp only [findAbove, if_neg h]
      constructor
      · intro hc
        intro z hz
        rcases List.mem_cons.mp hz with hz | hz
        · exact hz ▸ Nat.le_of_not_lt h
        · exact ih.mp (by simpa using hc) z hz
      · intro hall
        have : findAbove i rest = none := ih.mpr (fun z hz => hall z (List.mem_cons_of_mem _ hz))
        simp [this]

theorem findAbove_some {i : Nat} {R : List Entry} {j : Nat} {y : Entry}
    (h : findAbove i R = some (j, y)) :
    ∃ A B, R = A ++ y :: B ∧ A.length = j ∧ (∀ z ∈ A, z.height ≤ i) ∧ i < y.height := by
  induction R generalizing j with
  | nil => simp [findAbove] at h
  | cons e rest ih =>
    by_cases he : i < e.height
    · simp [findAbove, he] at h
      exact ⟨[], rest, by simp [h.2], by simp [← h.1], by simp, h.2 ▸ he⟩
    · simp [findAbove, he] at h
      rcases h with ⟨j2, hj2, hj⟩
      rcases ih hj2 with ⟨A, B, hR, hA, hshort, htall⟩
      refine ⟨e :: A, B, by simp [hR], by simp [hA, ← hj], ?_, htall⟩
      intro z hz
      rcases List.mem_cons.mp hz with hz | hz
      · exact hz ▸ Nat.le_of_not_lt he
      · exact hshort z hz

theorem findAbove_append_some {i : Nat} {A B : List Entry} {p : Nat × Entry}
    (h : findAbove i A = some p) : findAbove i (A ++ B) = some p := by
  induction A generalizing p with
  | nil => simp [findAbove] at h
  | cons e rest ih =>
    by_cases he : i < e.height
    · rw [List.cons_append]
      simp only [findAbove, if_pos he] at h ⊢
      exact h
    · simp only [findAbove, if_neg he, List.cons_append, List.append_eq] at h ⊢
      rcases Option.map_eq_some'.mp h with ⟨q, hq, hqp⟩
      rw [ih hq]
      simpa using hqp

theorem findAbove_append_none {i : Nat} {A : List Entry} (B : List Entry)
    (h : findAbove i A = none) :
    findAbove i (A ++ B) = (findAbove i B).map (fun p => (p.1 + A.length, p.2)) := by
  induction A with
  | nil => simp
  | cons e rest ih =>
    by_cases he : i < e.height
    · simp [findAbove, he] at h
    · simp only [findAbove, if_neg he, List.cons_append, List.append_eq] at h ⊢
      rw [ih (by simpa using h)]
      cases findAbove i B with
      | none => simp
      | some p => simp [Nat.add_assoc, Nat.add_comm 1]

/-! Lemmas about advance. -/

theorem advance_decomp {i : Nat} {k : Int} {v : String} {R : List Entry}
    {y : Entry} {R2 : List Entry} (h : advance i k v R = some (y, R2)) :
    ∃ A, R = A ++ y :: R2 ∧ kLt y.key (k, v) ∧ i < y.height := by
  induction R generalizing y R2 with
  | nil => simp [advance] at h
  | cons e rest ih =>
    by_cases he : i < e.height
    · by_cases hk : kLt e.key (k, v)
      · simp only [advance, if_pos he, if_pos hk, Option.some_inj] at h
        cases hadv : advance i k v rest with
        | some p =>
          rw [hadv] at h
          simp only [Option.getD_some] at h
          rcases ih (h ▸ hadv) with ⟨A, hR, hy, ht⟩
          exact ⟨e :: A, by simp [hR], hy, ht⟩
        | none =>
          rw [hadv] at h
          simp only [Option.getD_none] at h
          have h1 : e = y := congrArg Prod.fst h
          have h2 : rest = R2 := congrArg Prod.snd h
          exact ⟨[], by simp [h1, h2], h1 ▸ hk, h1 ▸ he⟩
      · simp [advance, he, hk] at h
    · simp only [advance, if_neg he] at h
      rcases ih h with ⟨A, hR, hy, ht⟩
      exact ⟨e :: A, by simp [hR], hy, ht⟩

theorem advance_none {i : Nat} {k : Int} {v : String} {R : List Entry}
    (h : advance i k v R = none) :
    ∀ p, findAbove i R = some p → ¬ kLt p.2.key (k, v) := by
  induction R with
  | nil => simp [findAbove]
  | cons e rest ih =>
    by_cases he : i < e.height
    · by_cases hk : kLt e.key (k, v)
      · simp [advance, he, hk] at h
      · intro p hp
        simp only [findAbove, if_pos he, Option.some_inj] at hp
        rw [← hp]
        exact hk
    · simp only [advance, if_neg he] at h
      intro p hp
      simp only [findAbove, if_neg he] at hp
      rcases Option.map_eq_some'.mp hp with ⟨q, hq, hqp⟩
      have := ih h q hq
      rw [← hqp]
      exact this

theorem advance_after {i : Nat} {k : Int} {v : String} {R : List Entry}
    {y : Entry} {R2 : List Entry} (h : advance i k v R = some (y, R2)) :
    advance i k v R2 = none := by
  induction R generalizing y R2 with
  | nil => simp [advance] at h
  | cons e rest ih =>
    by_cases he : i < e.height
    · by_cases hk : kLt e.key (k, v)
      · simp only [advance, if_pos he, if_pos hk, Option.some_inj] at h
        cases hadv : advance i k v rest with
        | some p =>
          rw [hadv] at h
          simp only [Option.getD_some] at h
          exact ih (h ▸ hadv)
        | none =>
          rw [hadv] at h
          simp only [Option.getD_none] at h
          have h2 : rest = R2 := congrArg Prod.snd h
          exact h2 ▸ hadv
      · simp [advance, he, hk] at h
    · simp only [advance, if_neg he] at h
      exact ih h

theorem advance_via_findAbove (i : Nat) (k : Int) (v : String) (R : List Entry) :
    advance i k v R =
      match findAbove i R with
      | none => none
      | some (j, y) =>
        if kLt y.key (k, v) then
          some ((advance i k v (R.drop (j + 1))).getD (y, R.drop (j + 1)))
        else none := by
  induction R with
  | nil => simp [advance, findAbove]
  | cons e rest ih =>
    by_cases he : i < e.height
    · simp [advance, findAbove, he]
    · simp only [advance, if_neg he, findAbove, ih]
      cases hfa : findAbove i rest with
      | none => simp
      | some p =>
        rcases p with ⟨j, y⟩
        simp

/-! Arena lemmas: reading buildNodes through the zipper view of the entries. -/

theorem mkNode_level_get (b : Option Entry) (e : Entry) (A : List Entry) (i : Nat) :
    (mkNode b e A).level[i]? = if i < e.height then some (mkLevel A i) else none := by
  simp only [mkNode, rangeMap_getElem?]

theorem headerNode_level_get (es : List Entry) (lvl i : Nat) :
    (headerNode es lvl).level[i]? =
      if i < SKIP_LIST_MAX_LEVEL then
        some (if i < lvl then mkLevel es i else { forward := none, span := 0 }) else none := by
  simp only [headerNode, rangeMap_getElem?]

theorem nodeAt_split {a : Nat} {e : Entry} (ha : e.idx = a) :
    ∀ (A : List Entry) (before : Option Entry) (B : List Entry),
      (∀ z ∈ A, z.idx ≠ a) →
      nodeAt a before (A ++ e :: B) = some (mkNode ((A.getLast?).or before) e B) := by
  intro A
  induction A with
  | nil =>
    intro before B _
    simp [nodeAt, ha]
  | cons z rest ih =>
    intro before B hA
    have hz : z.idx ≠ a := hA z (by simp)
    rw [List.cons_append]
    show nodeAt a before (z :: (rest ++ e :: B)) = _
    simp only [nodeAt, if_neg hz]
    rw [ih (some z) B (fun w hw => hA w (List.mem_cons_of_mem _ hw))]
    congr 1
    cases rest with
    | nil => simp
    | cons w rest2 =>
      rw [List.getLast?_cons_cons]
      have : (w :: rest2).getLast?.isSome := List.getLast?_isSome.mpr (by simp)
      rcases Option.isSome_iff_exists.mp this with ⟨u, hu⟩
      simp [hu]

theorem buildNodes_size (m : Model) : (buildNodes m).size = m.entries.length + 1 := by
  simp [buildNodes, Array.size_map, Array.size_range]

theorem buildNodes_zero (m : Model) :
    (buildNodes m)[0]? = some (headerNode m.entries m.lvl) := by
  unfold buildNodes
  rw [rangeMap_getElem?, if_pos (Nat.succ_pos _)]
  simp

theorem concrete_idx_bounds {m : Model} (hm : ModelInv m) {e : Entry}
    (he : e ∈ m.entries) : 1 ≤ e.idx ∧ e.idx ≤ m.entries.length := by
  have h1 : e.idx ∈ m.entries.map Entry.idx := List.mem_map_of_mem _ he
  have h2 := hm.idxPerm.mem_iff.mp h1
  rw [List.mem_range'_1] at h2
  obtain ⟨h3, h4⟩ := h2
  exact ⟨h3, by omega⟩

theorem concrete_idx_nodup {m : Model} (hm : ModelInv m) :
    (m.entries.map Entry.idx).Nodup :=
  hm.idxPerm.nodup_iff.mpr (List.nodup_range' _ _)

theorem buildNodes_get_entry {m : Model} (hm : ModelInv m) {A : List Entry}
    {e : Entry} {B : List Entry} (hsplit : m.entries = A ++ e :: B) :
    (buildNodes m)[e.idx]? = some (mkNode A.getLast? e B) := by
  have hmem : e ∈ m.entries := by rw [hsplit]; simp
  have hb := concrete_idx_bounds hm hmem
  have hnd := concrete_idx_nodup hm
  obtain ⟨hb1, hb2⟩ := hb
  have hA : ∀ z ∈ A, z.idx ≠ e.idx := by
    intro z hz
    rw [hsplit] at hnd
    simp only [List.map_append, List.map_cons, List.nodup_append] at hnd
    intro hc
    exact hnd.2.2 (List.mem_map_of_mem Entry.idx hz) (by rw [hc]; simp)
  have hc1 : e.idx < m.entries.length + 1 := by omega
  have hc2 : ¬ (e.idx = 0) := by omega
  unfold buildNodes
  rw [rangeMap_getElem?, if_pos hc1, if_neg hc2, hsplit, nodeAt_split rfl A none B hA]
  simp

theorem buildNodes_get_high {m : Model} {a : Nat}
    (h : m.entries.length + 1 ≤ a) : (buildNodes m)[a]? = none := by
  have hc : ¬ (a < m.entries.length + 1) := by omega
  unfold buildNodes
  rw [rangeMap_getElem?, if_neg hc]

theorem exists_entry_of_idx {m : Model} (hm : ModelInv m) {a : Nat}
    (h1 : 1 ≤ a) (h2 : a ≤ m.entries.length) :
    ∃ A e B, m.entries = A ++ e :: B ∧ e.idx = a := by
  have : a ∈ m.entries.map Entry.idx :=
    hm.idxPerm.mem_iff.mpr (List.mem_range'_1.mpr ⟨h1, by omega⟩)
  rcases List.mem_map.mp this with ⟨e, he, hea⟩
  rcases List.append_of_mem he with ⟨A, B, hAB⟩
  exact ⟨A, e, B, hAB, hea⟩

/-! Simulation of the level-i advancing loop on a concrete model. -/

theorem drop_of_split {R A2 B2 : List Entry} {y : Entry} {j : Nat}
    (hR : R = A2 ++ y :: B2) (hj : A2.length = j) : R.drop (j + 1) = B2 := by
  rw [hR, show A2 ++ y :: B2 = (A2 ++ [y]) ++ B2 by simp,
    show j + 1 = (A2 ++ [y]).length by simp [hj]]
  exact List.drop_left _ _

theorem searchLevel_sim {m : Model} (hm : ModelInv m) (k : Int) (v : String) (i : Nat)
    (hi : i < m.lvl) :
    ∀ (fuel : Nat) (st : Ctx) (r : Nat), CtxOK m.entries st →
      (∀ e, st.1 = some e → i < e.height) →
      st.2.length < fuel →
      searchLevel (buildNodes m) k v i fuel (ctxIdx st) r =
        some (ctxIdx (mstep k v i st), r + (st.2.length - (mstep k v i st).2.length)) := by
  intro fuel
  induction fuel with
  | zero => intro st r _ _ hlen; omega
  | succ fuel ih =>
    intro st r hok htall hlen
    obtain ⟨xo, R⟩ := st
    have hlenR : R.length < fuel + 1 := hlen
    have hnode : ∃ nd, (buildNodes m)[ctxIdx (xo, R)]? = some nd ∧
        nd.level[i]? = some (mkLevel R i) := by
      cases xo with
      | none =>
        refine ⟨headerNode m.entries m.lvl, buildNodes_zero m, ?_⟩
        rw [headerNode_level_get, if_pos (lt_of_lt_of_le hi hm.lvl_ub), if_pos hi]
        have hR : R = m.entries := hok
        rw [hR]
      | some e =>
        rcases hok with ⟨A, hA⟩
        refine ⟨mkNode A.getLast? e R, buildNodes_get_entry hm hA, ?_⟩
        rw [mkNode_level_get, if_pos (htall e rfl)]
    rcases hnode with ⟨nd, hnd, hlev⟩
    rw [searchLevel]
    cases hfa : findAbove i R with
    | none =>
      have hml : mkLevel R i = { forward := none, span := R.length } := by
        rw [mkLevel, hfa]
      have hadv : advance i k v R = none := by
        rw [advance_via_findAbove, hfa]
      simp [hnd, hlev, hml, mstep, hadv]
    | some p =>
      obtain ⟨j, y⟩ := p
      have hml : mkLevel R i = { forward := some y.idx, span := j + 1 } := by
        rw [mkLevel, hfa]
      rcases findAbove_some hfa with ⟨A2, B2, hR2, hA2len, hshort, htally⟩
      have hdrop : R.drop (j + 1) = B2 := drop_of_split hR2 hA2len
      -- arena node for y
      have hsplitY : ∃ P, m.entries = P ++ y :: B2 := by
        cases xo with
        | none =>
          have hR : R = m.entries := hok
          exact ⟨A2, by rw [← hR, hR2]⟩
        | some e =>
          rcases hok with ⟨A, hA⟩
          exact ⟨A ++ e :: A2, by rw [hA, hR2]; simp⟩
      rcases hsplitY with ⟨P, hP⟩
      have hy : (buildNodes m)[y.idx]? = some (mkNode P.getLast? y B2) :=
        buildNodes_get_entry hm hP
      by_cases hbr : y.score > k ∨ (y.score = k ∧ v ≤ y.obj)
      · have hnk : ¬ kLt y.key (k, v) := fun hk =>
          (not_break_iff_kLt y.score k y.obj v).mpr hk hbr
        have hadv : advance i k v R = none := by
          rw [advance_via_findAbove, hfa]
          exact if_neg hnk
        simp only [hnd, hlev, hml, Option.bind_eq_bind, Option.some_bind, hy]
        rw [mkNode]
        simp only [Option.some_bind, if_pos hbr]
        simp [mstep, hadv]
      · have hk2 : kLt y.key (k, v) := (not_break_iff_kLt y.score k y.obj v).mp hbr
        have hadv : advance i k v R =
            some ((advance i k v B2).getD (y, B2)) := by
          rw [advance_via_findAbove, hfa]
          show (if kLt y.key (k, v) then
              some ((advance i k v (R.drop (j + 1))).getD (y, R.drop (j + 1))) else none) =
            some ((advance i k v B2).getD (y, B2))
          rw [hdrop, if_pos hk2]
        have hlen2 : B2.length < fuel := by
          have hRl : R.length = j + 1 + B2.length := by
            rw [hR2]; simp [hA2len]; omega
          omega
        have hrec := ih (some y, B2) (r + (j + 1)) ⟨P, hP⟩
          (fun e he => by cases he; exact htally) hlen2
        simp only [ctxIdx] at hrec
        simp only [hnd, hlev, hml, Option.bind_eq_bind, Option.some_bind, hy]
        rw [mkNode]
        simp only [Option.some_bind, if_neg hbr]
        rw [hrec]
        cases hadv2 : advance i k v B2 with
        | none =>
          have hms : mstep k v i (xo, R) = (some y, B2) := by
            rw [mstep, hadv, hadv2]
            rfl
          have hms2 : mstep k v i (some y, B2) = (some y, B2) := by
            rw [mstep, hadv2]
          rw [hms2, hms]
          have hRlen : R.length = j + 1 + B2.length := by
            rw [hR2]; simp [hA2len]; omega
          simp only [ctxIdx]
          exact congrArg some (Prod.ext rfl (by omega))
        | some q =>
          obtain ⟨z, R3⟩ := q
          have hms : mstep k v i (xo, R) = (some z, R3) := by
            rw [mstep, hadv, hadv2]
            rfl
          have hms2 : mstep k v i (some y, B2) = (some z, R3) := by
            rw [mstep, hadv2]
          rw [hms2, hms]
          have hRlen : R.length = j + 1 + B2.length := by
            rw [hR2]; simp [hA2len]; omega
          have hR3 : R3.length < B2.length := by
            rcases advance_decomp hadv2 with ⟨A3, hB2, -, -⟩
            rw [hB2]; simp; omega
          simp only [ctxIdx]
          exact congrArg some (Prod.ext rfl (by omega))

/-! Context evolution lemmas. -/

theorem mstep_ctxok {es : List Entry} {k : Int} {v : String} {i : Nat} {st : Ctx}
    (h : CtxOK es st) : CtxOK es (mstep k v i st) := by
  obtain ⟨xo, R⟩ := st
  rw [mstep]
  cases hadv : advance i k v R with
  | none => exact h
  | some p =>
    obtain ⟨y, R2⟩ := p
    rcases advance_decomp hadv with ⟨A, hR, -, -⟩
    cases xo with
    | none =>
      have hR0 : R = es := h
      exact ⟨A, by rw [← hR0, hR]⟩
    | some e =>
      rcases h with ⟨P, hP⟩
      exact ⟨P ++ e :: A, by rw [hP, hR]; simp⟩

theorem mstep_height {k : Int} {v : String} {i : Nat} {st : Ctx} {e : Entry}
    (h : (mstep k v i st).1 = some e) : i < e.height ∨ st.1 = some e := by
  obtain ⟨xo, R⟩ := st
  rw [mstep] at h
  cases hadv : advance i k v R with
  | none => rw [hadv] at h; exact Or.inr h
  | some p =>
    obtain ⟨y, R2⟩ := p
    rw [hadv] at h
    rcases advance_decomp hadv with ⟨-, -, -, ht⟩
    cases h
    exact Or.inl ht

theorem mstep_len_le {k : Int} {v : String} {i : Nat} {st : Ctx} :
    (mstep k v i st).2.length ≤ st.2.length := by
  obtain ⟨xo, R⟩ := st
  rw [mstep]
  cases hadv : advance i k v R with
  | none => exact le_refl _
  | some p =>
    obtain ⟨y, R2⟩ := p
    rcases advance_decomp hadv with ⟨A, hR, -, -⟩
    rw [hR]
    simp
    omega

theorem ctxIter_ctxok {es : List Entry} {k : Int} {v : String} {st : Ctx}
    (h : CtxOK es st) : ∀ (c j : Nat), CtxOK es (ctxIter k v c j st) := by
  intro c
  induction c generalizing st with
  | zero => intro j; exact h
  | succ c ih => intro j; exact ih (mstep_ctxok h) j

theorem ctxIter_len_le {k : Int} {v : String} {st : Ctx} :
    ∀ (c j : Nat), (ctxIter k v c j st).2.length ≤ st.2.length := by
  intro c
  induction c generalizing st with
  | zero => intro j; exact le_refl _
  | succ c ih =>
    intro j
    exact le_trans (@ih (mstep k v (j + c) st) j) mstep_len_le

/-! Simulation of the whole descending search. -/

theorem searchDown_sim {m : Model} (hm : ModelInv m) (k : Int) (v : String) :
    ∀ (i : Nat) (st : Ctx) (r : Nat) (upd : Array (Option Nat)) (rnk : Array Nat)
      (fuel : Nat),
      i ≤ m.lvl →
      CtxOK m.entries st →
      (∀ e, st.1 = some e → i ≤ e.height) →
      m.entries.length < fuel →
      upd.size = SKIP_LIST_MAX_LEVEL → rnk.size = SKIP_LIST_MAX_LEVEL →
      ∃ updF rnkF,
        searchDown (buildNodes m) k v fuel i (ctxIdx st) r upd rnk = some (updF, rnkF) ∧
        updF.size = SKIP_LIST_MAX_LEVEL ∧ rnkF.size = SKIP_LIST_MAX_LEVEL ∧
        (∀ j, i ≤ j → updF[j]? = upd[j]? ∧ rnkF[j]? = rnk[j]?) ∧
        (∀ j, j < i →
          updF[j]? = some (some (ctxIdx (ctxIter k v (i - j) j st))) ∧
          rnkF[j]? = some (r + (st.2.length - (ctxIter k v (i - j) j st).2.length))) := by
  intro i
  induction i with
  | zero =>
    intro st r upd rnk fuel _ _ _ _ hu hr
    exact ⟨upd, rnk, rfl, hu, hr, fun j _ => ⟨rfl, rfl⟩, fun j hj => absurd hj (Nat.not_lt_zero j)⟩
  | succ i ih =>
    intro st r upd rnk fuel hle hok htall hfuel hu hr
    have hi_lvl : i < m.lvl := hle
    have hstlen : st.2.length < fuel := by
      have h1 : st.2.length ≤ m.entries.length := by
        obtain ⟨xo, R⟩ := st
        cases xo with
        | none => have hR : R = m.entries := hok; simp [hR]
        | some e =>
          rcases hok with ⟨A, hA⟩
          show R.length ≤ m.entries.length
          rw [hA]; simp; omega
      omega
    have hsl := searchLevel_sim hm k v i hi_lvl fuel st r hok
      (fun e he => lt_of_lt_of_le (Nat.lt_succ_self i) (htall e he)) hstlen
    rw [searchDown, hsl]
    set st2 := mstep k v i st with hst2
    set r2 := r + (st.2.length - st2.2.length) with hr2
    have hok2 : CtxOK m.entries st2 := mstep_ctxok hok
    have htall2 : ∀ e, st2.1 = some e → i ≤ e.height := by
      intro e he
      rcases mstep_height he with h | h
      · omega
      · exact le_trans (Nat.le_succ i) (htall e h)
    rcases ih st2 r2 (upd.setD i (some (ctxIdx st2))) (rnk.setD i r2) fuel
      (le_of_lt hi_lvl) hok2 htall2 hfuel
      (by rw [Array.size_setD]; exact hu) (by rw [Array.size_setD]; exact hr)
      with ⟨updF, rnkF, heq, husz, hrsz, hhi, hlo⟩
    refine ⟨updF, rnkF, heq, husz, hrsz, ?_, ?_⟩
    · intro j hj
      have hj2 : i ≤ j := le_trans (Nat.le_succ i) hj
      rcases hhi j hj2 with ⟨h1, h2⟩
      have hij : i ≠ j := by omega
      rw [h1, h2, getElem?_setD_ne _ _ _ _ hij, getElem?_setD_ne _ _ _ _ hij]
      exact ⟨rfl, rfl⟩
    · intro j hj
      by_cases hji : j = i
      · subst hji
        rcases hhi j (le_refl j) with ⟨h1, h2⟩
        have hub : m.lvl ≤ 32 := hm.lvl_ub
        have hjsz : j < upd.size := by rw [hu]; show j < 32; omega
        have hjsz2 : j < rnk.size := by rw [hr]; show j < 32; omega
        have hiter : ctxIter k v (j + 1 - j) j st = st2 := by
          rw [show j + 1 - j = 1 by omega]
          show ctxIter k v 0 j (mstep k v (j + 0) st) = st2
          rw [ctxIter, Nat.add_zero, hst2]
        rw [h1, h2, hiter, getElem?_setD_self _ _ _ hjsz, getElem?_setD_self _ _ _ hjsz2]
        exact ⟨rfl, rfl⟩
      · have hji2 : j < i := by omega
        rcases hlo j hji2 with ⟨h1, h2⟩
        have hiter : ctxIter k v (i + 1 - j) j st = ctxIter k v (i - j) j st2 := by
          rw [show i + 1 - j = (i - j) + 1 by omega]
          show ctxIter k v (i - j) j (mstep k v (j + (i - j)) st) = _
          rw [show j + (i - j) = i by omega, hst2]
        rw [h1, h2, hiter]
        refine ⟨rfl, ?_⟩
        have hl1 : (ctxIter k v (i - j) j st2).2.length ≤ st2.2.length := ctxIter_len_le _ _
        have hl2 : st2.2.length ≤ st.2.length := mstep_len_le
        rw [hr2]
        congr 1
        omega

/-! Facts about the contexts the descent ends on at each level. -/

theorem ctxIter_peel (k : Int) (v : String) :
    ∀ (c j : Nat) (st : Ctx),
      ctxIter k v (c + 1) j st = mstep k v j (ctxIter k v c (j + 1) st) := by
  intro c
  induction c with
  | zero => intro j st; rfl
  | succ c ih =>
    intro j st
    show ctxIter k v (c + 1) j (mstep k v (j + (c + 1)) st) = _
    rw [ih j (mstep k v (j + (c + 1)) st)]
    congr 1
    show ctxIter k v c (j + 1) (mstep k v (j + (c + 1)) st) = _
    have : ctxIter k v (c + 1) (j + 1) st = ctxIter k v c (j + 1) (mstep k v (j + 1 + c) st) := rfl
    rw [this, show j + 1 + c = j + (c + 1) by omega]

theorem mstep_advance_none (k : Int) (v : String) (i : Nat) (st : Ctx) :
    advance i k v (mstep k v i st).2 = none := by
  rw [mstep]
  cases hadv : advance i k v st.2 with
  | none => exact hadv
  | some p => obtain ⟨y, R2⟩ := p; exact advance_after hadv

theorem mstep_klt {k : Int} {v : String} {i : Nat} {st : Ctx} {e : Entry}
    (h : (mstep k v i st).1 = some e)
    (hst : ∀ e2, st.1 = some e2 → kLt e2.key (k, v)) : kLt e.key (k, v) := by
  rw [mstep] at h
  cases hadv : advance i k v st.2 with
  | none => rw [hadv] at h; exact hst e h
  | some p =>
    obtain ⟨y, R2⟩ := p
    rw [hadv] at h
    cases h
    exact (advance_decomp hadv).choose_spec.2.1

theorem cfin_facts {m : Model} (k : Int) (v : String) :
    ∀ (c j : Nat),
      CtxOK m.entries (ctxIter k v c j (none, m.entries)) ∧
      (∀ e, (ctxIter k v c j (none, m.entries)).1 = some e →
        j < e.height ∧ kLt e.key (k, v)) := by
  intro c
  induction c with
  | zero =>
    intro j
    refine ⟨rfl, ?_⟩
    intro e he
    simp [ctxIter] at he
  | succ c ih =>
    intro j
    rw [ctxIter_peel]
    rcases ih (j + 1) with ⟨hok, hfacts⟩
    refine ⟨mstep_ctxok hok, ?_⟩
    intro e he
    constructor
    · rcases mstep_height he with h | h
      · exact h
      · exact lt_trans (Nat.lt_succ_self j) (hfacts e h).1
    · exact mstep_klt he (fun e2 h2 => (hfacts e2 h2).2)

theorem cfin_advance_none {m : Model} (k : Int) (v : String) (c j : Nat) (hc : 1 ≤ c) :
    advance j k v (ctxIter k v c j (none, m.entries)).2 = none := by
  obtain ⟨c2, rfl⟩ : ∃ c2, c = c2 + 1 := ⟨c - 1, by omega⟩
  rw [ctxIter_peel]
  exact mstep_advance_none k v j _

/-- When the level-j loop can no longer advance, every key-smaller entry at the
front of the remaining suffix is too short for level j. -/
theorem advance_none_takeWhile_short {j : Nat} {k : Int} {v : String} {R : List Entry}
    (h : advance j k v R = none) :
    ∀ z ∈ R.takeWhile (fun e => decide (kLt e.key (k, v))), z.height ≤ j := by
  induction R with
  | nil => simp
  | cons y R2 ih =>
    by_cases hy : j < y.height
    · by_cases hk : kLt y.key (k, v)
      · simp [advance, hy, hk] at h
      · intro z hz
        rw [List.takeWhile_cons, if_neg (by simpa using hk)] at hz
        simp at hz
    · simp only [advance, if_neg hy] at h
      intro z hz
      rw [List.takeWhile_cons] at hz
      split at hz
      · rcases List.mem_cons.mp hz with hz | hz
        · exact hz ▸ Nat.le_of_not_lt hy
        · exact ih h z hz
      · simp at hz

/-! Splitting takeWhile and dropWhile across a prefix that fully satisfies
the predicate. -/

theorem takeWhile_append_all {α} (p : α → Bool) :
    ∀ (A B : List α), (∀ a ∈ A, p a = true) →
      (A ++ B).takeWhile p = A ++ B.takeWhile p ∧ (A ++ B).dropWhile p = B.dropWhile p := by
  intro A
  induction A with
  | nil => intro B _; exact ⟨rfl, rfl⟩
  | cons a A ih =>
    intro B h
    have ha : p a = true := h a (by simp)
    rcases ih B (fun z hz => h z (List.mem_cons_of_mem _ hz)) with ⟨h1, h2⟩
    constructor
    · rw [List.cons_append, List.takeWhile_cons, if_pos ha, h1, List.cons_append]
    · rw [List.cons_append, List.dropWhile_cons, if_pos ha, h2]

/-- A search context with all passed nodes key-below the target splits the
takeWhile prefix of the whole entry list. -/
theorem ctx_split {m : Model} (hm : ModelInv m) (k : Int) (v : String) {st : Ctx}
    (hok : CtxOK m.entries st) (hklt : ∀ e, st.1 = some e → kLt e.key (k, v)) :
    ∀ e, st.1 = some e → ∃ Q, m.entries = Q ++ e :: st.2 ∧
      m.entries.takeWhile (fun z => decide (kLt z.key (k, v))) =
        (Q ++ [e]) ++ st.2.takeWhile (fun z => decide (kLt z.key (k, v))) ∧
      m.entries.dropWhile (fun z => decide (kLt z.key (k, v))) =
        st.2.dropWhile (fun z => decide (kLt z.key (k, v))) := by
  intro e he
  obtain ⟨xo, R⟩ := st
  cases he
  rcases hok with ⟨Q, hQ⟩
  refine ⟨Q, hQ, ?_⟩
  haveI : IsTrans Entry (fun a b => kLe a.key b.key) := ⟨fun a b c => kLe_trans⟩
  have hpw := List.chain'_iff_pairwise.mp hm.sorted
  rw [hQ] at hpw
  have hQall : ∀ z ∈ Q ++ [e], decide (kLt z.key (k, v)) = true := by
    intro z hz
    rcases List.mem_append.mp hz with hz | hz
    · rcases List.pairwise_append.mp hpw with ⟨-, -, hcross⟩
      have hze : kLe z.key e.key := hcross z hz e (by simp)
      exact decide_eq_true (kLt_of_kLe_of_kLt hze (hklt e rfl))
    · simp at hz
      exact decide_eq_true (hz ▸ hklt e rfl)
  have := takeWhile_append_all (fun z => decide (kLt z.key (k, v))) (Q ++ [e]) R hQall
  rw [show (Q ++ [e]) ++ R = Q ++ e :: R by simp] at this
  rw [hQ]
  exact ⟨this.1, this.2⟩

/-! Pointwise lemmas for the arena writers. -/

theorem setLevel_size (nodes : Array SkipListNode) (a i : Nat) (le : SkipListLevel) :
    (setLevel nodes a i le).size = nodes.size := by
  unfold setLevel
  cases nodes[a]? with
  | none => rfl
  | some nd => simp [Array.size_setD]

theorem setLevel_shape (nodes : Array SkipListNode) (a i : Nat) (le : SkipListLevel) (b : Nat) :
    ((setLevel nodes a i le)[b]?).map nodeShape = (nodes[b]?).map nodeShape := by
  unfold setLevel
  cases hnd : nodes[a]? with
  | none => rfl
  | some nd =>
    by_cases hab : a = b
    · subst hab
      have ha : a < nodes.size := by
        by_contra hc
        rw [Array.getElem?_ge _ (Nat.le_of_not_lt hc)] at hnd
        cases hnd
      rw [getElem?_setD_self _ _ _ ha, hnd]
      simp [nodeShape, Array.size_setD]
    · rw [getElem?_setD_ne _ _ _ _ hab]

theorem setLevel_levAt_same {nodes : Array SkipListNode} {a : Nat} {nd : SkipListNode}
    (hnd : nodes[a]? = some nd) {i : Nat} (hi : i < nd.level.size) (le : SkipListLevel) :
    levAt (setLevel nodes a i le) a i = some le := by
  unfold setLevel
  rw [hnd]
  have ha : a < nodes.size := by
    by_contra hc
    rw [Array.getElem?_ge _ (Nat.le_of_not_lt hc)] at hnd
    cases hnd
  unfold levAt
  rw [getElem?_setD_self _ _ _ ha]
  simp [getElem?_setD_self _ _ _ hi]

theorem setLevel_levAt_other {nodes : Array SkipListNode} {a i b j : Nat}
    (h : a ≠ b ∨ i ≠ j) (le : SkipListLevel) :
    levAt (setLevel nodes a i le) b j = levAt nodes b j := by
  unfold setLevel
  cases hnd : nodes[a]? with
  | none => rfl
  | some nd =>
    unfold levAt
    by_cases hab : a = b
    · subst hab
      rcases h with h | h
      · exact absurd rfl h
      · have ha : a < nodes.size := by
          by_contra hc
          rw [Array.getElem?_ge _ (Nat.le_of_not_lt hc)] at hnd
          cases hnd
        rw [getElem?_setD_self _ _ _ ha, hnd]
        simp [getElem?_setD_ne _ _ _ _ h]
    · rw [getElem?_setD_ne _ _ _ _ hab]

theorem setBackward_size (nodes : Array SkipListNode) (a : Nat) (b : Option Nat) :
    (setBackward nodes a b).size = nodes.size := by
  unfold setBackward
  cases nodes[a]? with
  | none => rfl
  | some nd => simp [Array.size_setD]

theorem setBackward_levAt (nodes : Array SkipListNode) (a : Nat) (b : Option Nat)
    (c i : Nat) : levAt (setBackward nodes a b) c i = levAt nodes c i := by
  unfold setBackward
  cases hnd : nodes[a]? with
  | none => rfl
  | some nd =>
    unfold levAt
    by_cases hac : a = c
    · subst hac
      have ha : a < nodes.size := by
        by_contra hc
        rw [Array.getElem?_ge _ (Nat.le_of_not_lt hc)] at hnd
        cases hnd
      rw [getElem?_setD_self _ _ _ ha, hnd]
      rfl
    · rw [getElem?_setD_ne _ _ _ _ hac]

theorem setBackward_shape_other (nodes : Array SkipListNode) (a : Nat) (b : Option Nat)
    (c : Nat) (hac : a ≠ c) : (setBackward nodes a b)[c]? = nodes[c]? := by
  unfold setBackward
  cases hnd : nodes[a]? with
  | none => rfl
  | some nd => rw [getElem?_setD_ne _ _ _ _ hac]

theorem setBackward_same {nodes : Array SkipListNode} {a : Nat} {nd : SkipListNode}
    (hnd : nodes[a]? = some nd) (b : Option Nat) :
    (setBackward nodes a b)[a]? = some { nd with backward := b } := by
  unfold setBackward
  rw [hnd]
  have ha : a < nodes.size := by
    by_contra hc
    rw [Array.getElem?_ge _ (Nat.le_of_not_lt hc)] at hnd
    cases hnd
  rw [getElem?_setD_self _ _ _ ha]


/-! Simulation of the level-raising loop. -/

theorem raiseLoop_cons (len i : Nat) (rest : List Nat) (nodes : Array SkipListNode)
    (upd : Array (Option Nat)) (rnk : Array Nat) :
    raiseLoop len (i :: rest) nodes upd rnk =
      (nodes[0]?).bind (fun hd => (hd.level[i]?).bind (fun le =>
        raiseLoop len rest (setLevel nodes 0 i { le with span := len })
          (upd.setD i (some 0)) (rnk.setD i 0))) := rfl

theorem raiseLoop_sim (len : Nat) :
    ∀ (ls : List Nat) (nodes : Array SkipListNode) (upd : Array (Option Nat))
      (rnk : Array Nat),
      ls.Nodup →
      (∀ i ∈ ls, (levAt nodes 0 i).isSome) →
      ∃ nodes2 upd2 rnk2,
        raiseLoop len ls nodes upd rnk = some (nodes2, upd2, rnk2) ∧
        nodes2.size = nodes.size ∧
        (∀ b : Nat, (nodes2[b]?).map nodeShape = (nodes[b]?).map nodeShape) ∧
        (∀ b i : Nat, b ≠ 0 ∨ i ∉ ls → levAt nodes2 b i = levAt nodes b i) ∧
        (∀ i ∈ ls, levAt nodes2 0 i =
          (levAt nodes 0 i).map (fun le => { le with span := len })) ∧
        upd2.size = upd.size ∧ rnk2.size = rnk.size ∧
        (∀ j, j ∉ ls → upd2[j]? = upd[j]? ∧ rnk2[j]? = rnk[j]?) ∧
        (∀ j ∈ ls, j < upd.size → upd2[j]? = some (some 0)) ∧
        (∀ j ∈ ls, j < rnk.size → rnk2[j]? = some 0) := by
  intro ls
  induction ls with
  | nil =>
    intro nodes upd rnk _ _
    exact ⟨nodes, upd, rnk, rfl, rfl, fun (b : Nat) => rfl, fun (b i : Nat) _ => rfl, by simp,
      rfl, rfl, fun (j : Nat) _ => ⟨rfl, rfl⟩, by simp, by simp⟩
  | cons i rest ih =>
    intro nodes upd rnk hnd hsome
    have hi := hsome i (by simp)
    rcases Option.isSome_iff_exists.mp hi with ⟨le, hle⟩
    rcases Option.bind_eq_some.mp hle with ⟨hd, hhd, hhd2⟩
    have hnodup2 : rest.Nodup := (List.nodup_cons.mp hnd).2
    have hinotin : i ∉ rest := (List.nodup_cons.mp hnd).1
    set nodesA := setLevel nodes 0 i { le with span := len } with hA
    have hsome2 : ∀ i2 ∈ rest, (levAt nodesA 0 i2).isSome := by
      intro i2 h2
      rw [hA, setLevel_levAt_other (Or.inr (fun hc => hinotin (by rw [hc]; exact h2)))]
      exact hsome i2 (List.mem_cons_of_mem _ h2)
    rcases ih nodesA (upd.setD i (some 0)) (rnk.setD i 0) hnodup2 hsome2 with
      ⟨nodes2, upd2, rnk2, heq, hsz, hshape, hother, hmem, husz, hrsz, hnin, humem, hrmem⟩
    have hstep : raiseLoop len (i :: rest) nodes upd rnk =
        raiseLoop len rest nodesA (upd.setD i (some 0)) (rnk.setD i 0) := by
      rw [raiseLoop_cons, hhd, Option.some_bind, hhd2, Option.some_bind]
    refine ⟨nodes2, upd2, rnk2, by rw [hstep]; exact heq, ?_, ?_, ?_, ?_, ?_, ?_, ?_, ?_, ?_⟩
    · rw [hsz, hA, setLevel_size]
    · intro b
      rw [hshape b, hA, setLevel_shape]
    · intro b i3 h
      have h3 : b ≠ 0 ∨ i3 ∉ rest := by
        rcases h with h | h
        · exact Or.inl h
        · exact Or.inr (fun hc => h (List.mem_cons_of_mem _ hc))
      rw [hother b i3 h3, hA]
      rcases h with h | h
      · exact setLevel_levAt_other (Or.inl (fun hc => h hc.symm)) _
      · exact setLevel_levAt_other
          (Or.inr (fun hc => h (by rw [← hc]; exact List.mem_cons_self i rest))) _
    · intro i3 h3
      rcases List.mem_cons.mp h3 with h3 | h3
      · subst h3
        rw [hother 0 i3 (Or.inr hinotin), hA,
          setLevel_levAt_same hhd (by
            have : i3 < hd.level.size := by
              by_contra hc
              rw [Array.getElem?_ge _ (Nat.le_of_not_lt hc)] at hhd2
              cases hhd2
            exact this) _, hle]
        rfl
      · rw [hmem i3 h3, hA, setLevel_levAt_other (Or.inr (fun hc => hinotin (by rw [hc]; exact h3)))]
    · rw [husz, Array.size_setD]
    · rw [hrsz, Array.size_setD]
    · intro j hj
      have hj2 : j ∉ rest := fun hc => hj (List.mem_cons_of_mem _ hc)
      have hji : i ≠ j := fun hc => hj (hc ▸ List.mem_cons_self i rest)
      rcases hnin j hj2 with ⟨h1, h2⟩
      rw [h1, h2, getElem?_setD_ne _ _ _ _ hji, getElem?_setD_ne _ _ _ _ hji]
      exact ⟨rfl, rfl⟩
    · intro j hj hjsz
      rcases List.mem_cons.mp hj with hj | hj
      · subst hj
        rcases hnin j hinotin with ⟨h1, -⟩
        rw [h1, getElem?_setD_self _ _ _ hjsz]
      · exact humem j hj (by rw [Array.size_setD]; exact hjsz)
    · intro j hj hjsz
      rcases List.mem_cons.mp hj with hj | hj
      · subst hj
        rcases hnin j hinotin with ⟨-, h2⟩
        rw [h2, getElem?_setD_self _ _ _ hjsz]
      · exact hrmem j hj (by rw [Array.size_setD]; exact hjsz)

/-! Simulation of the splice loop. -/

theorem spliceLoop_cons (newIdx : Nat) (upd : Array (Option Nat)) (rnk : Array Nat)
    (i : Nat) (rest : List Nat) (nodes : Array SkipListNode) :
    spliceLoop newIdx upd rnk (i :: rest) nodes =
      Option.bind upd[i]? fun uo =>
      Option.bind uo fun prevIdx =>
      if prevIdx = newIdx then none
      else
      Option.bind nodes[prevIdx]? fun prevNode =>
      Option.bind prevNode.level[i]? fun prevLe =>
      Option.bind nodes[newIdx]? fun currNode =>
      Option.bind currNode.level[i]? fun _ =>
      Option.bind rnk[0]? fun r0 =>
      Option.bind rnk[i]? fun ri =>
      Option.bind (checkedSub r0 ri) fun d =>
      Option.bind (checkedSub prevLe.span d) fun sp =>
      spliceLoop newIdx upd rnk rest
        (setLevel (setLevel nodes newIdx i { forward := prevLe.forward, span := sp })
          prevIdx i { forward := some newIdx, span := d + 1 }) := rfl

theorem spliceLoop_sim (newIdx : Nat) (upd : Array (Option Nat)) (rnk : Array Nat)
    (t : Nat) (hr0 : rnk[0]? = some t) (u : Nat → Nat) (U : Nat → Nat) :
    ∀ (ls : List Nat) (nodes : Array SkipListNode),
      ls.Nodup →
      (∀ i ∈ ls,
        upd[i]? = some (some (u i)) ∧ rnk[i]? = some (U i) ∧ u i ≠ newIdx ∧ U i ≤ t ∧
        (∃ ple, levAt nodes (u i) i = some ple ∧ t - U i ≤ ple.span) ∧
        (levAt nodes newIdx i).isSome) →
      ∃ nodes2, spliceLoop newIdx upd rnk ls nodes = some nodes2 ∧
        nodes2.size = nodes.size ∧
        (∀ b : Nat, (nodes2[b]?).map nodeShape = (nodes[b]?).map nodeShape) ∧
        (∀ b i : Nat, i ∉ ls → levAt nodes2 b i = levAt nodes b i) ∧
        (∀ b i : Nat, i ∈ ls → b ≠ u i → b ≠ newIdx → levAt nodes2 b i = levAt nodes b i) ∧
        (∀ i ∈ ls, levAt nodes2 (u i) i =
          some { forward := some newIdx, span := (t - U i) + 1 }) ∧
        (∀ i ∈ ls, levAt nodes2 newIdx i =
          (levAt nodes (u i) i).map (fun ple =>
            { forward := ple.forward, span := ple.span - (t - U i) })) := by
  intro ls
  induction ls with
  | nil =>
    intro nodes _ _
    exact ⟨nodes, rfl, rfl, fun b => rfl, fun b i _ => rfl, fun b i h _ _ => by simp at h,
      by simp, by simp⟩
  | cons i rest ih =>
    intro nodes hnd hpre
    rcases hpre i (by simp) with ⟨hupd, hrnk, hune, hUt, ⟨ple, hple, hsp⟩, hcur⟩
    rcases Option.bind_eq_some.mp hple with ⟨prevNode, hprev, hprevle⟩
    rcases Option.isSome_iff_exists.mp hcur with ⟨cle, hcle⟩
    rcases Option.bind_eq_some.mp hcle with ⟨currNode, hcurr, hcurrle⟩
    have hnodup2 : rest.Nodup := (List.nodup_cons.mp hnd).2
    have hinotin : i ∉ rest := (List.nodup_cons.mp hnd).1
    set d := t - U i with hd
    set nodesA := setLevel nodes newIdx i { forward := ple.forward, span := ple.span - d }
      with hA
    set nodesB := setLevel nodesA (u i) i { forward := some newIdx, span := d + 1 } with hB
    have hstep : spliceLoop newIdx upd rnk (i :: rest) nodes =
        spliceLoop newIdx upd rnk rest nodesB := by
      rw [spliceLoop_cons, hupd, Option.some_bind, Option.some_bind, if_neg hune,
        hprev, Option.some_bind, hprevle, Option.some_bind, hcurr, Option.some_bind,
        hcurrle, Option.some_bind, hr0, Option.some_bind, hrnk, Option.some_bind]
      rw [show checkedSub t (U i) = some d from by rw [checkedSub, if_pos hUt]]
      rw [Option.some_bind]
      rw [show checkedSub ple.span d = some (ple.span - d) from by
        rw [checkedSub, if_pos hsp]]
      rw [Option.some_bind]
    -- level-i entries after the two writes of this iteration
    have hBui : levAt nodesB (u i) i = some { forward := some newIdx, span := d + 1 } := by
      rw [hB]
      have hprevA : nodesA[u i]? = some prevNode := by
        rw [hA]
        unfold setLevel
        rw [hcurr]
        rw [getElem?_setD_ne _ _ _ _ (fun hc => hune hc.symm)]
        exact hprev
      have hsz : i < prevNode.level.size := by
        by_contra hc
        rw [Array.getElem?_ge _ (Nat.le_of_not_lt hc)] at hprevle
        cases hprevle
      exact setLevel_levAt_same hprevA hsz _
    have hBnew : levAt nodesB newIdx i =
        some { forward := ple.forward, span := ple.span - d } := by
      rw [hB, setLevel_levAt_other (Or.inl hune) _, hA]
      have hsz : i < currNode.level.size := by
        by_contra hc
        rw [Array.getElem?_ge _ (Nat.le_of_not_lt hc)] at hcurrle
        cases hcurrle
      exact setLevel_levAt_same hcurr hsz _
    have hBother : ∀ b j : Nat, j ≠ i → levAt nodesB b j = levAt nodes b j := by
      intro b j hj
      rw [hB, setLevel_levAt_other (Or.inr (fun hc => hj hc.symm)) _,
        hA, setLevel_levAt_other (Or.inr (fun hc => hj hc.symm)) _]
    have hBother2 : ∀ b : Nat, b ≠ u i → b ≠ newIdx → levAt nodesB b i = levAt nodes b i := by
      intro b h1 h2
      rw [hB, setLevel_levAt_other (Or.inl (fun hc => h1 hc.symm)) _,
        hA, setLevel_levAt_other (Or.inl (fun hc => h2 hc.symm)) _]
    have hBshape : ∀ b : Nat, (nodesB[b]?).map nodeShape = (nodes[b]?).map nodeShape := by
      intro b
      rw [hB, setLevel_shape, hA, setLevel_shape]
    have hBsize : nodesB.size = nodes.size := by
      rw [hB, setLevel_size, hA, setLevel_size]
    have hpre2 : ∀ i2 ∈ rest,
        upd[i2]? = some (some (u i2)) ∧ rnk[i2]? = some (U i2) ∧ u i2 ≠ newIdx ∧ U i2 ≤ t ∧
        (∃ ple2, levAt nodesB (u i2) i2 = some ple2 ∧ t - U i2 ≤ ple2.span) ∧
        (levAt nodesB newIdx i2).isSome := by
      intro i2 h2
      have hne : i2 ≠ i := fun hc => hinotin (hc ▸ h2)
      rcases hpre i2 (List.mem_cons_of_mem _ h2) with ⟨g1, g2, g3, g4, ⟨p2, g5, g6⟩, g7⟩
      exact ⟨g1, g2, g3, g4, ⟨p2, by rw [hBother _ _ hne]; exact g5, g6⟩,
        by rw [hBother _ _ hne]; exact g7⟩
    rcases ih nodesB hnodup2 hpre2 with
      ⟨nodes2, heq, hsz2, hshape2, hnotin2, hother2, humem2, hnew2⟩
    refine ⟨nodes2, by rw [hstep]; exact heq, ?_, ?_, ?_, ?_, ?_, ?_⟩
    · rw [hsz2, hBsize]
    · intro b
      rw [hshape2 b, hBshape b]
    · intro b j hj
      have hji : j ≠ i := fun hc => hj (hc ▸ List.mem_cons_self i rest)
      have hjr : j ∉ rest := fun hc => hj (List.mem_cons_of_mem _ hc)
      rw [hnotin2 b j hjr, hBother b j hji]
    · intro b j hjmem hb1 hb2
      rcases List.mem_cons.mp hjmem with hj | hj
      · subst hj
        rw [hnotin2 b j hinotin, hBother2 b hb1 hb2]
      · rw [hother2 b j hj hb1 hb2, hBother b j (fun hc => hinotin (hc ▸ hj))]
    · intro j hjmem
      rcases List.mem_cons.mp hjmem with hj | hj
      · subst hj
        rw [hnotin2 (u j) j hinotin, hBui]
      · rw [humem2 j hj]
    · intro j hjmem
      rcases List.mem_cons.mp hjmem with hj | hj
      · subst hj
        rw [hnotin2 newIdx j hinotin, hBnew, hple]
        rfl
      · rw [hnew2 j hj]
        congr 1
        exact hBother (u j) j (fun hc => hinotin (hc ▸ hj))

/-! Simulation of the span-increment loop. -/

theorem bumpLoop_cons (upd : Array (Option Nat)) (i : Nat) (rest : List Nat)
    (nodes : Array SkipListNode) :
    bumpLoop upd (i :: rest) nodes =
      Option.bind upd[i]? fun uo =>
      Option.bind uo fun prevIdx =>
      Option.bind nodes[prevIdx]? fun prevNode =>
      Option.bind prevNode.level[i]? fun prevLe =>
      bumpLoop upd rest
        (setLevel nodes prevIdx i { prevLe with span := prevLe.span + 1 }) := rfl

theorem bumpLoop_sim (upd : Array (Option Nat)) (u : Nat → Nat) :
    ∀ (ls : List Nat) (nodes : Array SkipListNode),
      ls.Nodup →
      (∀ i ∈ ls, upd[i]? = some (some (u i)) ∧ (levAt nodes (u i) i).isSome) →
      ∃ nodes2, bumpLoop upd ls nodes = some nodes2 ∧
        nodes2.size = nodes.size ∧
        (∀ b : Nat, (nodes2[b]?).map nodeShape = (nodes[b]?).map nodeShape) ∧
        (∀ b i : Nat, i ∉ ls → levAt nodes2 b i = levAt nodes b i) ∧
        (∀ b i : Nat, i ∈ ls → b ≠ u i → levAt nodes2 b i = levAt nodes b i) ∧
        (∀ i ∈ ls, levAt nodes2 (u i) i =
          (levAt nodes (u i) i).map (fun le => { le with span := le.span + 1 })) := by
  intro ls
  induction ls with
  | nil =>
    intro nodes _ _
    exact ⟨nodes, rfl, rfl, fun b => rfl, fun b i _ => rfl, fun b i h _ => by simp at h,
      by simp⟩
  | cons i rest ih =>
    intro nodes hnd hpre
    rcases hpre i (by simp) with ⟨hupd, hcur⟩
    rcases Option.isSome_iff_exists.mp hcur with ⟨ple, hple⟩
    rcases Option.bind_eq_some.mp hple with ⟨prevNode, hprev, hprevle⟩
    have hnodup2 : rest.Nodup := (List.nodup_cons.mp hnd).2
    have hinotin : i ∉ rest := (List.nodup_cons.mp hnd).1
    set nodesA := setLevel nodes (u i) i { ple with span := ple.span + 1 } with hA
    have hstep : bumpLoop upd (i :: rest) nodes = bumpLoop upd rest nodesA := by
      rw [bumpLoop_cons, hupd, Option.some_bind, Option.some_bind, hprev,
        Option.some_bind, hprevle, Option.some_bind]
    have hAui : levAt nodesA (u i) i = some { ple with span := ple.span + 1 } := by
      rw [hA]
      have hsz : i < prevNode.level.size := by
        by_contra hc
        rw [Array.getElem?_ge _ (Nat.le_of_not_lt hc)] at hprevle
        cases hprevle
      exact setLevel_levAt_same hprev hsz _
    have hAother : ∀ b j : Nat, j ≠ i → levAt nodesA b j = levAt nodes b j := by
      intro b j hj
      rw [hA, setLevel_levAt_other (Or.inr (fun hc => hj hc.symm)) _]
    have hAother2 : ∀ b : Nat, b ≠ u i → levAt nodesA b i = levAt nodes b i := by
      intro b h1
      rw [hA, setLevel_levAt_other (Or.inl (fun hc => h1 hc.symm)) _]
    have hpre2 : ∀ i2 ∈ rest, upd[i2]? = some (some (u i2)) ∧
        (levAt nodesA (u i2) i2).isSome := by
      intro i2 h2
      have hne : i2 ≠ i := fun hc => hinotin (hc ▸ h2)
      rcases hpre i2 (List.mem_cons_of_mem _ h2) with ⟨g1, g2⟩
      exact ⟨g1, by rw [hAother _ _ hne]; exact g2⟩
    rcases ih nodesA hnodup2 hpre2 with
      ⟨nodes2, heq, hsz2, hshape2, hnotin2, hother2, humem2⟩
    refine ⟨nodes2, by rw [hstep]; exact heq, ?_, ?_, ?_, ?_, ?_⟩
    · rw [hsz2, hA, setLevel_size]
    · intro b
      rw [hshape2 b, hA, setLevel_shape]
    · intro b j hj
      have hji : j ≠ i := fun hc => hj (hc ▸ List.mem_cons_self i rest)
      have hjr : j ∉ rest := fun hc => hj (List.mem_cons_of_mem _ hc)
      rw [hnotin2 b j hjr, hAother b j hji]
    · intro b j hjmem hb1
      rcases List.mem_cons.mp hjmem with hj | hj
      · subst hj
        rw [hnotin2 b j hinotin, hAother2 b hb1]
      · rw [hother2 b j hj hb1, hAother b j (fun hc => hinotin (hc ▸ hj))]
    · intro j hjmem
      rcases List.mem_cons.mp hjmem with hj | hj
      · subst hj
        rw [hnotin2 (u j) j hinotin, hAui, hple]
        rfl
      · rw [humem2 j hj]
        congr 1
        exact hAother (u j) j (fun hc => hinotin (hc ▸ hj))

/-! The model insert preserves the model invariant. -/

theorem mnew_inv : ModelInv mnew := by
  refine ⟨?_, ?_, ?_, ?_, ?_⟩
  · simp [mnew]
  · simp [mnew]
  · simp [mnew]
  · simp [mnew]
  · simp [mnew, SKIP_LIST_MAX_LEVEL]

theorem minsert_inv {m : Model} (hm : ModelInv m) (k : Int) (v : String) (l : Nat)
    (hl1 : 1 ≤ l) (hl2 : l ≤ SKIP_LIST_MAX_LEVEL) : ModelInv (minsert m k v l) := by
  set p : Entry → Bool := fun z => decide (kLt z.key (k, v)) with hp
  set T := m.entries.takeWhile p with hT
  set D := m.entries.dropWhile p with hD
  have hTD : T ++ D = m.entries := List.takeWhile_append_dropWhile p m.entries
  have hsorted := hm.sorted
  rw [← hTD] at hsorted
  rcases List.chain'_append.mp hsorted with ⟨hcT, hcD, hcross⟩
  refine ⟨?_, ?_, ?_, ?_, ?_⟩
  · show List.Chain' _ (T ++ _ :: D)
    apply List.Chain'.append hcT
    · apply List.Chain'.cons'
      · exact hcD
      · intro y hy
        rw [Option.mem_def] at hy
        have h0 := List.head?_dropWhile_not p m.entries
        rw [← hD, hy] at h0
        simp only at h0
        show kLe (k, v) y.key
        exact kLe_of_not_kLt (by simpa [hp] using h0)
    · intro x hx y hy
      rw [Option.mem_def, List.head?_cons, Option.some_inj] at hy
      subst hy
      have hxT : x ∈ T := List.mem_of_mem_getLast? hx
      have hpx : p x = true := List.mem_takeWhile_imp hxT
      show kLe x.key (k, v)
      exact kLe_of_kLt (by simpa [hp] using hpx)
  · show (List.map Entry.idx (T ++ _ :: D)).Perm _
    rw [List.map_append, List.map_cons]
    have h1 : (List.map Entry.idx T ++ (m.entries.length + 1) :: List.map Entry.idx D).Perm
        ((m.entries.length + 1) :: (List.map Entry.idx T ++ List.map Entry.idx D)) :=
      List.perm_middle
    have h2 : List.map Entry.idx T ++ List.map Entry.idx D = List.map Entry.idx m.entries := by
      rw [← List.map_append, hTD]
    rw [h2] at h1
    refine h1.trans ?_
    have h3 : ((m.entries.length + 1) :: List.map Entry.idx m.entries).Perm
        (List.map Entry.idx m.entries ++ [m.entries.length + 1]) :=
      (List.perm_append_singleton _ _).symm
    refine h3.trans ?_
    have h4 : (List.map Entry.idx m.entries ++ [m.entries.length + 1]).Perm
        (List.range' 1 m.entries.length ++ [m.entries.length + 1]) :=
      hm.idxPerm.append_right _
    refine h4.trans ?_
    rw [show m.entries.length + 1 = 1 + 1 * m.entries.length by omega, ← List.range'_concat]
    show (List.range' 1 (m.entries.length + 1) 1).Perm (List.range' 1 ((minsert m k v l).entries.length))
    have hlen : (minsert m k v l).entries.length = m.entries.length + 1 := by
      show (T ++ _ :: D).length = _
      rw [← hTD]
      simp
      omega
    rw [hlen]
  · intro e he
    rcases List.mem_append.mp he with he | he
    · have := hm.heights e (by rw [← hTD]; exact List.mem_append_left _ (by exact he))
      exact ⟨this.1, le_trans this.2 (le_max_left _ _)⟩
    · rcases List.mem_cons.mp he with he | he
      · subst he
        exact ⟨hl1, le_max_right _ _⟩
      · have := hm.heights e (by rw [← hTD]; exact List.mem_append_right _ he)
        exact ⟨this.1, le_trans this.2 (le_max_left _ _)⟩
  · exact le_trans hm.lvl_lb (le_max_left _ _)
  · exact max_le hm.lvl_ub hl2

/-! How the canonical level entries change when a new entry lands between a
suffix S of smaller-key entries and the rest D. -/

theorem mk_untouched {S D : List Entry} {enew : Entry} {j : Nat}
    (h : (findAbove j S).isSome) :
    mkLevel (S ++ enew :: D) j = mkLevel (S ++ D) j := by
  rcases Option.isSome_iff_exists.mp h with ⟨q, hq⟩
  unfold mkLevel
  rw [findAbove_append_some hq, findAbove_append_some hq]

theorem mk_spliced {S D : List Entry} {enew : Entry} {j : Nat}
    (hS : findAbove j S = none) (hj : j < enew.height) :
    mkLevel (S ++ enew :: D) j = { forward := some enew.idx, span := S.length + 1 } := by
  unfold mkLevel
  rw [findAbove_append_none _ hS]
  rw [show findAbove j (enew :: D) = some (0, enew) from by simp [findAbove, hj]]
  simp [Nat.add_comm]

theorem mk_bumped {S D : List Entry} {enew : Entry} {j : Nat}
    (hS : findAbove j S = none) (hj : enew.height ≤ j) :
    mkLevel (S ++ enew :: D) j =
      { forward := (mkLevel (S ++ D) j).forward,
        span := (mkLevel (S ++ D) j).span + 1 } := by
  unfold mkLevel
  rw [findAbove_append_none _ hS, findAbove_append_none _ hS]
  rw [show findAbove j (enew :: D) = (findAbove j D).map (fun p => (p.1 + 1, p.2)) from by
    simp [findAbove, Nat.not_lt_of_le hj]]
  cases findAbove j D with
  | none => simp; omega
  | some q => simp; omega

theorem mk_newnode {S D : List Entry} {j : Nat} (hS : findAbove j S = none) :
    mkLevel D j = { forward := (mkLevel (S ++ D) j).forward,
                    span := (mkLevel (S ++ D) j).span - S.length } := by
  unfold mkLevel
  rw [findAbove_append_none _ hS]
  cases findAbove j D with
  | none => simp
  | some q => simp; omega

/-- Uniqueness of a split at the last tall entry of a list. -/
theorem lastTall_unique {j : Nat} :
    ∀ {A1 B1 A2 B2 : List Entry} {e1 e2 : Entry},
      A1 ++ e1 :: B1 = A2 ++ e2 :: B2 →
      j < e1.height → j < e2.height →
      (∀ z ∈ B1, z.height ≤ j) → (∀ z ∈ B2, z.height ≤ j) →
      e1 = e2 ∧ A1 = A2 ∧ B1 = B2 := by
  intro A1 B1 A2 B2 e1 e2 heq h1 h2 hB1 hB2
  rcases List.append_eq_append_iff.mp heq with ⟨E, hE1, hE2⟩ | ⟨E, hE1, hE2⟩
  · cases E with
    | nil =>
      simp at hE1 hE2
      obtain ⟨he, hB⟩ := hE2
      refine ⟨he, by rw [hE1], hB⟩
    | cons w E2 =>
      rw [List.cons_append] at hE2
      injection hE2 with hw hrest
      subst hw
      have : e2 ∈ B1 := by rw [hrest]; exact List.mem_append_right _ (by simp)
      exact absurd h2 (Nat.not_lt_of_le (hB1 _ this))
  · cases E with
    | nil =>
      simp at hE1 hE2
      obtain ⟨he, hB⟩ := hE2
      refine ⟨he.symm, by rw [hE1], hB.symm⟩
    | cons w E2 =>
      rw [List.cons_append] at hE2
      injection hE2 with hw hrest
      subst hw
      have : e1 ∈ B2 := by rw [hrest]; exact List.mem_append_right _ (by simp)
      exact absurd h1 (Nat.not_lt_of_le (hB2 _ this))

theorem node_fields_ext {a b : SkipListNode} (h1 : a.obj = b.obj)
    (h2 : a.score = b.score) (h3 : a.backward = b.backward)
    (h4 : a.level = b.level) : a = b := by
  cases a
  cases b
  simp only at h1 h2 h3 h4
  rw [h1, h2, h3, h4]

/-- Two arenas with equal sizes, equal node shapes and equal level entries are
equal. -/
theorem arena_ext {n1 n2 : Array SkipListNode}
    (hsz : n1.size = n2.size)
    (hshape : ∀ b : Nat, (n1[b]?).map nodeShape = (n2[b]?).map nodeShape)
    (hlev : ∀ b i : Nat, levAt n1 b i = levAt n2 b i) : n1 = n2 := by
  apply Array.ext n1 n2 hsz
  intro b hb1 hb2
  have h1 : n1[b]? = some n1[b] := Array.getElem?_eq_getElem hb1
  have h2 : n2[b]? = some n2[b] := Array.getElem?_eq_getElem hb2
  have hsh := hshape b
  rw [h1, h2] at hsh
  simp only [Option.map_some'] at hsh
  have hsh2 : nodeShape n1[b] = nodeShape n2[b] := Option.some_inj.mp hsh
  have ho : n1[b].obj = n2[b].obj := congrArg (fun q => q.1) hsh2
  have hs : n1[b].score = n2[b].score := congrArg (fun q => q.2.1) hsh2
  have hbk : n1[b].backward = n2[b].backward := congrArg (fun q => q.2.2.1) hsh2
  have hlvsz : n1[b].level.size = n2[b].level.size := congrArg (fun q => q.2.2.2) hsh2
  have hlv : n1[b].level = n2[b].level := by
    apply Array.ext _ _ hlvsz
    intro i hi1 hi2
    have g1 : levAt n1 b i = some (n1[b].level[i]) := by
      unfold levAt
      rw [h1]
      simp [Array.getElem?_eq_getElem hi1]
    have g2 : levAt n2 b i = some (n2[b].level[i]) := by
      unfold levAt
      rw [h2]
      simp [Array.getElem?_eq_getElem hi2]
    have := (g1.symm.trans (hlev b i)).trans g2
    exact Option.some_inj.mp this
  exact node_fields_ext ho hs hbk hlv

/-- The data the splice phase needs about the context the search stops on at
one level. -/
theorem level_ctx_data {m : Model} (hm : ModelInv m) (k : Int) (v : String) {j : Nat}
    (hj : j < m.lvl) :
    (ctxIter k v (m.lvl - j) j (none, m.entries)).2 =
      ((ctxIter k v (m.lvl - j) j (none, m.entries)).2.takeWhile
        (fun z => decide (kLt z.key (k, v)))) ++
      m.entries.dropWhile (fun z => decide (kLt z.key (k, v))) ∧
    (∀ z ∈ (ctxIter k v (m.lvl - j) j (none, m.entries)).2.takeWhile
        (fun z => decide (kLt z.key (k, v))), z.height ≤ j) ∧
    (((ctxIter k v (m.lvl - j) j (none, m.entries)).1 = none ∧
      (ctxIter k v (m.lvl - j) j (none, m.entries)).2 = m.entries ∧
      m.entries.takeWhile (fun z => decide (kLt z.key (k, v))) =
        (ctxIter k v (m.lvl - j) j (none, m.entries)).2.takeWhile
          (fun z => decide (kLt z.key (k, v)))) ∨
     (∃ e Q, (ctxIter k v (m.lvl - j) j (none, m.entries)).1 = some e ∧
        m.entries = Q ++ e :: (ctxIter k v (m.lvl - j) j (none, m.entries)).2 ∧
        m.entries.takeWhile (fun z => decide (kLt z.key (k, v))) =
          (Q ++ [e]) ++ (ctxIter k v (m.lvl - j) j (none, m.entries)).2.takeWhile
            (fun z => decide (kLt z.key (k, v))) ∧
        j < e.height ∧ kLt e.key (k, v))) := by
  set st := ctxIter k v (m.lvl - j) j (none, m.entries) with hst
  set p : Entry → Bool := fun z => decide (kLt z.key (k, v)) with hp
  have hfacts := @cfin_facts m k v (m.lvl - j) j
  rw [← hst] at hfacts
  obtain ⟨hok, hent⟩ := hfacts
  have hadvn : advance j k v st.2 = none := by
    rw [hst]
    exact cfin_advance_none k v (m.lvl - j) j (by omega)
  have hshort := advance_none_takeWhile_short hadvn
  cases hxo : st.1 with
  | none =>
    have h2 : st.2 = m.entries := by
      obtain ⟨xo, R⟩ := st
      simp only at hxo
      subst hxo
      exact hok
    refine ⟨?_, hshort, Or.inl ⟨rfl, h2, by rw [h2]⟩⟩
    conv_lhs => rw [← List.takeWhile_append_dropWhile p st.2]
    rw [h2]
  | some e =>
    have hsplit := ctx_split hm k v hok (fun e2 h2 => by
      rw [hxo] at h2
      cases h2
      exact (hent _ hxo).2) e hxo
    rcases hsplit with ⟨Q, hQ, hTW, hDW⟩
    refine ⟨?_, hshort, Or.inr ⟨e, Q, rfl, hQ, by rw [hTW], (hent _ hxo).1, (hent _ hxo).2⟩⟩
    conv_lhs => rw [← List.takeWhile_append_dropWhile p st.2]
    rw [hDW]

/-! Unfolded form of insert, for stepwise rewriting. -/

theorem insert_def (s : SkipList) (score : Int) (obj : String) (lvl : Nat) :
    SkipList.insert s score obj lvl =
      Option.bind (searchDown s.nodes score obj (s.nodes.size + 1) s.level 0 0
        (Array.mkArray SKIP_LIST_MAX_LEVEL (none : Option Nat))
        (Array.mkArray SKIP_LIST_MAX_LEVEL (0 : Nat))) fun pr =>
      Option.bind (raiseLoop s.length
        (List.range' s.level ((if lvl > s.level then lvl else s.level) - s.level))
        s.nodes pr.1 pr.2) fun tr =>
      Option.bind (spliceLoop tr.1.size tr.2.1 tr.2.2 (List.range lvl)
        (tr.1.push (SkipListNode.new lvl score (some obj)))) fun nodes2 =>
      Option.bind (bumpLoop tr.2.1
        (List.range' lvl ((if lvl > s.level then lvl else s.level) - lvl)) nodes2) fun nodes3 =>
      Option.bind tr.2.1[0]? fun uo =>
      Option.bind uo fun upd0 =>
      Option.bind (setBackward nodes3 tr.1.size
        (if upd0 = 0 then none else some upd0))[tr.1.size]? fun currNode =>
      Option.bind currNode.level[0]? fun currLe0 =>
      match currLe0.forward with
      | some e =>
        if e = tr.1.size then none
        else some { nodes := setBackward (setBackward nodes3 tr.1.size
                      (if upd0 = 0 then none else some upd0)) e (some tr.1.size),
                    tail := s.tail, length := s.length + 1,
                    level := if lvl > s.level then lvl else s.level }
      | none =>
        some { nodes := setBackward nodes3 tr.1.size (if upd0 = 0 then none else some upd0),
               tail := some tr.1.size, length := s.length + 1,
               level := if lvl > s.level then lvl else s.level } := rfl

/-! Small auxiliary lemmas for the main theorem. -/

theorem mem_takeWhile_mem {α} {q : α → Bool} :
    ∀ {L : List α} {a : α}, a ∈ L.takeWhile q → a ∈ L := by
  intro L
  induction L with
  | nil => intro a h; simp at h
  | cons x xs ih =>
    intro a h
    rw [List.takeWhile_cons] at h
    split at h
    · rcases List.mem_cons.mp h with h | h
      · exact h ▸ List.mem_cons_self x xs
      · exact List.mem_cons_of_mem _ (ih h)
    · simp at h

theorem mem_dropWhile_mem {α} {q : α → Bool} :
    ∀ {L : List α} {a : α}, a ∈ L.dropWhile q → a ∈ L := by
  intro L
  induction L with
  | nil => intro a h; simp at h
  | cons x xs ih =>
    intro a h
    rw [List.dropWhile_cons] at h
    split at h
    · exact List.mem_cons_of_mem _ (ih h)
    · exact h

theorem minsert_length (m : Model) (k : Int) (v : String) (l : Nat) :
    (minsert m k v l).entries.length = m.entries.length + 1 := by
  show (_ ++ _ :: _).length = _
  have h1 : (m.entries.takeWhile (fun e => decide (kLt e.key (k, v)))).length +
      (m.entries.dropWhile (fun e => decide (kLt e.key (k, v)))).length =
      m.entries.length := by
    conv_rhs => rw [← List.takeWhile_append_dropWhile
      (fun e => decide (kLt e.key (k, v))) m.entries]
    rw [List.length_append]
  rw [List.length_append, List.length_cons]
  omega

theorem no_tall_entries {m : Model} (hm : ModelInv m) {i : Nat} (hi : m.lvl ≤ i) :
    ∀ e ∈ m.entries, e.height ≤ i :=
  fun e he => le_trans (hm.heights e he).2 hi

theorem buildNodes_levAt_zero (m : Model) (i : Nat) :
    levAt (buildNodes m) 0 i =
      if i < 32 then
        some (if i < m.lvl then mkLevel m.entries i else { forward := none, span := 0 })
      else none := by
  unfold levAt
  rw [buildNodes_zero, Option.some_bind, headerNode_level_get]
  rfl

theorem buildNodes_levAt_entry {m : Model} (hm : ModelInv m) {A : List Entry}
    {e : Entry} {B : List Entry} (hsplit : m.entries = A ++ e :: B) (i : Nat) :
    levAt (buildNodes m) e.idx i =
      if i < e.height then some (mkLevel B i) else none := by
  unfold levAt
  rw [buildNodes_get_entry hm hsplit, Option.some_bind, mkNode_level_get]

theorem buildNodes_levAt_high {m : Model} {b : Nat} (h : m.entries.length + 1 ≤ b)
    (i : Nat) : levAt (buildNodes m) b i = none := by
  unfold levAt
  rw [buildNodes_get_high h]
  rfl

theorem ctxIdx_none {st : Ctx} (h : st.1 = none) : ctxIdx st = 0 := by
  obtain ⟨xo, R⟩ := st
  simp only at h
  subst h
  rfl

theorem ctxIdx_some {st : Ctx} {e : Entry} (h : st.1 = some e) : ctxIdx st = e.idx := by
  obtain ⟨xo, R⟩ := st
  simp only at h
  subst h
  rfl

theorem span_ge_shortlen {S B : List Entry} {j : Nat} (hshort : ∀ z ∈ S, z.height ≤ j) :
    S.length ≤ (mkLevel (S ++ B) j).span := by
  unfold mkLevel
  rw [findAbove_append_none _ (findAbove_eq_none.mpr hshort)]
  cases findAbove j B with
  | none => simp
  | some q => simp; omega

theorem findAbove_isSome_of_tall {j : Nat} {S : List Entry} {z : Entry}
    (hz : z ∈ S) (ht : j < z.height) : (findAbove j S).isSome := by
  cases hfa : findAbove j S with
  | some q => rfl
  | none => exact absurd ht (Nat.not_lt_of_le (findAbove_eq_none.mp hfa z hz))

theorem idx_inj_of_nodup {L : List Entry} (hnd : (L.map Entry.idx).Nodup)
    {e1 e2 : Entry} (h1 : e1 ∈ L) (h2 : e2 ∈ L) (h : e1.idx = e2.idx) : e1 = e2 :=
  List.inj_on_of_nodup_map hnd h1 h2 h

theorem split_unique_by_idx {L : List Entry} (hnd : (L.map Entry.idx).Nodup)
    {X1 Y1 X2 Y2 : List Entry} {e : Entry}
    (h1 : L = X1 ++ e :: Y1) (h2 : L = X2 ++ e :: Y2) : X1 = X2 ∧ Y1 = Y2 := by
  have heq : X1 ++ e :: Y1 = X2 ++ e :: Y2 := h1 ▸ h2
  rcases List.append_eq_append_iff.mp heq with ⟨E, hE1, hE2⟩ | ⟨E, hE1, hE2⟩
  · cases E with
    | nil =>
      simp at hE1 hE2
      exact ⟨by rw [hE1], hE2⟩
    | cons w E2 =>
      rw [List.cons_append] at hE2
      injection hE2 with hw hrest
      subst hw
      exfalso
      have hmem : e.idx ∈ (X2.map Entry.idx) := by
        rw [hE1]
        simp
      have hmem2 : e.idx ∈ (e :: Y2).map Entry.idx := by simp
      rw [h2, List.map_append, List.nodup_append] at hnd
      exact hnd.2.2 hmem hmem2
  · cases E with
    | nil =>
      simp at hE1 hE2
      exact ⟨hE1, hE2.symm⟩
    | cons w E2 =>
      rw [List.cons_append] at hE2
      injection hE2 with hw hrest
      subst hw
      exfalso
      have hmem : e.idx ∈ (X1.map Entry.idx) := by
        rw [hE1]
        simp
      have hmem2 : e.idx ∈ (e :: Y1).map Entry.idx := by simp
      rw [h1, List.map_append, List.nodup_append] at hnd
      exact hnd.2.2 hmem hmem2

/-- The central theorem: on the canonical state of a well-formed model, insert
succeeds and produces exactly the canonical state of the model-level insert. -/
theorem insert_concrete {m : Model} (hm : ModelInv m) (k : Int) (v : String) (l : Nat)
    (hl1 : 1 ≤ l) (hl2 : l ≤ SKIP_LIST_MAX_LEVEL) :
    SkipList.insert (concrete m) k v l = some (concrete (minsert m k v l)) := by
  have h32 : SKIP_LIST_MAX_LEVEL = 32 := rfl
  have hl32 : l ≤ 32 := by rw [← h32]; exact hl2
  have hlvl1 : 1 ≤ m.lvl := hm.lvl_lb
  have hlvl32 : m.lvl ≤ 32 := by rw [← h32]; exact hm.lvl_ub
  set n := m.entries.length with hn
  set p : Entry → Bool := fun z => decide (kLt z.key (k, v)) with hp
  set T := m.entries.takeWhile p with hT
  set D := m.entries.dropWhile p with hD
  have hTD : T ++ D = m.entries := List.takeWhile_append_dropWhile p m.entries
  set t := T.length with ht
  have htD : t + D.length = n := by rw [ht, hn, ← hTD, List.length_append]
  set NL := if l > m.lvl then l else m.lvl with hNL
  have hNLmax : NL = max m.lvl l := by
    rw [hNL, Nat.max_def]
    by_cases h : l > m.lvl
    · rw [if_pos h, if_pos (le_of_lt h)]
    · rw [if_neg h]
      by_cases h2 : m.lvl ≤ l
      · rw [if_pos h2, le_antisymm (by omega) h2]
      · rw [if_neg h2]
  have hNL1 : 1 ≤ NL := by rw [hNLmax]; omega
  have hNL32 : NL ≤ 32 := by rw [hNLmax]; omega
  have hlvlNL : m.lvl ≤ NL := by rw [hNLmax]; omega
  have hlNL : l ≤ NL := by rw [hNLmax]; omega
  set mMid : Model := { entries := m.entries, lvl := NL } with hmMid
  have hmidInv : ModelInv mMid := by
    refine ⟨hm.sorted, hm.idxPerm, ?_, by simpa [hmMid] using hNL1, by rw [h32]; exact hNL32⟩
    intro e he
    exact ⟨(hm.heights e he).1, le_trans (hm.heights e he).2 hlvlNL⟩
  have hmidlen : mMid.entries.length = n := rfl
  set m2 := minsert m k v l with hm2def
  have hm2 : ModelInv m2 := minsert_inv hm k v l hl1 hl2
  set enew : Entry := ⟨n + 1, k, v, l⟩ with henew
  have hE2 : m2.entries = T ++ enew :: D := rfl
  have hlen2 : m2.entries.length = n + 1 := minsert_length m k v l
  -- the search phase
  have hfuel : m.entries.length < (concrete m).nodes.size + 1 := by
    show _ < (buildNodes m).size + 1
    rw [buildNodes_size]
    omega
  obtain ⟨updF, rnkF, hsd, husz, hrsz, hhi, hlo⟩ :=
    searchDown_sim hm k v m.lvl (none, m.entries) 0
      (Array.mkArray SKIP_LIST_MAX_LEVEL (none : Option Nat))
      (Array.mkArray SKIP_LIST_MAX_LEVEL (0 : Nat))
      ((concrete m).nodes.size + 1) (le_refl _) rfl (by intro e he; cases he) hfuel
      (by simp) (by simp)
  simp only [ctxIdx] at hsd
  -- the raise phase runs on the original arena; its result is the canonical
  -- arena of the same entries at the raised list level
  have hraisesome : ∀ i ∈ List.range' m.lvl (NL - m.lvl),
      (levAt (buildNodes m) 0 i).isSome := by
    intro i hi
    rw [List.mem_range'_1] at hi
    have hi32 : i < 32 := by omega
    unfold levAt
    rw [buildNodes_zero, Option.some_bind, headerNode_level_get, h32, if_pos hi32]
    rfl
  obtain ⟨nodesR, updR, rnkR, hra, hrasz, hrashape, hraother, hramem, hruusz, hrursz,
      hrunin, hrumem, hrrmem⟩ :=
    raiseLoop_sim n (List.range' m.lvl (NL - m.lvl)) (buildNodes m) updF rnkF
      (List.nodup_range' _ _) hraisesome
  have hmidsz : (buildNodes mMid).size = n + 1 := buildNodes_size mMid
  have hshape_mid : ∀ b : Nat,
      ((buildNodes m)[b]?).map nodeShape = ((buildNodes mMid)[b]?).map nodeShape := by
    intro b
    by_cases hb0 : b = 0
    · subst hb0
      rw [buildNodes_zero, buildNodes_zero]
      simp [nodeShape, headerNode]
    · by_cases hbn : b ≤ n
      · obtain ⟨A, e, B, hsplit, hbidx⟩ := exists_entry_of_idx hm (by omega) hbn
        subst hbidx
        rw [buildNodes_get_entry hm hsplit, buildNodes_get_entry hmidInv hsplit]
      · rw [buildNodes_get_high (by omega), buildNodes_get_high (by omega)]
  have hlev_same : ∀ b i : Nat, b ≠ 0 →
      levAt (buildNodes m) b i = levAt (buildNodes mMid) b i := by
    intro b i hb0
    by_cases hbn : b ≤ n
    · obtain ⟨A, e, B, hsplit, hbidx⟩ := exists_entry_of_idx hm (by omega) hbn
      subst hbidx
      rw [buildNodes_levAt_entry hm hsplit, buildNodes_levAt_entry hmidInv hsplit]
    · rw [buildNodes_levAt_high (by omega), buildNodes_levAt_high (by omega)]
  have hmid : nodesR = buildNodes mMid := by
    apply arena_ext (by rw [hrasz, buildNodes_size, hmidsz])
    · intro b
      rw [hrashape b, hshape_mid b]
    · intro b i
      by_cases hb0 : b = 0
      · subst hb0
        by_cases hmem : i ∈ List.range' m.lvl (NL - m.lvl)
        · rw [hramem i hmem, buildNodes_levAt_zero, buildNodes_levAt_zero,
            show mMid.lvl = NL from rfl, show mMid.entries = m.entries from rfl]
          rw [List.mem_range'_1] at hmem
          have hiNL : i < NL := by omega
          have hi32 : i < 32 := by omega
          rw [if_pos hi32, if_pos hi32, if_neg (show ¬ i < m.lvl by omega), if_pos hiNL]
          have hfa : findAbove i m.entries = none :=
            findAbove_eq_none.mpr (no_tall_entries hm (by omega))
          simp only [Option.map_some']
          unfold mkLevel
          rw [hfa]
        · rw [hraother 0 i (Or.inr hmem), buildNodes_levAt_zero, buildNodes_levAt_zero,
            show mMid.lvl = NL from rfl, show mMid.entries = m.entries from rfl]
          rw [List.mem_range'_1] at hmem
          push_neg at hmem
          by_cases hi32 : i < 32
          · rw [if_pos hi32, if_pos hi32]
            by_cases hilvl : i < m.lvl
            · rw [if_pos hilvl, if_pos (show i < NL by omega)]
            · rw [if_neg hilvl, if_neg (show ¬ i < NL from fun hc => hilvl (by omega))]
          · rw [if_neg hi32, if_neg hi32]
      · rw [hraother b i (Or.inl hb0), hlev_same b i hb0]
  -- per-level data for the splice and bump phases
  set SL : Nat → List Entry := fun j =>
    if j < m.lvl then ((ctxIter k v (m.lvl - j) j (none, m.entries)).2.takeWhile p)
    else T with hSL
  set uF : Nat → Nat := fun j =>
    if j < m.lvl then ctxIdx (ctxIter k v (m.lvl - j) j (none, m.entries)) else 0 with huF
  set UF : Nat → Nat := fun j =>
    if j < m.lvl then n - (ctxIter k v (m.lvl - j) j (none, m.entries)).2.length else 0
    with hUF
  have hbundle : ∀ j, j < NL →
      (∀ z ∈ SL j, z.height ≤ j) ∧
      UF j ≤ t ∧ t - UF j = (SL j).length ∧ uF j ≤ n ∧
      ((uF j = 0 ∧ T = SL j) ∨
        (∃ e Q, uF j = e.idx ∧ 1 ≤ e.idx ∧ T = (Q ++ [e]) ++ SL j ∧ j < e.height ∧
          m.entries = Q ++ e :: (SL j ++ D))) ∧
      levAt (buildNodes mMid) (uF j) j = some (mkLevel ((SL j) ++ D) j) := by
    intro j hjNL
    by_cases hjlvl : j < m.lvl
    · obtain ⟨hsplit, hshort, hdisj⟩ := level_ctx_data hm k v hjlvl
      rw [← hp, ← hD] at hsplit
      rw [← hp] at hshort
      have hSLj : SL j = (ctxIter k v (m.lvl - j) j (none, m.entries)).2.takeWhile p := by
        rw [hSL]; simp only [if_pos hjlvl]
      have huFj : uF j = ctxIdx (ctxIter k v (m.lvl - j) j (none, m.entries)) := by
        rw [huF]; simp only [if_pos hjlvl]
      have hUFj : UF j = n - (ctxIter k v (m.lvl - j) j (none, m.entries)).2.length := by
        rw [hUF]; simp only [if_pos hjlvl]
      rcases hdisj with ⟨hnone, h2ent, hTW⟩ | ⟨e, Q, hsome, hQ, hTW, hje, hkl⟩
      · rw [← hp, ← hT] at hTW
        have hT_SL : T = SL j := by rw [hTW, hSLj]
        have hUF0 : UF j = 0 := by
          rw [hUFj, h2ent]
          omega
        refine ⟨by rw [hSLj]; exact hshort, by omega, ?_, by rw [huFj, ctxIdx_none hnone]; omega,
          Or.inl ⟨by rw [huFj, ctxIdx_none hnone], hT_SL⟩, ?_⟩
        · rw [hUF0, ht, hT_SL]
          omega
        · rw [huFj, ctxIdx_none hnone, buildNodes_levAt_zero,
            show mMid.lvl = NL from rfl, show mMid.entries = m.entries from rfl,
            if_pos (show j < 32 by omega), if_pos hjNL]
          congr 1
          rw [← hSLj] at hsplit
          rw [h2ent] at hsplit
          rw [← hsplit]
      · rw [← hp, ← hT] at hTW
        have hidx := concrete_idx_bounds hm (show e ∈ m.entries from by
          rw [hQ]; simp)
        have hlenQ : n = Q.length + 1 +
            (ctxIter k v (m.lvl - j) j (none, m.entries)).2.length := by
          have h2 := congrArg List.length hQ
          simp only [List.length_append, List.length_cons, List.length_nil] at h2
          omega
        have hUFQ : UF j = Q.length + 1 := by
          rw [hUFj]
          omega
        have htQ : t = Q.length + 1 + (SL j).length := by
          have h2 := congrArg List.length hTW
          simp only [List.length_append, List.length_cons, List.length_nil] at h2
          rw [ht, hSLj]
          omega
        refine ⟨by rw [hSLj]; exact hshort, by omega, by omega,
          by rw [huFj, ctxIdx_some hsome]; omega,
          Or.inr ⟨e, Q, by rw [huFj, ctxIdx_some hsome], hidx.1, by rw [hTW, hSLj], hje, ?_⟩, ?_⟩
        · rw [hQ]
          congr 1
          congr 1
          rw [hSLj, ← hsplit]
        · rw [huFj, ctxIdx_some hsome]
          have hQ2 : mMid.entries = Q ++ e :: (SL j ++ D) := by
            show m.entries = _
            rw [hQ]
            congr 1
            congr 1
            rw [hSLj, ← hsplit]
          rw [buildNodes_levAt_entry hmidInv hQ2, if_pos hje]
    · have hSLj : SL j = T := by rw [hSL]; simp only [if_neg hjlvl]
      have huFj : uF j = 0 := by rw [huF]; simp only [if_neg hjlvl]
      have hUFj : UF j = 0 := by rw [hUF]; simp only [if_neg hjlvl]
      refine ⟨?_, by omega, by rw [hUFj, hSLj]; omega, by omega,
        Or.inl ⟨huFj, hSLj.symm⟩, ?_⟩
      · intro z hz
        rw [hSLj, hT] at hz
        exact no_tall_entries hm (by omega) z (mem_takeWhile_mem hz)
      · rw [huFj, buildNodes_levAt_zero,
          show mMid.lvl = NL from rfl, show mMid.entries = m.entries from rfl,
          if_pos (show j < 32 by omega), if_pos hjNL]
        congr 1
        rw [hSLj, hTD]
  -- unfold the insert body and discharge the search and raise phases
  have hsize_m : (buildNodes m).size = n + 1 := buildNodes_size m
  have hszR : nodesR.size = n + 1 := by rw [hrasz, hsize_m]
  simp only [concrete] at hsd
  rw [hsize_m] at hsd
  rw [insert_def]
  simp only [concrete]
  rw [← hn, ← hNL, hsize_m, hsd, Option.some_bind]
  simp only
  rw [hra, Option.some_bind]
  simp only
  rw [hszR]
  rw [hmid]
  -- the arena after pushing the new node
  set nn := SkipListNode.new l k (some v) with hnn
  set nodes1 := (buildNodes mMid).push nn with hnodes1
  have hpushother : ∀ b : Nat, b ≠ n + 1 → nodes1[b]? = (buildNodes mMid)[b]? := by
    intro b hb
    rw [hnodes1, Array.getElem?_push, if_neg (by rw [hmidsz]; exact hb)]
  have hpushnewnode : nodes1[n + 1]? = some nn := by
    rw [hnodes1, Array.getElem?_push, if_pos (by rw [hmidsz])]
  have hpushlev : ∀ b i : Nat, b ≠ n + 1 → levAt nodes1 b i = levAt (buildNodes mMid) b i := by
    intro b i hb
    unfold levAt
    rw [hpushother b hb]
  have hpushnew : ∀ i : Nat, levAt nodes1 (n + 1) i =
      if i < l then some { forward := none, span := 0 } else none := by
    intro i
    unfold levAt
    rw [hpushnewnode, Option.some_bind, hnn]
    show (Array.mkArray l { forward := none, span := 0 } : Array SkipListLevel)[i]? = _
    rw [Array.getElem?_mkArray]
  have hpushsz : nodes1.size = n + 2 := by
    rw [hnodes1, Array.size_push, hmidsz]
  -- the recorded update indices and ranks at every used level
  have hupdR : ∀ i, i < NL → updR[i]? = some (some (uF i)) := by
    intro i hiNL
    by_cases hilvl : i < m.lvl
    · have hnm : i ∉ List.range' m.lvl (NL - m.lvl) := by
        rw [List.mem_range'_1]
        omega
      rw [(hrunin i hnm).1, (hlo i hilvl).1]
      have he : uF i = ctxIdx (ctxIter k v (m.lvl - i) i (none, m.entries)) := by
        simp only [huF]
        rw [if_pos hilvl]
      rw [he]
    · have hmem : i ∈ List.range' m.lvl (NL - m.lvl) := by
        rw [List.mem_range'_1]
        omega
      rw [hrumem i hmem (by rw [husz, h32]; omega)]
      have he : uF i = 0 := by
        simp only [huF]
        rw [if_neg hilvl]
      rw [he]
  have hrnkR : ∀ i, i < NL → rnkR[i]? = some (UF i) := by
    intro i hiNL
    by_cases hilvl : i < m.lvl
    · have hnm : i ∉ List.range' m.lvl (NL - m.lvl) := by
        rw [List.mem_range'_1]
        omega
      have h5 := (hlo i hilvl).2
      simp only at h5
      rw [(hrunin i hnm).2, h5]
      have he : UF i = 0 + (m.entries.length -
          (ctxIter k v (m.lvl - i) i (none, m.entries)).2.length) := by
        simp only [hUF]
        rw [if_pos hilvl]
        omega
      rw [← he]
    · have hmem : i ∈ List.range' m.lvl (NL - m.lvl) := by
        rw [List.mem_range'_1]
        omega
      rw [hrrmem i hmem (by rw [hrsz, h32]; omega)]
      have he : UF i = 0 := by
        simp only [hUF]
        rw [if_neg hilvl]
      rw [he]
  -- the prefix below the key at level zero is empty, so rank zero is t
  have hSL0 : SL 0 = [] := by
    rcases hbundle 0 (by omega) with ⟨hshort0, -, -, -, hdisj0, -⟩
    rw [List.eq_nil_iff_forall_not_mem]
    intro z hz
    have hzT : z ∈ T := by
      rcases hdisj0 with ⟨-, hTS⟩ | ⟨e, Q, -, -, hTS, -, -⟩
      · rw [hTS]; exact hz
      · rw [hTS]; exact List.mem_append_right _ hz
    have hz1 : 1 ≤ z.height :=
      (hm.heights z (by rw [hT] at hzT; exact mem_takeWhile_mem hzT)).1
    have hz0 : z.height ≤ 0 := hshort0 z hz
    omega
  have hUF0t : UF 0 = t := by
    rcases hbundle 0 (by omega) with ⟨-, hle, heq, -, -, -⟩
    rw [hSL0] at heq
    simp at heq
    omega
  have hrnk0 : rnkR[0]? = some t := by
    rw [hrnkR 0 (by omega), hUF0t]
  -- the splice phase
  have hsp_pre : ∀ i ∈ List.range l,
      updR[i]? = some (some (uF i)) ∧ rnkR[i]? = some (UF i) ∧ uF i ≠ n + 1 ∧ UF i ≤ t ∧
      (∃ ple, levAt nodes1 (uF i) i = some ple ∧ t - UF i ≤ ple.span) ∧
      (levAt nodes1 (n + 1) i).isSome := by
    intro i hi
    rw [List.mem_range] at hi
    have hiNL : i < NL := by omega
    rcases hbundle i hiNL with ⟨hshort, hUle, hteq, hun, -, hlev⟩
    refine ⟨hupdR i hiNL, hrnkR i hiNL, by omega, hUle, ?_, ?_⟩
    · refine ⟨mkLevel (SL i ++ D) i, ?_, ?_⟩
      · rw [hpushlev _ _ (by omega)]
        exact hlev
      · rw [hteq]
        exact span_ge_shortlen hshort
    · rw [hpushnew i, if_pos hi]
      rfl
  obtain ⟨nodes2, hspl, hspsz, hspshape, hspnotin, hspother, hspprev, hspnew⟩ :=
    spliceLoop_sim (n + 1) updR rnkR t hrnk0 uF UF (List.range l) nodes1
      (List.nodup_range _) hsp_pre
  rw [hspl, Option.some_bind]
  -- the bump phase
  have hbp_pre : ∀ i ∈ List.range' l (NL - l),
      updR[i]? = some (some (uF i)) ∧ (levAt nodes2 (uF i) i).isSome := by
    intro i hi
    rw [List.mem_range'_1] at hi
    have hiNL : i < NL := by omega
    rcases hbundle i hiNL with ⟨-, -, -, hun, -, hlev⟩
    refine ⟨hupdR i hiNL, ?_⟩
    rw [hspnotin (uF i) i (by rw [List.mem_range]; omega), hpushlev _ _ (by omega), hlev]
    rfl
  obtain ⟨nodes3, hbpl, hbpsz, hbpshape, hbpnotin, hbpother, hbpmem⟩ :=
    bumpLoop_sim updR uF (List.range' l (NL - l)) nodes2 (List.nodup_range' _ _) hbp_pre
  rw [hbpl, Option.some_bind]
  -- levAt through the final arena, per kind of node
  have huFle : ∀ i, i < NL → uF i ≤ n := fun i hi => (hbundle i hi).2.2.2.1
  have huntouched : ∀ b i : Nat, b ≠ n + 1 → (i < NL → b ≠ uF i) →
      levAt nodes3 b i = levAt (buildNodes mMid) b i := by
    intro b i hb hbu
    by_cases hbmem : i ∈ List.range' l (NL - l)
    · have hiNL : i < NL := by
        rw [List.mem_range'_1] at hbmem
        omega
      rw [hbpother b i hbmem (hbu hiNL),
        hspnotin b i (by rw [List.mem_range]; rw [List.mem_range'_1] at hbmem; omega)]
      exact hpushlev b i hb
    · rw [hbpnotin b i hbmem]
      by_cases hsmem : i ∈ List.range l
      · have hiNL : i < NL := by
          rw [List.mem_range] at hsmem
          omega
        rw [hspother b i hsmem (hbu hiNL) hb]
        exact hpushlev b i hb
      · rw [hspnotin b i hsmem]
        exact hpushlev b i hb
  have htouched_sp : ∀ i, i < l →
      levAt nodes3 (uF i) i = some { forward := some (n + 1), span := (t - UF i) + 1 } := by
    intro i hil
    rw [hbpnotin _ _ (by rw [List.mem_range'_1]; omega)]
    exact hspprev i (by rw [List.mem_range]; omega)
  have htouched_bp : ∀ i, l ≤ i → i < NL →
      levAt nodes3 (uF i) i = some (SkipListLevel.mk (mkLevel (SL i ++ D) i).forward
        ((mkLevel (SL i ++ D) i).span + 1)) := by
    intro i h1 h2
    rw [hbpmem i (by rw [List.mem_range'_1]; omega),
      hspnotin _ _ (by rw [List.mem_range]; omega),
      hpushlev _ _ (by have := huFle i h2; omega), (hbundle i h2).2.2.2.2.2]
    rfl
  have hnew3 : ∀ i : Nat, levAt nodes3 (n + 1) i =
      if i < l then some (mkLevel D i) else none := by
    intro i
    have hstep : levAt nodes3 (n + 1) i = levAt nodes2 (n + 1) i := by
      by_cases hbmem : i ∈ List.range' l (NL - l)
      · have hiNL : i < NL := by
          rw [List.mem_range'_1] at hbmem
          omega
        exact hbpother (n + 1) i hbmem (by have := huFle i hiNL; omega)
      · exact hbpnotin (n + 1) i hbmem
    rw [hstep]
    by_cases hil : i < l
    · have hiNL : i < NL := by omega
      rcases hbundle i hiNL with ⟨hshort, hUle, hteq, hun, -, hlev⟩
      rw [hspnew i (by rw [List.mem_range]; omega),
        hpushlev _ _ (by omega), hlev, Option.map_some', if_pos hil, hteq]
      conv_rhs => rw [mk_newnode (findAbove_eq_none.mpr hshort)]
    · rw [hspnotin _ _ (by rw [List.mem_range]; omega), hpushnew i, if_neg hil, if_neg hil]
  -- the backward phase
  rw [hupdR 0 (by omega), Option.some_bind, Option.some_bind]
  have hlev30 := hnew3 0
  rw [if_pos (by omega : 0 < l)] at hlev30
  -- the value of the level-0 entry of the new node after the splice
  rcases Option.bind_eq_some.mp hlev30 with ⟨nd3, hnd3, hnd3le⟩
  have hsbnew : (setBackward nodes3 (n + 1)
      (if uF 0 = 0 then none else some (uF 0)))[n + 1]? =
      some { nd3 with backward := (if uF 0 = 0 then none else some (uF 0)) } :=
    setBackward_same hnd3 _
  rw [hsbnew, Option.some_bind]
  have hndle : ({ nd3 with backward := (if uF 0 = 0 then none else some (uF 0)) }
      : SkipListNode).level[0]? = some (mkLevel D 0) := hnd3le
  rw [hndle, Option.some_bind]
  -- characterization of which node is the update node at each level
  have hTnodup : (T.map Entry.idx).Nodup := by
    refine (concrete_idx_nodup hm).sublist ?_
    refine List.Sublist.map _ ?_
    rw [hT]
    exact List.takeWhile_sublist p
  have hENodup := concrete_idx_nodup hm
  have hTDdisj : ∀ z : Nat, z ∈ T.map Entry.idx → z ∈ D.map Entry.idx → False := by
    intro z h1 h2
    have := hENodup
    rw [← hTD, List.map_append, List.nodup_append] at this
    exact this.2.2 h1 h2
  have hmemT : ∀ z ∈ T, z ∈ m.entries := by
    intro z hz
    rw [hT] at hz
    exact mem_takeWhile_mem hz
  have hmemD : ∀ z ∈ D, z ∈ m.entries := by
    intro z hz
    rw [hD] at hz
    exact mem_dropWhile_mem hz
  have hmatch0 : ∀ i, i < NL → uF i ≠ 0 → ∃ e Q, uF i = e.idx ∧ 1 ≤ e.idx ∧
      T = (Q ++ [e]) ++ SL i ∧ i < e.height ∧ m.entries = Q ++ e :: (SL i ++ D) := by
    intro i hiNL hne
    rcases (hbundle i hiNL).2.2.2.2.1 with ⟨hu0, -⟩ | he
    · exact absurd hu0 hne
    · exact he
  have hmatch0n : ∀ i, i < NL → uF i = 0 → T = SL i := by
    intro i hiNL h0
    rcases (hbundle i hiNL).2.2.2.2.1 with ⟨-, hTS⟩ | ⟨e, Q, hue, hge1, -, -, -⟩
    · exact hTS
    · omega
  -- target level entries
  have hm2lvl : m2.lvl = NL := hNLmax.symm
  have htarget_zero : ∀ i : Nat, levAt (buildNodes m2) 0 i =
      if i < 32 then
        some (if i < NL then mkLevel (T ++ enew :: D) i else { forward := none, span := 0 })
      else none := by
    intro i
    rw [buildNodes_levAt_zero m2 i, hm2lvl, hE2]
  have htarget_new : ∀ i : Nat, levAt (buildNodes m2) (n + 1) i =
      if i < l then some (mkLevel D i) else none := by
    intro i
    have := buildNodes_levAt_entry hm2 hE2 i
    rw [show enew.idx = n + 1 from rfl, show enew.height = l from rfl] at this
    exact this
  -- every level entry of the mutated arena agrees with the target arena
  have harena_lev : ∀ b i : Nat, levAt nodes3 b i = levAt (buildNodes m2) b i := by
    intro b i
    by_cases hbnew : b = n + 1
    · subst hbnew
      rw [hnew3 i, htarget_new i]
    · by_cases hbhigh : n + 2 ≤ b
      · rw [huntouched b i hbnew (fun hiNL => by have := huFle i hiNL; omega),
          buildNodes_levAt_high (by rw [hmidlen]; omega),
          buildNodes_levAt_high (by rw [hlen2]; omega)]
      · by_cases hb0 : b = 0
        · subst hb0
          by_cases hiNL : i < NL
          · have hi32 : i < 32 := by omega
            by_cases hu0 : uF i = 0
            · have hTSL : T = SL i := hmatch0n i hiNL hu0
              have hfaT : findAbove i T = none := by
                rw [hTSL]
                exact findAbove_eq_none.mpr (hbundle i hiNL).1
              have htSL : t - UF i = t := by
                have h1 := (hbundle i hiNL).2.2.1
                have h2 : (SL i).length = t := by rw [← hTSL, ht]
                omega
              by_cases hil : i < l
              · have hts := htouched_sp i hil
                rw [hu0] at hts
                rw [hts, htarget_zero i, if_pos hi32, if_pos hiNL,
                  mk_spliced hfaT (show i < enew.height from hil), htSL]
              · have hts := htouched_bp i (by omega) hiNL
                rw [hu0] at hts
                have hbh : enew.height ≤ i := by show l ≤ i; omega
                rw [hts, htarget_zero i, if_pos hi32, if_pos hiNL,
                  mk_bumped hfaT hbh]
                rw [← hTSL]
            · rcases hmatch0 i hiNL hu0 with ⟨e, Q, hue, hge1, hTQ, htall, -⟩
              have heT : e ∈ T := by
                rw [hTQ]
                exact List.mem_append_left _ (List.mem_append_right _ (by simp))
              have hfaT : (findAbove i T).isSome := findAbove_isSome_of_tall heT htall
              rw [huntouched 0 i (by omega) (fun _ => by omega),
                buildNodes_levAt_zero mMid i,
                show mMid.lvl = NL from rfl, show mMid.entries = m.entries from rfl,
                if_pos hi32, if_pos hiNL, htarget_zero i, if_pos hi32, if_pos hiNL,
                mk_untouched hfaT, hTD]
          · rw [huntouched 0 i (by omega) (fun h => absurd h hiNL),
              buildNodes_levAt_zero mMid i,
              show mMid.lvl = NL from rfl, show mMid.entries = m.entries from rfl,
              htarget_zero i]
            by_cases hi32 : i < 32
            · rw [if_pos hi32, if_pos hi32, if_neg hiNL, if_neg hiNL]
            · rw [if_neg hi32, if_neg hi32]
        · -- b is the index of a stored entry
          have hb1 : 1 ≤ b := by omega
          have hbn2 : b ≤ m.entries.length := by omega
          obtain ⟨A, eb, B, hAB, hbix⟩ := exists_entry_of_idx hm hb1 hbn2
          have hebmem : eb ∈ m.entries := by rw [hAB]; simp
          have hebh := hm.heights eb hebmem
          have hsplit2 : T ++ D = A ++ eb :: B := by rw [hTD]; exact hAB
          have hb_ne_uD : eb ∈ D → ∀ (hiNL : i < NL), b ≠ uF i := by
            intro hebD hiNL hbu
            by_cases hu0 : uF i = 0
            · omega
            · rcases hmatch0 i hiNL hu0 with ⟨e, Q, hue, hge1, hTQ, htall, -⟩
              have heT : e ∈ T := by
                rw [hTQ]
                exact List.mem_append_left _ (List.mem_append_right _ (by simp))
              have : e = eb := idx_inj_of_nodup hENodup (hmemT e heT) hebmem (by omega)
              subst this
              exact hTDdisj e.idx (List.mem_map_of_mem _ heT) (List.mem_map_of_mem _ hebD)
          rcases List.append_eq_append_iff.mp hsplit2 with ⟨E, hAE, hDE⟩ | ⟨E, hTE, hBE⟩
          · -- the entry lies in the dropped suffix
            have hebD : eb ∈ D := by rw [hDE]; simp
            have hsplit3 : m2.entries = (T ++ enew :: E) ++ eb :: B := by
              rw [hE2, hDE]
              simp
            have hmidl := buildNodes_levAt_entry hmidInv
              (show mMid.entries = A ++ eb :: B from hAB) i
            rw [hbix] at hmidl
            have htgt := buildNodes_levAt_entry hm2 hsplit3 i
            rw [hbix] at htgt
            rw [huntouched b i hbnew (hb_ne_uD hebD), hmidl, htgt]
          · cases E with
            | nil =>
              -- the entry is the first of the dropped suffix
              simp at hTE hBE
              have hebD : eb ∈ D := by rw [← hBE]; simp
              have hAB2 : m.entries = A ++ eb :: B := hAB
              have hsplit3 : m2.entries = (T ++ [enew]) ++ eb :: B := by
                rw [hE2, ← hBE]
                simp
              have hmidl := buildNodes_levAt_entry hmidInv
                (show mMid.entries = A ++ eb :: B from hAB) i
              rw [hbix] at hmidl
              have htgt := buildNodes_levAt_entry hm2 hsplit3 i
              rw [hbix] at htgt
              rw [huntouched b i hbnew (hb_ne_uD hebD), hmidl, htgt]
            | cons w E2 =>
              rw [List.cons_append] at hBE
              injection hBE with hw hB2
              subst hw
              -- the entry lies in the kept prefix
              have hebT : eb ∈ T := by rw [hTE]; simp
              have hsplit3 : m2.entries = A ++ eb :: (E2 ++ enew :: D) := by
                rw [hE2, hTE]
                simp
              have htgt := buildNodes_levAt_entry hm2 hsplit3 i
              rw [hbix] at htgt
              by_cases hih : i < eb.height
              · have hiNL : i < NL := by omega
                by_cases hb_u : b = uF i
                · -- this entry is the update node at level i
                  have hu0 : uF i ≠ 0 := by omega
                  rcases hmatch0 i hiNL hu0 with ⟨e, Q, hue, hge1, hTQ, htall, -⟩
                  have heT : e ∈ T := by
                    rw [hTQ]
                    exact List.mem_append_left _ (List.mem_append_right _ (by simp))
                  have heeb : e = eb :=
                    idx_inj_of_nodup hENodup (hmemT e heT) hebmem (by omega)
                  subst heeb
                  have hTQ2 : T = Q ++ e :: SL i := by rw [hTQ]; simp
                  obtain ⟨hQA, hE2SL⟩ := split_unique_by_idx hTnodup hTE hTQ2
                  rw [htgt, if_pos hih]
                  by_cases hil : i < l
                  · have hts := htouched_sp i hil
                    rw [← hb_u] at hts
                    rw [hts, mk_spliced
                      (by rw [hE2SL]; exact findAbove_eq_none.mpr (hbundle i hiNL).1)
                      (show i < enew.height from hil)]
                    have h1 := (hbundle i hiNL).2.2.1
                    rw [show enew.idx = n + 1 from rfl, hE2SL,
                      show t - UF i = (SL i).length from h1]
                  · have hts := htouched_bp i (by omega) hiNL
                    rw [← hb_u] at hts
                    have hbh : enew.height ≤ i := by show l ≤ i; omega
                    rw [hts, mk_bumped
                      (by rw [hE2SL]; exact findAbove_eq_none.mpr (hbundle i hiNL).1)
                      hbh, hE2SL]
                · -- some later entry of the prefix is still tall at level i
                  have hfaE2 : (findAbove i E2).isSome := by
                    cases hfa : findAbove i E2 with
                    | some q => rfl
                    | none =>
                      exfalso
                      by_cases hu0 : uF i = 0
                      · have hTSL : T = SL i := hmatch0n i hiNL hu0
                        have := (hbundle i hiNL).1 eb (by rw [← hTSL]; exact hebT)
                        omega
                      · rcases hmatch0 i hiNL hu0 with ⟨e, Q, hue, hge1, hTQ, htall, -⟩
                        have hTQ2 : T = Q ++ e :: SL i := by rw [hTQ]; simp
                        have heq2 : A ++ eb :: E2 = Q ++ e :: SL i := by
                          rw [← hTE, hTQ2]
                        obtain ⟨hee, -, -⟩ := lastTall_unique heq2 hih htall
                          (findAbove_eq_none.mp hfa) (hbundle i hiNL).1
                        rw [← hee] at hue
                        omega
                  have hmidl := buildNodes_levAt_entry hmidInv
                    (show mMid.entries = A ++ eb :: (E2 ++ D) from by rw [hAB, hB2]) i
                  rw [hbix] at hmidl
                  rw [huntouched b i hbnew (fun _ => hb_u), hmidl,
                    htgt, if_pos hih, if_pos hih, mk_untouched hfaE2]
              · -- the entry has no level-i link at all
                have hbu : ∀ (hiNL : i < NL), b ≠ uF i := by
                  intro hiNL hbu
                  by_cases hu0 : uF i = 0
                  · omega
                  · rcases hmatch0 i hiNL hu0 with ⟨e, Q, hue, hge1, hTQ, htall, -⟩
                    have heT : e ∈ T := by
                      rw [hTQ]
                      exact List.mem_append_left _ (List.mem_append_right _ (by simp))
                    have : e = eb :=
                      idx_inj_of_nodup hENodup (hmemT e heT) hebmem (by omega)
                    subst this
                    omega
                have hmidl := buildNodes_levAt_entry hmidInv
                  (show mMid.entries = A ++ eb :: B from hAB) i
                rw [hbix] at hmidl
                rw [huntouched b i hbnew hbu, hmidl, htgt, if_neg hih, if_neg hih]
  -- node shapes of the mutated arena
  have hshape31 : ∀ b : Nat,
      Option.map nodeShape nodes3[b]? = Option.map nodeShape nodes1[b]? := by
    intro b
    rw [hbpshape b, hspshape b]
  have hshape_mid3 : ∀ b : Nat, b ≠ n + 1 →
      Option.map nodeShape nodes3[b]? = Option.map nodeShape (buildNodes mMid)[b]? := by
    intro b hb
    rw [hshape31 b, hpushother b hb]
  have hmkshape : ∀ (bef : Option Entry) (e : Entry) (aft : List Entry),
      nodeShape (mkNode bef e aft) =
        (some e.obj, e.score, Option.map Entry.idx bef, e.height) := by
    intro bef e aft
    simp [mkNode, nodeShape]
  have hhdshape : ∀ (E : List Entry) (L : Nat),
      nodeShape (headerNode E L) = (none, 0, none, 32) := by
    intro E L
    simp [headerNode, nodeShape, SKIP_LIST_MAX_LEVEL]
  have hd1 : ∀ z ∈ D, 1 ≤ z.height := fun z hz => (hm.heights z (hmemD z hz)).1
  -- the backward pointer installed on the new node matches the model
  have hback_new : (if uF 0 = 0 then none else some (uF 0)) =
      Option.map Entry.idx T.getLast? := by
    have h0NL : 0 < NL := by omega
    rcases (hbundle 0 h0NL).2.2.2.2.1 with ⟨hu0, hTS⟩ | ⟨e, Q, hue, hge1, hTQ, -, -⟩
    · rw [if_pos hu0, hTS, hSL0]
      rfl
    · rw [if_neg (by omega : ¬ (uF 0 = 0)), hue, hTQ, hSL0, List.append_nil,
        List.getLast?_append_cons]
      rfl
  have hnd3f : nodeShape nd3 = (some v, k, none, l) := by
    have h := hshape31 (n + 1)
    rw [hnd3, hpushnewnode, Option.map_some', Option.map_some'] at h
    rw [Option.some_inj.mp h, hnn]
    simp [SkipListNode.new, nodeShape]
  have hnd3obj : nd3.obj = some v := congrArg (fun q => q.1) hnd3f
  have hnd3score : nd3.score = k := congrArg (fun q => q.2.1) hnd3f
  have hnd3lsz : nd3.level.size = l := congrArg (fun q => q.2.2.2) hnd3f
  have htarget_new_nd : (buildNodes m2)[n + 1]? = some (mkNode T.getLast? enew D) := by
    have h := buildNodes_get_entry hm2 hE2
    rw [show enew.idx = n + 1 from rfl] at h
    exact h
  generalize hfo : (mkLevel D 0).forward = fo
  cases fo with
  | some e =>
    show (if e = n + 1 then (none : Option SkipList)
      else some (SkipList.mk
        (setBackward (setBackward nodes3 (n + 1)
          (if uF 0 = 0 then none else some (uF 0))) e (some (n + 1)))
        (Option.map Entry.idx m.entries.getLast?) (n + 1) NL)) =
      some (SkipList.mk (buildNodes m2) (Option.map Entry.idx m2.entries.getLast?)
        m2.entries.length m2.lvl)
    unfold mkLevel at hfo
    cases hfa0 : findAbove 0 D with
    | none =>
      rw [hfa0] at hfo
      simp at hfo
    | some pr =>
      obtain ⟨j, y⟩ := pr
      rw [hfa0] at hfo
      simp at hfo
      subst hfo
      obtain ⟨Ay, B, hDyB, -, hAyshort, -⟩ := findAbove_some hfa0
      have hAynil : Ay = [] := by
        cases hAc : Ay with
        | nil => rfl
        | cons a0 A2 =>
          have hmem : a0 ∈ D := by rw [hDyB, hAc]; simp
          have h1 := hd1 a0 hmem
          have h2 := hAyshort a0 (by rw [hAc]; simp)
          omega
      rw [hAynil, List.nil_append] at hDyB
      have hymem : y ∈ m.entries := hmemD y (by rw [hDyB]; simp)
      obtain ⟨hy1, hy2⟩ := concrete_idx_bounds hm hymem
      have hyne : ¬ (y.idx = n + 1) := by omega
      rw [if_neg hyne]
      refine congrArg some ?_
      have hmyB : m.entries = T ++ y :: B := by rw [← hTD, hDyB]
      have hm2yB : m2.entries = (T ++ [enew]) ++ y :: B := by
        rw [hE2, hDyB]
        simp
      have hnodes : setBackward (setBackward nodes3 (n + 1)
          (if uF 0 = 0 then none else some (uF 0))) y.idx (some (n + 1)) =
          buildNodes m2 := by
        refine arena_ext ?_ ?_ ?_
        · rw [setBackward_size, setBackward_size, hbpsz, hspsz, hpushsz,
            buildNodes_size, hlen2]
        · intro b
          by_cases hby : b = y.idx
          · subst hby
            have h1 := buildNodes_get_entry hmidInv
              (show mMid.entries = T ++ y :: B from hmyB)
            have hsh := hshape_mid3 y.idx (by omega)
            rw [h1, Option.map_some'] at hsh
            rcases Option.map_eq_some'.mp hsh with ⟨ndy, hndy, hndysh⟩
            rw [hmkshape] at hndysh
            have hobj : ndy.obj = some y.obj := congrArg (fun q => q.1) hndysh
            have hscore : ndy.score = y.score := congrArg (fun q => q.2.1) hndysh
            have hlsz : ndy.level.size = y.height := congrArg (fun q => q.2.2.2) hndysh
            have hinner : (setBackward nodes3 (n + 1)
                (if uF 0 = 0 then none else some (uF 0)))[y.idx]? = some ndy := by
              rw [setBackward_shape_other nodes3 (n + 1) _ y.idx (by omega)]
              exact hndy
            have h2 := buildNodes_get_entry hm2 hm2yB
            rw [setBackward_same hinner (some (n + 1)), Option.map_some', h2,
              Option.map_some', hmkshape]
            show some (ndy.obj, ndy.score, some (n + 1), ndy.level.size) =
              some (some y.obj, y.score,
                Option.map Entry.idx (T ++ [enew]).getLast?, y.height)
            rw [hobj, hscore, hlsz,
              show ((T ++ [enew]).getLast?) = some enew from
                List.getLast?_append_cons T enew [],
              Option.map_some', show enew.idx = n + 1 from rfl]
          · rw [setBackward_shape_other _ y.idx _ b (Ne.symm hby)]
            by_cases hbnew : b = n + 1
            · subst hbnew
              rw [hsbnew, Option.map_some', htarget_new_nd, Option.map_some', hmkshape]
              show some (nd3.obj, nd3.score,
                  (if uF 0 = 0 then none else some (uF 0)), nd3.level.size) =
                some (some enew.obj, enew.score, Option.map Entry.idx T.getLast?,
                  enew.height)
              rw [hnd3obj, hnd3score, hnd3lsz, hback_new,
                show enew.obj = v from rfl, show enew.score = k from rfl,
                show enew.height = l from rfl]
            · rw [setBackward_shape_other nodes3 (n + 1) _ b (Ne.symm hbnew),
                hshape_mid3 b hbnew]
              by_cases hb0 : b = 0
              · subst hb0
                rw [buildNodes_zero, buildNodes_zero, Option.map_some',
                  Option.map_some', hhdshape, hhdshape]
              · by_cases hbhigh : n + 2 ≤ b
                · rw [buildNodes_get_high (by rw [hmidlen]; omega),
                    buildNodes_get_high (by rw [hlen2]; omega)]
                · have hb1 : 1 ≤ b := by omega
                  obtain ⟨A, eb, B3, hAB, hbix⟩ :=
                    exists_entry_of_idx hm hb1 (by omega)
                  have hsplit2 : T ++ D = A ++ eb :: B3 := by rw [hTD]; exact hAB
                  rcases List.append_eq_append_iff.mp hsplit2 with
                    ⟨E, hAE, hDE⟩ | ⟨E, hTE, hBE⟩
                  · rw [hDyB] at hDE
                    cases E with
                    | nil =>
                      simp at hDE
                      exact absurd (by rw [← hbix, ← hDE.1]) hby
                    | cons w E2 =>
                      rw [List.cons_append] at hDE
                      injection hDE with hwy hBE2
                      subst hwy
                      have hsplm : mMid.entries = (T ++ y :: E2) ++ eb :: B3 := by
                        show m.entries = _
                        rw [hAB, hAE]
                      have hsplm2 : m2.entries = (T ++ enew :: y :: E2) ++ eb :: B3 := by
                        rw [hE2, hDyB, hBE2]
                        simp
                      have h1 := buildNodes_get_entry hmidInv hsplm
                      have h2 := buildNodes_get_entry hm2 hsplm2
                      rw [hbix] at h1 h2
                      rw [h1, h2, Option.map_some', Option.map_some', hmkshape,
                        hmkshape, List.getLast?_append_cons,
                        show T ++ enew :: y :: E2 = (T ++ [enew]) ++ y :: E2 from
                          by simp,
                        List.getLast?_append_cons]
                  · cases E with
                    | nil =>
                      rw [List.nil_append] at hBE
                      rw [hDyB] at hBE
                      injection hBE with h1 h2
                      exact absurd (by rw [← hbix, h1]) hby
                    | cons w E2 =>
                      rw [List.cons_append] at hBE
                      injection hBE with hwe hB3
                      subst hwe
                      have hsplm : mMid.entries = A ++ eb :: (E2 ++ D) := by
                        show m.entries = _
                        rw [hAB, hB3]
                      have hsplm2 : m2.entries = A ++ eb :: (E2 ++ enew :: D) := by
                        rw [hE2, hTE]
                        simp
                      have h1 := buildNodes_get_entry hmidInv hsplm
                      have h2 := buildNodes_get_entry hm2 hsplm2
                      rw [hbix] at h1 h2
                      rw [h1, h2, Option.map_some', Option.map_some', hmkshape,
                        hmkshape]
        · intro b i
          rw [setBackward_levAt, setBackward_levAt]
          exact harena_lev b i
      have htail : Option.map Entry.idx m.entries.getLast? =
          Option.map Entry.idx m2.entries.getLast? := by
        rw [hmyB, hm2yB, List.getLast?_append_cons, List.getLast?_append_cons]
      rw [hnodes, htail, hlen2, hm2lvl]
  | none =>
    show some (SkipList.mk
        (setBackward nodes3 (n + 1) (if uF 0 = 0 then none else some (uF 0)))
        (some (n + 1)) (n + 1) NL) =
      some (SkipList.mk (buildNodes m2) (Option.map Entry.idx m2.entries.getLast?)
        m2.entries.length m2.lvl)
    have hDnil : D = [] := by
      cases hDc : D with
      | nil => rfl
      | cons d0 D2 =>
        exfalso
        have hmem : d0 ∈ D := by rw [hDc]; simp
        have h1 := hd1 d0 hmem
        unfold mkLevel at hfo
        cases hfa2 : findAbove 0 D with
        | none =>
          have := findAbove_eq_none.mp hfa2 d0 hmem
          omega
        | some pr =>
          obtain ⟨j2, y2⟩ := pr
          rw [hfa2] at hfo
          simp at hfo
    refine congrArg some ?_
    have hTm : T = m.entries := by rw [← hTD, hDnil, List.append_nil]
    have htail : (some (n + 1) : Option Nat) =
        Option.map Entry.idx m2.entries.getLast? := by
      rw [hE2, hDnil, List.getLast?_append_cons]
      rfl
    have hnodes : setBackward nodes3 (n + 1)
        (if uF 0 = 0 then none else some (uF 0)) = buildNodes m2 := by
      refine arena_ext ?_ ?_ ?_
      · rw [setBackward_size, hbpsz, hspsz, hpushsz, buildNodes_size, hlen2]
      · intro b
        by_cases hbnew : b = n + 1
        · subst hbnew
          rw [hsbnew, Option.map_some', htarget_new_nd, Option.map_some', hmkshape]
          show some (nd3.obj, nd3.score,
              (if uF 0 = 0 then none else some (uF 0)), nd3.level.size) =
            some (some enew.obj, enew.score, Option.map Entry.idx T.getLast?,
              enew.height)
          rw [hnd3obj, hnd3score, hnd3lsz, hback_new,
            show enew.obj = v from rfl, show enew.score = k from rfl,
            show enew.height = l from rfl]
        · rw [setBackward_shape_other nodes3 (n + 1) _ b (Ne.symm hbnew),
            hshape_mid3 b hbnew]
          by_cases hb0 : b = 0
          · subst hb0
            rw [buildNodes_zero, buildNodes_zero, Option.map_some', Option.map_some',
              hhdshape, hhdshape]
          · by_cases hbhigh : n + 2 ≤ b
            · rw [buildNodes_get_high (by rw [hmidlen]; omega),
                buildNodes_get_high (by rw [hlen2]; omega)]
            · have hb1 : 1 ≤ b := by omega
              obtain ⟨A, eb, B3, hAB, hbix⟩ := exists_entry_of_idx hm hb1 (by omega)
              have hsplit3 : m2.entries = A ++ eb :: (B3 ++ [enew]) := by
                rw [hE2, hDnil, hTm, hAB]
                simp
              have h1 := buildNodes_get_entry hmidInv
                (show mMid.entries = A ++ eb :: B3 from hAB)
              have h2 := buildNodes_get_entry hm2 hsplit3
              rw [hbix] at h1 h2
              rw [h1, h2, Option.map_some', Option.map_some', hmkshape, hmkshape]
      · intro b i
        rw [setBackward_levAt]
        exact harena_lev b i
    rw [hnodes, ← htail, hlen2, hm2lvl]

/-! Lemmas about random_level. -/

theorem randomLevelLoop_ge :
    ∀ (draws : List Nat) (level lv : Nat),
      randomLevelLoop level draws = some lv → level ≤ lv := by
  intro draws
  induction draws with
  | nil =>
    intro level lv h
    simp [randomLevelLoop] at h
  | cons d rest ih =>
    intro level lv h
    unfold randomLevelLoop at h
    by_cases hc : coinSuccess d = true
    · rw [if_pos hc] at h
      have := ih (level + 1) lv h
      omega
    · rw [if_neg hc] at h
      injection h with h2
      omega

theorem randomLevelLoop_spec :
    ∀ (draws : List Nat) (level : Nat),
      (∃ d ∈ draws, coinSuccess d = false) →
      randomLevelLoop level draws =
        some (level + (draws.takeWhile coinSuccess).length) := by
  intro draws
  induction draws with
  | nil =>
    intro level hfail
    rcases hfail with ⟨d, hd, -⟩
    simp at hd
  | cons d rest ih =>
    intro level hfail
    by_cases hc : coinSuccess d = true
    · have hfail2 : ∃ z ∈ rest, coinSuccess z = false := by
        rcases hfail with ⟨z, hz, hzf⟩
        rcases List.mem_cons.mp hz with h | h
        · rw [h, hc] at hzf
          cases hzf
        · exact ⟨z, h, hzf⟩
      rw [show randomLevelLoop level (d :: rest) =
            randomLevelLoop (level + 1) rest from by
          conv_lhs => unfold randomLevelLoop
          rw [if_pos hc],
        ih (level + 1) hfail2,
        show (d :: rest).takeWhile coinSuccess = d :: rest.takeWhile coinSuccess from by
          rw [List.takeWhile_cons, if_pos hc]]
      simp only [List.length_cons]
      exact congrArg some (by omega)
    · rw [show randomLevelLoop level (d :: rest) = some level from by
          conv_lhs => unfold randomLevelLoop
          rw [if_neg hc],
        show (d :: rest).takeWhile coinSuccess = [] from by
          rw [List.takeWhile_cons, if_neg hc]]
      rfl

theorem random_level_spec (draws : List Nat)
    (hfail : ∃ d ∈ draws, coinSuccess d = false) :
    random_level draws =
      some (min ((draws.takeWhile coinSuccess).length + 1) SKIP_LIST_MAX_LEVEL) := by
  unfold random_level
  rw [randomLevelLoop_spec draws 1 hfail, Option.map_some']
  refine congrArg some ?_
  have h32 : SKIP_LIST_MAX_LEVEL = 32 := rfl
  by_cases h : 1 + (draws.takeWhile coinSuccess).length < SKIP_LIST_MAX_LEVEL
  · rw [if_pos h]
    omega
  · rw [if_neg h]
    omega

theorem random_level_bounds {draws : List Nat} {l : Nat}
    (h : random_level draws = some l) : 1 ≤ l ∧ l ≤ SKIP_LIST_MAX_LEVEL := by
  unfold random_level at h
  rcases Option.map_eq_some'.mp h with ⟨level, hlv, hl⟩
  subst hl
  have h1 := randomLevelLoop_ge draws 1 level hlv
  have h32 : SKIP_LIST_MAX_LEVEL = 32 := rfl
  by_cases hlt : level < SKIP_LIST_MAX_LEVEL
  · rw [if_pos hlt]
    omega
  · rw [if_neg hlt]
    omega

/-! Observers on a concrete model state. -/

theorem fwdAt_eq (s : SkipList) (a i : Nat) :
    fwdAt s a i = (levAt s.nodes a i).bind SkipListLevel.forward := by
  unfold fwdAt levAt
  cases s.nodes[a]? with
  | none => rfl
  | some nd =>
    show (match nd.level[i]? with
        | none => none
        | some le => le.forward) =
      ((some nd).bind (fun nd => nd.level[i]?)).bind SkipListLevel.forward
    rw [Option.some_bind]
    cases nd.level[i]? with
    | none => rfl
    | some le => rfl

theorem spanAt_eq (s : SkipList) (a i : Nat) :
    spanAt s a i = (levAt s.nodes a i).map SkipListLevel.span := by
  unfold spanAt levAt
  cases s.nodes[a]? with
  | none => rfl
  | some nd =>
    show (nd.level[i]?).map SkipListLevel.span =
      ((some nd).bind (fun nd => nd.level[i]?)).map SkipListLevel.span
    rw [Option.some_bind]

theorem concrete_fwdAt_entry {m : Model} (hm : ModelInv m) {A : List Entry}
    {e : Entry} {B : List Entry} (hsplit : m.entries = A ++ e :: B) (i : Nat) :
    fwdAt (concrete m) e.idx i =
      if i < e.height then (mkLevel B i).forward else none := by
  rw [fwdAt_eq, show (concrete m).nodes = buildNodes m from rfl,
    buildNodes_levAt_entry hm hsplit]
  by_cases h : i < e.height
  · rw [if_pos h, if_pos h, Option.some_bind]
  · rw [if_neg h, if_neg h]
    rfl

theorem concrete_spanAt_entry {m : Model} (hm : ModelInv m) {A : List Entry}
    {e : Entry} {B : List Entry} (hsplit : m.entries = A ++ e :: B) (i : Nat) :
    spanAt (concrete m) e.idx i =
      if i < e.height then some (mkLevel B i).span else none := by
  rw [spanAt_eq, show (concrete m).nodes = buildNodes m from rfl,
    buildNodes_levAt_entry hm hsplit]
  by_cases h : i < e.height
  · rw [if_pos h, if_pos h, Option.map_some']
  · rw [if_neg h, if_neg h]
    rfl

theorem concrete_fwdAt_zero (m : Model) (i : Nat) :
    fwdAt (concrete m) 0 i =
      if i < 32 ∧ i < m.lvl then (mkLevel m.entries i).forward else none := by
  rw [fwdAt_eq, show (concrete m).nodes = buildNodes m from rfl,
    buildNodes_levAt_zero]
  by_cases h32 : i < 32
  · rw [if_pos h32]
    by_cases hl : i < m.lvl
    · rw [if_pos hl, if_pos ⟨h32, hl⟩, Option.some_bind]
    · rw [if_neg hl, if_neg (fun hc => hl hc.2), Option.some_bind]
  · rw [if_neg h32, if_neg (fun hc => h32 hc.1)]
    rfl

theorem concrete_spanAt_zero (m : Model) (i : Nat) :
    spanAt (concrete m) 0 i =
      if i < 32 then
        some (if i < m.lvl then (mkLevel m.entries i).span else 0)
      else none := by
  rw [spanAt_eq, show (concrete m).nodes = buildNodes m from rfl,
    buildNodes_levAt_zero]
  by_cases h32 : i < 32
  · rw [if_pos h32, if_pos h32, Option.map_some']
    by_cases hl : i < m.lvl
    · rw [if_pos hl, if_pos hl]
    · rw [if_neg hl, if_neg hl]
  · rw [if_neg h32, if_neg h32]
    rfl

theorem concrete_node_entry {m : Model} (hm : ModelInv m) {A : List Entry}
    {e : Entry} {B : List Entry} (hsplit : m.entries = A ++ e :: B) :
    backAt (concrete m) e.idx = Option.map Entry.idx A.getLast? ∧
    heightAt (concrete m) e.idx = some e.height ∧
    entryData (concrete m) e.idx = some e.key := by
  have h := buildNodes_get_entry hm hsplit
  unfold backAt heightAt entryData
  rw [show (concrete m).nodes = buildNodes m from rfl, h]
  refine ⟨rfl, ?_, rfl⟩
  rw [Option.map_some']
  refine congrArg some ?_
  simp [mkNode]

theorem concrete_backAt_zero (m : Model) : backAt (concrete m) 0 = none := by
  unfold backAt
  rw [show (concrete m).nodes = buildNodes m from rfl, buildNodes_zero]
  rfl

theorem concrete_entryData_zero (m : Model) : entryData (concrete m) 0 = none := by
  unfold entryData
  rw [show (concrete m).nodes = buildNodes m from rfl, buildNodes_zero]
  rfl

theorem chase_succ_some {s : SkipList} {x y : Nat} (fuel : Nat)
    (h : fwdAt s x 0 = some y) :
    chase s (fuel + 1) x = y :: chase s fuel y := by
  conv_lhs => unfold chase
  rw [h]

theorem chase_succ_none {s : SkipList} {x : Nat} (fuel : Nat)
    (h : fwdAt s x 0 = none) : chase s (fuel + 1) x = [] := by
  conv_lhs => unfold chase
  rw [h]

theorem mkLevel_zero_forward {y : Entry} (B : List Entry) (hy : 1 ≤ y.height) :
    (mkLevel (y :: B) 0).forward = some y.idx := by
  unfold mkLevel
  rw [show findAbove 0 (y :: B) = some (0, y) from by
    show (if 0 < y.height then some ((0 : Nat), y) else
      (findAbove 0 B).map (fun p => (p.1 + 1, p.2))) = some (0, y)
    rw [if_pos (by omega)]]

theorem chase_entry {m : Model} (hm : ModelInv m) :
    ∀ (fuel : Nat) (A : List Entry) (e : Entry) (B : List Entry),
      m.entries = A ++ e :: B → B.length ≤ fuel →
      chase (concrete m) fuel e.idx = B.map Entry.idx := by
  intro fuel
  induction fuel with
  | zero =>
    intro A e B hsplit hlen
    have hB : B = [] := List.length_eq_zero.mp (by omega)
    rw [hB]
    rfl
  | succ fuel ih =>
    intro A e B hsplit hlen
    have hfw := concrete_fwdAt_entry hm hsplit 0
    have hh := (hm.heights e (by rw [hsplit]; simp)).1
    rw [if_pos (by omega : 0 < e.height)] at hfw
    cases B with
    | nil =>
      have hfw0 : fwdAt (concrete m) e.idx 0 = none := by
        rw [hfw]
        rfl
      rw [chase_succ_none fuel hfw0]
      rfl
    | cons y B2 =>
      have hyh := (hm.heights y (by rw [hsplit]; simp)).1
      have hfw0 : fwdAt (concrete m) e.idx 0 = some y.idx := by
        rw [hfw]
        exact mkLevel_zero_forward B2 hyh
      rw [chase_succ_some fuel hfw0,
        ih (A ++ [e]) y B2 (by rw [hsplit]; simp) (by
          simp only [List.length_cons] at hlen
          omega)]
      rfl

theorem chase_zero {m : Model} (hm : ModelInv m) (fuel : Nat)
    (hlen : m.entries.length ≤ fuel) :
    chase (concrete m) fuel 0 = m.entries.map Entry.idx := by
  cases hE : m.entries with
  | nil =>
    cases fuel with
    | zero => rfl
    | succ fuel =>
      have hfw0 : fwdAt (concrete m) 0 0 = none := by
        rw [concrete_fwdAt_zero, if_pos ⟨by omega, hm.lvl_lb⟩, hE]
        rfl
      rw [chase_succ_none fuel hfw0]
      rfl
  | cons y rest =>
    cases fuel with
    | zero =>
      rw [hE] at hlen
      simp at hlen
    | succ fuel =>
      have hyh := (hm.heights y (by rw [hE]; simp)).1
      have hfw0 : fwdAt (concrete m) 0 0 = some y.idx := by
        rw [concrete_fwdAt_zero, if_pos ⟨by omega, hm.lvl_lb⟩, hE]
        exact mkLevel_zero_forward rest hyh
      rw [chase_succ_some fuel hfw0,
        chase_entry hm fuel [] y rest hE (by
          rw [hE] at hlen
          simp only [List.length_cons] at hlen
          omega)]
      rfl

theorem spineIdx_concrete {m : Model} (hm : ModelInv m) :
    spineIdx (concrete m) = m.entries.map Entry.idx := by
  unfold spineIdx
  rw [show (concrete m).nodes.size = m.entries.length + 1 from buildNodes_size m]
  exact chase_zero hm _ (by omega)

theorem filterMap_all_some {α β : Type} {f : α → Option β} {g : α → β} :
    ∀ {L : List α}, (∀ a ∈ L, f a = some (g a)) → L.filterMap f = L.map g := by
  intro L
  induction L with
  | nil => intro h; rfl
  | cons a rest ih =>
    intro h
    rw [List.filterMap_cons, h a (by simp), List.map_cons,
      ih (fun z hz => h z (by simp [hz]))]

theorem toPairs_concrete {m : Model} (hm : ModelInv m) :
    toPairs (concrete m) = m.entries.map Entry.key := by
  unfold toPairs
  rw [spineIdx_concrete hm, List.filterMap_map]
  exact filterMap_all_some (fun e he => by
    rcases List.append_of_mem he with ⟨A, B, hAB⟩
    exact (concrete_node_entry hm hAB).2.2)

theorem tailData_concrete {m : Model} (hm : ModelInv m) :
    (concrete m).tail.bind (entryData (concrete m)) =
      (m.entries.map Entry.key).getLast? := by
  show ((m.entries.getLast?).map Entry.idx).bind (entryData (concrete m)) = _
  cases hL : m.entries.getLast? with
  | none =>
    rw [List.getLast?_map, hL]
    rfl
  | some e =>
    have hmem : e ∈ m.entries := List.mem_of_mem_getLast? hL
    rcases List.append_of_mem hmem with ⟨A, B, hAB⟩
    rw [Option.map_some', Option.some_bind, (concrete_node_entry hm hAB).2.2,
      List.getLast?_map, hL, Option.map_some']

/-! The representation theorem: every reachable state is a concrete model. -/

theorem concrete_mnew : concrete mnew = SkipList.new := by decide

theorem reachable_model {s : SkipList} {ks : List (Int × String)}
    (h : ReachableH s ks) :
    ∃ m : Model, ModelInv m ∧ s = concrete m ∧
      m.entries.map Entry.key = ks.foldl insertKey [] ∧
      m.entries.length = ks.length := by
  induction h with
  | new => exact ⟨mnew, mnew_inv, concrete_mnew.symm, rfl, rfl⟩
  | step hr hl1 hl2 hins ih =>
    rename_i s ks k v l s2
    obtain ⟨m, hm, hsm, hkeys, hlen⟩ := ih
    refine ⟨minsert m k v l, minsert_inv hm k v l hl1 hl2, ?_, ?_, ?_⟩
    · have hic := insert_concrete hm k v l hl1 hl2
      rw [← hsm, hins] at hic
      exact Option.some_inj.mp hic
    · show ((m.entries.takeWhile (fun e => decide (kLt e.key (k, v)))) ++
          (⟨m.entries.length + 1, k, v, l⟩ : Entry) ::
          m.entries.dropWhile (fun e => decide (kLt e.key (k, v)))).map Entry.key =
        List.foldl insertKey [] (ks ++ [(k, v)])
      rw [List.foldl_append]
      show _ = insertKey (List.foldl insertKey [] ks) (k, v)
      rw [← hkeys]
      unfold insertKey
      rw [List.takeWhile_map, List.dropWhile_map, List.map_append, List.map_cons]
      rfl
    · rw [minsert_length, hlen]
      simp

theorem runDraws_reachable :
    ∀ (kvs : List (Int × String)) (ds : List (List Nat)) (s s2 : SkipList)
      (ks : List (Int × String)), ds.length = kvs.length → ReachableH s ks →
      runDraws s (kvs.zip ds) = some s2 → ReachableH s2 (ks ++ kvs) := by
  intro kvs
  induction kvs with
  | nil =>
    intro ds s s2 ks hlen hr hrun
    have h2 : (some s : Option SkipList) = some s2 := hrun
    rw [← Option.some_inj.mp h2]
    simpa using hr
  | cons q rest ih =>
    intro ds s s2 ks hlen hr hrun
    cases ds with
    | nil => simp at hlen
    | cons d ds2 =>
      obtain ⟨k, v⟩ := q
      have hrun2 : (SkipList.insertR s k v d).bind
          (fun s3 => runDraws s3 (rest.zip ds2)) = some s2 := hrun
      rcases Option.bind_eq_some.mp hrun2 with ⟨smid, hins, hrest⟩
      have hins2 : (random_level d).bind (SkipList.insert s k v) = some smid := hins
      rcases Option.bind_eq_some.mp hins2 with ⟨l, hrl, hinsl⟩
      have hb := random_level_bounds hrl
      have hr2 : ReachableH smid (ks ++ [(k, v)]) :=
        ReachableH.step hr hb.1 hb.2 hinsl
      have h3 := ih ds2 smid s2 (ks ++ [(k, v)])
        (by simp only [List.length_cons] at hlen; omega) hr2 hrest
      simpa using h3

/-! Rank and span lemmas. -/

theorem getElem_append_len {α : Type} (A : List α) (x : α) (B : List α) :
    (A ++ x :: B)[A.length]? = some x := by
  rw [List.getElem?_append_right (le_refl _)]
  simp

theorem mkLevel_lookup {S : List Entry} {i j : Nat} {y : Entry}
    (hfa : findAbove i S = some (j, y)) :
    (S.map Entry.idx)[j]? = some y.idx := by
  obtain ⟨A2, B2, hS, hlen, -, -⟩ := findAbove_some hfa
  rw [hS, List.map_append, List.map_cons,
    show j = (A2.map Entry.idx).length from by rw [List.length_map]; omega,
    getElem_append_len]

theorem map_idx_at {m : Model} {A : List Entry} {y : Entry} {B : List Entry}
    (hsplit : m.entries = A ++ y :: B) :
    (m.entries.map Entry.idx)[A.length]? = some y.idx := by
  rw [hsplit, List.map_append, List.map_cons,
    show A.length = (A.map Entry.idx).length from (List.length_map _ _).symm,
    getElem_append_len]

/-- A forward hop at any level moves the bottom-level position forward by
exactly the span: position q (0 for the header, otherwise the 1-based rank)
becomes position q + d. -/
theorem concrete_hop {m : Model} (hm : ModelInv m) {a i b d q : Nat}
    (hf : fwdAt (concrete m) a i = some b) (hd : spanAt (concrete m) a i = some d)
    (hq : (q = 0 ∧ a = 0) ∨ (1 ≤ q ∧ (m.entries.map Entry.idx)[q - 1]? = some a)) :
    1 ≤ d ∧ 1 ≤ q + d ∧ (m.entries.map Entry.idx)[q + d - 1]? = some b := by
  rcases hq with ⟨hq0, ha0⟩ | ⟨hq1, hqa⟩
  · subst hq0
    subst ha0
    rw [concrete_fwdAt_zero] at hf
    rw [concrete_spanAt_zero] at hd
    by_cases hc : i < 32 ∧ i < m.lvl
    · rw [if_pos hc] at hf
      rw [if_pos hc.1, if_pos hc.2] at hd
      unfold mkLevel at hf hd
      cases hfa : findAbove i m.entries with
      | none =>
        rw [hfa] at hf
        simp at hf
      | some pr =>
        obtain ⟨j, y⟩ := pr
        rw [hfa] at hf hd
        simp at hf hd
        refine ⟨by omega, by omega, ?_⟩
        rw [show 0 + d - 1 = j from by omega, ← hf]
        exact mkLevel_lookup hfa
    · by_cases h32 : i < 32
      · have hcl : ¬ (i < m.lvl) := fun hcc => hc ⟨by omega, hcc⟩
        rw [if_neg (fun hcc : i < 32 ∧ i < m.lvl => hcl hcc.2)] at hf
        cases hf
      · rw [if_neg (fun hcc : i < 32 ∧ i < m.lvl => h32 hcc.1)] at hf
        cases hf
  · rw [List.getElem?_map] at hqa
    rcases Option.map_eq_some'.mp hqa with ⟨e, he, hea⟩
    rcases List.getElem?_eq_some.mp he with ⟨hlt, heq⟩
    have hsplit : m.entries = m.entries.take (q - 1) ++ e :: m.entries.drop (q - 1 + 1) := by
      conv_lhs => rw [← List.take_append_drop (q - 1) m.entries]
      rw [List.drop_eq_getElem_cons hlt, heq]
    rw [← hea] at hf hd
    rw [concrete_fwdAt_entry hm hsplit] at hf
    rw [concrete_spanAt_entry hm hsplit] at hd
    by_cases hih : i < e.height
    · rw [if_pos hih] at hf hd
      unfold mkLevel at hf hd
      cases hfa : findAbove i (m.entries.drop (q - 1 + 1)) with
      | none =>
        rw [hfa] at hf
        simp at hf
      | some pr =>
        obtain ⟨j, y⟩ := pr
        rw [hfa] at hf hd
        simp at hf hd
        refine ⟨by omega, by omega, ?_⟩
        rw [hsplit, List.map_append, List.map_cons,
          List.getElem?_append_right (by
            rw [List.length_map, List.length_take]
            omega),
          show q + d - 1 - ((m.entries.take (q - 1)).map Entry.idx).length = j + 1 from by
            rw [List.length_map, List.length_take]
            omega,
          List.getElem?_cons_succ, ← hf]
        exact mkLevel_lookup hfa
    · rw [if_neg hih] at hf
      cases hf

/-- Hop sequences from a known position land at position plus total span. -/
theorem concrete_hops {m : Model} (hm : ModelInv m) :
    ∀ {a c t : Nat}, Hops (concrete m) a c t →
    ∀ q : Nat, ((q = 0 ∧ a = 0) ∨ (1 ≤ q ∧ (m.entries.map Entry.idx)[q - 1]? = some a)) →
      ((q + t = 0 ∧ c = 0) ∨
        (1 ≤ q + t ∧ (m.entries.map Entry.idx)[q + t - 1]? = some c)) := by
  intro a c t h
  induction h with
  | nil =>
    intro q hq
    simpa using hq
  | cons hf hd hrest ih =>
    rename_i a b c i d t
    intro q hq
    have hstep := concrete_hop hm hf hd hq
    have h2 := ih (q + d) (Or.inr ⟨hstep.2.1, hstep.2.2⟩)
    rw [show q + (d + t) = q + d + t from by omega]
    exact h2

/-! Key-level behaviour. -/

theorem minsert_keys (m : Model) (k : Int) (v : String) (l : Nat) :
    (minsert m k v l).entries.map Entry.key =
      insertKey (m.entries.map Entry.key) (k, v) := by
  show ((m.entries.takeWhile (fun e => decide (kLt e.key (k, v)))) ++
      (⟨m.entries.length + 1, k, v, l⟩ : Entry) ::
      m.entries.dropWhile (fun e => decide (kLt e.key (k, v)))).map Entry.key = _
  unfold insertKey
  rw [List.takeWhile_map, List.dropWhile_map, List.map_append, List.map_cons]
  rfl

theorem insertKey_perm (L : List (Int × String)) (q : Int × String) :
    (insertKey L q).Perm (q :: L) := by
  unfold insertKey
  have h : (L.takeWhile (fun z => decide (kLt z q)) ++
      q :: L.dropWhile (fun z => decide (kLt z q))).Perm
      (q :: (L.takeWhile (fun z => decide (kLt z q)) ++
        L.dropWhile (fun z => decide (kLt z q)))) := List.perm_middle
  refine h.trans ?_
  rw [List.takeWhile_append_dropWhile]

theorem foldl_insertKey_perm :
    ∀ (ks L : List (Int × String)), (List.foldl insertKey L ks).Perm (L ++ ks) := by
  intro ks
  induction ks with
  | nil =>
    intro L
    simp
  | cons q rest ih =>
    intro L
    have h1 : (List.foldl insertKey L (q :: rest)) =
        List.foldl insertKey (insertKey L q) rest := rfl
    rw [h1]
    refine (ih (insertKey L q)).trans ?_
    refine (List.Perm.append_right rest (insertKey_perm L q)).trans ?_
    show (q :: L ++ rest).Perm (L ++ q :: rest)
    exact List.perm_middle.symm

theorem chain_strict :
    ∀ {L : List (Int × String)}, L.Chain' (fun a b => kLe a b) → L.Nodup →
      L.Chain' (fun a b => kLt a b) := by
  intro L
  induction L with
  | nil =>
    intro h1 h2
    exact List.chain'_nil
  | cons a rest ih =>
    intro h1 h2
    cases rest with
    | nil => simp
    | cons b rest2 =>
      rw [List.chain'_cons] at h1 ⊢
      refine ⟨?_, ih h1.2 (List.Nodup.of_cons h2)⟩
      have hne : a ≠ b := by
        intro he
        exact (List.nodup_cons.mp h2).1 (by rw [he]; simp)
      exact kLt_of_kLe_of_ne h1.1 hne

/-! Concrete reachable states for examples. -/

theorem reach_skl1 : ReachableH skl1 [(5, "a")] := by
  have h : SkipList.insert SkipList.new 5 "a" 1 = some skl1 := by decide
  exact ReachableH.step ReachableH.new (by decide) (by decide) h

theorem reach_skl2 : ReachableH skl2 [(5, "a"), (3, "b")] := by
  have h : SkipList.insert skl1 3 "b" 2 = some skl2 := by decide
  exact ReachableH.step reach_skl1 (by decide) (by decide) h

/-- C1: on every state reached by new() and inserts with pairwise-distinct
(score, value) keys, the bottom-level traversal is in strictly increasing key
order (score first, ties by the string order of the value); and every single
insert places the new pair exactly at its sorted position — after the strictly
smaller keys, before the rest — leaving the relative order of the previously
inserted pairs unchanged. -/
theorem C1_sorted_insertion :
    (∀ (s : SkipList) (ks : List (Int × String)), ReachableH s ks → ks.Nodup →
      (toPairs s).Chain' (fun a b => kLt a b)) ∧
    (∀ (s : SkipList) (ks : List (Int × String)) (k : Int) (v : String)
      (l : Nat) (s2 : SkipList), ReachableH s ks → 1 ≤ l →
      l ≤ SKIP_LIST_MAX_LEVEL → SkipList.insert s k v l = some s2 →
      toPairs s2 = insertKey (toPairs s) (k, v)) := by
  constructor
  · intro s ks hr hnd
    obtain ⟨m, hm, hsm, hkeys, hlen⟩ := reachable_model hr
    rw [hsm, toPairs_concrete hm]
    have hle : (m.entries.map Entry.key).Chain' (fun a b => kLe a b) :=
      (List.chain'_map Entry.key).mpr hm.sorted
    have hperm : (m.entries.map Entry.key).Perm ks := by
      rw [hkeys]
      simpa using foldl_insertKey_perm ks []
    exact chain_strict hle (hperm.nodup_iff.mpr hnd)
  · intro s ks k v l s2 hr hl1 hl2 hins
    obtain ⟨m, hm, hsm, hkeys, hlen⟩ := reachable_model hr
    have hic := insert_concrete hm k v l hl1 hl2
    rw [← hsm, hins] at hic
    rw [Option.some_inj.mp hic, hsm, toPairs_concrete hm,
      toPairs_concrete (minsert_inv hm k v l hl1 hl2), minsert_keys]

/-- Witness for C1 at the concrete two-insert state. -/
theorem C1_sorted_insertion_witness :
    (toPairs skl2).Chain' (fun a b => kLt a b) ∧
    toPairs skl2 = insertKey (toPairs skl1) (3, "b") := by
  constructor
  · exact C1_sorted_insertion.1 skl2 [(5, "a"), (3, "b")] reach_skl2 (by decide)
  · exact C1_sorted_insertion.2 skl1 [(5, "a")] 3 "b" 2 skl2 reach_skl1
      (by decide) (by decide) (by decide)

/-- C2: in every reachable state, whenever a node (header included) has a
level-i forward pointer, the stored span is exactly the number of bottom-level
steps to the target: the target is the span-th node of the bottom-level chain
starting after the node.  Consequently the spans along any header-to-node hop
sequence (each hop at an arbitrary level) sum to the node's 1-based rank in
the bottom-level traversal, independently of the levels traversed. -/
theorem C2_span_rank :
    ∀ s : SkipList, Reachable s →
      (∀ a i b d : Nat, fwdAt s a i = some b → spanAt s a i = some d →
        1 ≤ d ∧ (chase s s.nodes.size a)[d - 1]? = some b) ∧
      (∀ a t : Nat, Hops s 0 a t → 1 ≤ t → (spineIdx s)[t - 1]? = some a) := by
  intro s hs
  obtain ⟨ks, hr⟩ := hs
  obtain ⟨m, hm, hsm, -, -⟩ := reachable_model hr
  subst hsm
  constructor
  · intro a i b d hf hd
    have hsz : (concrete m).nodes.size = m.entries.length + 1 := buildNodes_size m
    by_cases ha0 : a = 0
    · subst ha0
      have hstep := concrete_hop hm hf hd (Or.inl ⟨rfl, rfl⟩)
      refine ⟨hstep.1, ?_⟩
      rw [hsz, chase_zero hm _ (by omega)]
      have h2 := hstep.2.2
      rw [show 0 + d - 1 = d - 1 from by omega] at h2
      exact h2
    · have hax : a ≤ m.entries.length := by
        by_contra hc
        rw [fwdAt_eq, show (concrete m).nodes = buildNodes m from rfl,
          show levAt (buildNodes m) a i = none from by
            unfold levAt
            rw [buildNodes_get_high (by omega)]
            rfl] at hf
        cases hf
      obtain ⟨A, e, B, hsplit, heidx⟩ := exists_entry_of_idx hm (by omega) hax
      have hq : (m.entries.map Entry.idx)[A.length + 1 - 1]? = some a := by
        rw [show A.length + 1 - 1 = A.length from by omega, ← heidx]
        exact map_idx_at hsplit
      have hstep := concrete_hop hm hf hd (Or.inr ⟨by omega, hq⟩)
      refine ⟨hstep.1, ?_⟩
      rw [hsz, ← heidx, chase_entry hm _ A e B hsplit (by
        have hc := congrArg List.length hsplit
        simp only [List.length_append, List.length_cons] at hc
        omega)]
      have h2 := hstep.2.2
      rw [hsplit, List.map_append, List.map_cons,
        List.getElem?_append_right (by rw [List.length_map]; omega),
        show A.length + 1 + d - 1 - (A.map Entry.idx).length = d from by
          rw [List.length_map]
          omega] at h2
      rw [show d = (d - 1) + 1 from by omega, List.getElem?_cons_succ] at h2
      exact h2
  · intro a t hh ht
    have h2 := concrete_hops hm hh 0 (Or.inl ⟨rfl, rfl⟩)
    rcases h2 with ⟨h0, -⟩ | ⟨-, h2⟩
    · omega
    · rw [spineIdx_concrete hm]
      rw [show 0 + t - 1 = t - 1 from by omega] at h2
      exact h2

/-- Witness for C2 at a concrete one-insert state. -/
theorem C2_span_rank_witness :
    (1 ≤ 1 ∧ (chase skl1 skl1.nodes.size 0)[1 - 1]? = some 1) ∧
    (spineIdx skl1)[1 - 1]? = some 1 := by
  refine ⟨(C2_span_rank skl1 ⟨[(5, "a")], reach_skl1⟩).1 0 0 1 1
    (by decide) (by decide), ?_⟩
  exact (C2_span_rank skl1 ⟨[(5, "a")], reach_skl1⟩).2 1 1
    (@Hops.cons skl1 0 1 1 0 1 0 (by decide) (by decide) Hops.nil) (by decide)

/-- C3: on every reachable state, insert with a node height produced by
random_level always succeeds — no unwrap fails, no index is out of bounds, no
span subtraction underflows, no RefCell borrow conflict occurs (each of those
panics is modelled as none) — and it terminates having added exactly one node
to the list and one element to the arena. -/
theorem C3_insert_total :
    ∀ (s : SkipList) (k : Int) (v : String) (draws : List Nat) (l : Nat),
      Reachable s → random_level draws = some l →
      ∃ s2 : SkipList, SkipList.insert s k v l = some s2 ∧
        s2.length = s.length + 1 ∧ s2.nodes.size = s.nodes.size + 1 := by
  intro s k v draws l hs hrl
  obtain ⟨ks, hr⟩ := hs
  obtain ⟨m, hm, hsm, -, -⟩ := reachable_model hr
  obtain ⟨hl1, hl2⟩ := random_level_bounds hrl
  subst hsm
  refine ⟨concrete (minsert m k v l), insert_concrete hm k v l hl1 hl2, ?_, ?_⟩
  · show (minsert m k v l).entries.length = m.entries.length + 1
    exact minsert_length m k v l
  · show (buildNodes (minsert m k v l)).size = (buildNodes m).size + 1
    rw [buildNodes_size, buildNodes_size, minsert_length]

/-- Witness for C3 at the empty list. -/
theorem C3_insert_total_witness :
    ∃ s2 : SkipList, SkipList.insert SkipList.new 9 "z" 1 = some s2 ∧
      s2.length = SkipList.new.length + 1 ∧
      s2.nodes.size = SkipList.new.nodes.size + 1 :=
  C3_insert_total SkipList.new 9 "z" [20000] 1 ⟨[], ReachableH.new⟩ (by decide)

/-- C4: in every reachable state the backward pointers invert the bottom-level
forward links: the header has no backward pointer; a stored node's backward
pointer is absent exactly when the header's level-0 forward points to it, and
otherwise names the (non-header) node whose level-0 forward points back to it,
so the header is never reached by a backward step. -/
theorem C4_backward_inverse :
    ∀ s : SkipList, Reachable s →
      backAt s 0 = none ∧
      ∀ a : Nat, a ∈ spineIdx s →
        ((backAt s a = none ↔ fwdAt s 0 0 = some a) ∧
          ∀ b : Nat, backAt s a = some b → b ≠ 0 ∧ fwdAt s b 0 = some a) := by
  intro s hs
  obtain ⟨ks, hr⟩ := hs
  obtain ⟨m, hm, hsm, -, -⟩ := reachable_model hr
  subst hsm
  refine ⟨concrete_backAt_zero m, ?_⟩
  intro a ha
  rw [spineIdx_concrete hm] at ha
  rcases List.mem_map.mp ha with ⟨e, he, heidx⟩
  rcases List.append_of_mem he with ⟨A, B, hsplit⟩
  have hback := (concrete_node_entry hm hsplit).1
  rw [← heidx]
  constructor
  · constructor
    · intro hn
      rw [hback] at hn
      have hA : A = [] := List.getLast?_eq_none_iff.mp (Option.map_eq_none'.mp hn)
      rw [concrete_fwdAt_zero,
        if_pos ⟨by omega, by have := hm.lvl_lb; omega⟩, hsplit, hA,
        List.nil_append]
      exact mkLevel_zero_forward B (hm.heights e he).1
    · intro hfw0
      rw [hback]
      cases hA : A with
      | nil => rfl
      | cons x A2 =>
        exfalso
        rw [concrete_fwdAt_zero,
          if_pos ⟨by omega, by have := hm.lvl_lb; omega⟩, hsplit, hA,
          List.cons_append,
          mkLevel_zero_forward (A2 ++ e :: B)
            (hm.heights x (by rw [hsplit, hA]; simp)).1] at hfw0
        have hxe : x = e := idx_inj_of_nodup (concrete_idx_nodup hm)
          (by rw [hsplit, hA]; simp) he (Option.some_inj.mp hfw0)
        have hnd := concrete_idx_nodup hm
        rw [hsplit, hA, List.cons_append, List.map_cons, List.nodup_cons] at hnd
        exact hnd.1 (by rw [hxe]; simp)
  · intro b hb
    rw [hback] at hb
    rcases Option.map_eq_some'.mp hb with ⟨p, hp, hpb⟩
    have hpA : p ∈ A := List.mem_of_mem_getLast? hp
    have hpm : p ∈ m.entries := by
      rw [hsplit]
      exact List.mem_append_left _ hpA
    have hb1 : 1 ≤ p.idx := (concrete_idx_bounds hm hpm).1
    refine ⟨by omega, ?_⟩
    have hAne : A ≠ [] := by
      rintro rfl
      simp at hp
    have hgl : A.getLast hAne = p := by
      rw [List.getLast?_eq_getLast _ hAne] at hp
      exact Option.some_inj.mp hp
    have hAsplit : A = A.dropLast ++ [p] := by
      conv_lhs => rw [← List.dropLast_append_getLast hAne]
      rw [hgl]
    have hsplit2 : m.entries = A.dropLast ++ p :: (e :: B) := by
      rw [hsplit, hAsplit]
      simp
    rw [← hpb, concrete_fwdAt_entry hm hsplit2,
      if_pos (by have := (hm.heights p hpm).1; omega)]
    exact mkLevel_zero_forward B (hm.heights e he).1

/-- Witness for C4 at the concrete two-insert state. -/
theorem C4_backward_inverse_witness :
    backAt skl2 0 = none ∧ (2 : Nat) ≠ 0 ∧ fwdAt skl2 2 0 = some 1 := by
  have h := C4_backward_inverse skl2 ⟨[(5, "a"), (3, "b")], reach_skl2⟩
  exact ⟨h.1, (h.2 1 (by decide)).2 2 (by decide)⟩

/-- C5: in every reachable state the length equals the number of insert calls
performed, the tail is none exactly when the list is empty, and the tail
references exactly the stored node with no bottom-level forward link. -/
theorem C5_tail_length :
    ∀ (s : SkipList) (ks : List (Int × String)), ReachableH s ks →
      s.length = ks.length ∧
      (s.tail = none ↔ s.length = 0) ∧
      (∀ a : Nat, s.tail = some a → a ∈ spineIdx s ∧ fwdAt s a 0 = none) ∧
      (∀ a : Nat, a ∈ spineIdx s → fwdAt s a 0 = none → s.tail = some a) := by
  intro s ks hr
  obtain ⟨m, hm, hsm, -, hlen⟩ := reachable_model hr
  subst hsm
  have htail : (concrete m).tail = (m.entries.getLast?).map Entry.idx := rfl
  have hslen : (concrete m).length = m.entries.length := rfl
  refine ⟨by rw [hslen, hlen], ?_, ?_, ?_⟩
  · rw [htail, hslen]
    constructor
    · intro hn
      rw [List.getLast?_eq_none_iff.mp (Option.map_eq_none'.mp hn)]
      rfl
    · intro h0
      rw [List.length_eq_zero.mp h0]
      rfl
  · intro a ha
    rw [htail] at ha
    rcases Option.map_eq_some'.mp ha with ⟨e, he, hea⟩
    have hmem : e ∈ m.entries := List.mem_of_mem_getLast? he
    constructor
    · rw [spineIdx_concrete hm, ← hea]
      exact List.mem_map_of_mem _ hmem
    · have hne : m.entries ≠ [] := by
        rintro hnil
        rw [hnil] at he
        simp at he
      have hgl : m.entries.getLast hne = e := by
        rw [List.getLast?_eq_getLast _ hne] at he
        exact Option.some_inj.mp he
      have hsplit : m.entries = m.entries.dropLast ++ e :: [] := by
        conv_lhs => rw [← List.dropLast_append_getLast hne]
        rw [hgl]
      rw [← hea, concrete_fwdAt_entry hm hsplit,
        if_pos (by have := (hm.heights e hmem).1; omega)]
      rfl
  · intro a ha hfw
    rw [spineIdx_concrete hm] at ha
    rcases List.mem_map.mp ha with ⟨e, he, heidx⟩
    rcases List.append_of_mem he with ⟨A, B, hsplit⟩
    rw [← heidx] at hfw ⊢
    rw [concrete_fwdAt_entry hm hsplit,
      if_pos (by have := (hm.heights e he).1; omega)] at hfw
    cases hB : B with
    | nil =>
      rw [htail, hsplit, hB, List.getLast?_append_cons]
      rfl
    | cons y B2 =>
      exfalso
      rw [hB, mkLevel_zero_forward B2
        (hm.heights y (by rw [hsplit, hB]; simp)).1] at hfw
      cases hfw

/-- Witness for C5 at the concrete two-insert state. -/
theorem C5_tail_length_witness :
    skl2.length = 2 ∧ (skl2.tail = none ↔ skl2.length = 0) ∧
    (1 ∈ spineIdx skl2 ∧ fwdAt skl2 1 0 = none) ∧ skl2.tail = some 1 := by
  have h := C5_tail_length skl2 [(5, "a"), (3, "b")] reach_skl2
  exact ⟨h.1, h.2.1, h.2.2.1 1 (by decide), h.2.2.2 1 (by decide) (by decide)⟩

/-- C6: in every reachable state the list level is at least 1 and at most the
fixed cap 32, and no stored node has more levels than the list level. -/
theorem C6_height_bounds :
    ∀ s : SkipList, Reachable s →
      1 ≤ s.level ∧ s.level ≤ SKIP_LIST_MAX_LEVEL ∧
      ∀ a h : Nat, a ≠ 0 → heightAt s a = some h → h ≤ s.level := by
  intro s hs
  obtain ⟨ks, hr⟩ := hs
  obtain ⟨m, hm, hsm, -, -⟩ := reachable_model hr
  subst hsm
  have hlvl : (concrete m).level = m.lvl := rfl
  refine ⟨by rw [hlvl]; exact hm.lvl_lb, by rw [hlvl]; exact hm.lvl_ub, ?_⟩
  intro a h ha0 hh
  have hax : a ≤ m.entries.length := by
    by_contra hc
    unfold heightAt at hh
    rw [show (concrete m).nodes = buildNodes m from rfl,
      buildNodes_get_high (by omega)] at hh
    cases hh
  obtain ⟨A, e, B, hsplit, heidx⟩ := exists_entry_of_idx hm (by omega) hax
  rw [← heidx] at hh
  rw [(concrete_node_entry hm hsplit).2.1] at hh
  rw [hlvl, ← Option.some_inj.mp hh]
  exact (hm.heights e (by rw [hsplit]; simp)).2

/-- Witness for C6 at the concrete two-insert state. -/
theorem C6_height_bounds_witness :
    1 ≤ skl2.level ∧ skl2.level ≤ SKIP_LIST_MAX_LEVEL ∧
    ∀ a h : Nat, a ≠ 0 → heightAt skl2 a = some h → h ≤ skl2.level :=
  C6_height_bounds skl2 ⟨[(5, "a"), (3, "b")], reach_skl2⟩

/-- C7: random_level over an explicit draw stream starts at height 1,
increments once per draw whose low 16 bits fall below a quarter of the 16-bit
range — a success chance of exactly 16384 of the 65536 residues — stops at the
first failing draw, and for any stream containing a failing draw returns
min(successes + 1, 32), which always lies between 1 and the cap 32. -/
theorem C7_random_level :
    (∀ num : Nat, coinSuccess num = true ↔ num % 65536 < 16384) ∧
    (∀ draws : List Nat, (∃ d ∈ draws, coinSuccess d = false) →
      random_level draws =
        some (min ((draws.takeWhile coinSuccess).length + 1) SKIP_LIST_MAX_LEVEL)) ∧
    (∀ (draws : List Nat) (l : Nat), random_level draws = some l →
      1 ≤ l ∧ l ≤ SKIP_LIST_MAX_LEVEL) := by
  refine ⟨?_, random_level_spec, fun draws l h => random_level_bounds h⟩
  intro num
  show (decide (4 * (num % 65536) < 65535)) = true ↔ num % 65536 < 16384
  rw [decide_eq_true_iff]
  omega

/-- Witness for C7 on a concrete stream with a failing draw. -/
theorem C7_random_level_witness :
    random_level [20000] =
      some (min ((([20000] : List Nat).takeWhile coinSuccess).length + 1)
        SKIP_LIST_MAX_LEVEL) ∧
    (1 ≤ 1 ∧ (1 : Nat) ≤ SKIP_LIST_MAX_LEVEL) :=
  ⟨C7_random_level.2.1 [20000] ⟨20000, by decide, by decide⟩,
    C7_random_level.2.2 [20000] 1 (by decide)⟩

/-- C8: new() builds the sentinel header with the full 32 levels, every level
having no forward pointer and span 0, no backward pointer and no stored value,
and the list starts with length 0, level 1 and no tail; nothing can fail. -/
theorem C8_new_spec :
    SkipList.new.nodes.size = 1 ∧
    heightAt SkipList.new 0 = some SKIP_LIST_MAX_LEVEL ∧
    (∀ i : Nat, fwdAt SkipList.new 0 i = none) ∧
    (∀ i : Nat, spanAt SkipList.new 0 i =
      if i < SKIP_LIST_MAX_LEVEL then some 0 else none) ∧
    backAt SkipList.new 0 = none ∧
    entryData SkipList.new 0 = none ∧
    SkipList.new.length = 0 ∧
    SkipList.new.level = 1 ∧
    SkipList.new.tail = none := by
  refine ⟨by decide, by decide, ?_, ?_, by decide, by decide, rfl, rfl, rfl⟩
  · intro i
    by_cases h : i < 32
    · interval_cases i <;> decide
    · rw [fwdAt_eq]
      unfold levAt
      rw [show SkipList.new.nodes[0]? = some (SkipListNode.new SKIP_LIST_MAX_LEVEL 0 none)
          from by decide, Option.some_bind,
        show (SkipListNode.new SKIP_LIST_MAX_LEVEL 0 none).level[i]? = none from by
          unfold SkipListNode.new
          exact Array.getElem?_ge _ (by
            rw [Array.size_mkArray]
            have h32 : SKIP_LIST_MAX_LEVEL = 32 := rfl
            omega)]
      rfl
  · intro i
    by_cases h : i < 32
    · rw [if_pos (show i < SKIP_LIST_MAX_LEVEL from h)]
      interval_cases i <;> decide
    · rw [if_neg (show ¬ (i < SKIP_LIST_MAX_LEVEL) from h)]
      rw [spanAt_eq]
      unfold levAt
      rw [show SkipList.new.nodes[0]? = some (SkipListNode.new SKIP_LIST_MAX_LEVEL 0 none)
          from by decide, Option.some_bind,
        show (SkipListNode.new SKIP_LIST_MAX_LEVEL 0 none).level[i]? = none from by
          unfold SkipListNode.new
          exact Array.getElem?_ge _ (by
            rw [Array.size_mkArray]
            have h32 : SKIP_LIST_MAX_LEVEL = 32 := rfl
            omega)]
      rfl

/-- C9 (corrected): the source insert stores the new node — on every reachable
state a successful insert makes the last arena element a node carrying exactly
the given (score, value) with the chosen height — but the function's return
type is unit: it returns no reference to the newly created node. -/
theorem C9_insert_returns_unit :
    ∀ (s : SkipList) (k : Int) (v : String) (l : Nat) (s2 : SkipList),
      Reachable s → 1 ≤ l → l ≤ SKIP_LIST_MAX_LEVEL →
      SkipList.insert s k v l = some s2 →
      SkipList.insertReturnValue s k v l = some PUnit.unit ∧
      entryData s2 (s2.nodes.size - 1) = some (k, v) ∧
      heightAt s2 (s2.nodes.size - 1) = some l := by
  intro s k v l s2 hs hl1 hl2 hins
  obtain ⟨ks, hr⟩ := hs
  obtain ⟨m, hm, hsm, -, -⟩ := reachable_model hr
  subst hsm
  have hic := insert_concrete hm k v l hl1 hl2
  rw [hins] at hic
  have hs2 : s2 = concrete (minsert m k v l) := Option.some_inj.mp hic
  refine ⟨?_, ?_, ?_⟩
  · show (SkipList.insert (concrete m) k v l).map (fun _ => PUnit.unit) = some PUnit.unit
    rw [hins]
    rfl
  · have hE2 : (minsert m k v l).entries =
        m.entries.takeWhile (fun e => decide (kLt e.key (k, v))) ++
          (⟨m.entries.length + 1, k, v, l⟩ : Entry) ::
          m.entries.dropWhile (fun e => decide (kLt e.key (k, v))) := rfl
    have hidx : s2.nodes.size - 1 = m.entries.length + 1 := by
      rw [hs2, show (concrete (minsert m k v l)).nodes = buildNodes (minsert m k v l)
        from rfl, buildNodes_size, minsert_length]
      omega
    rw [hidx, hs2]
    exact (concrete_node_entry (minsert_inv hm k v l hl1 hl2) hE2).2.2
  · have hE2 : (minsert m k v l).entries =
        m.entries.takeWhile (fun e => decide (kLt e.key (k, v))) ++
          (⟨m.entries.length + 1, k, v, l⟩ : Entry) ::
          m.entries.dropWhile (fun e => decide (kLt e.key (k, v))) := rfl
    have hidx : s2.nodes.size - 1 = m.entries.length + 1 := by
      rw [hs2, show (concrete (minsert m k v l)).nodes = buildNodes (minsert m k v l)
        from rfl, buildNodes_size, minsert_length]
      omega
    rw [hidx, hs2]
    exact (concrete_node_entry (minsert_inv hm k v l hl1 hl2) hE2).2.1

/-- Witness for C9 (amended statement) at a concrete insert. -/
theorem C9_insert_returns_unit_witness :
    SkipList.insertReturnValue SkipList.new 5 "a" 1 = some PUnit.unit ∧
    entryData skl1 (skl1.nodes.size - 1) = some (5, "a") ∧
    heightAt skl1 (skl1.nodes.size - 1) = some 1 :=
  C9_insert_returns_unit SkipList.new 5 "a" 1 skl1 ⟨[], ReachableH.new⟩
    (by decide) (by decide) (by decide)

/-- Counterexample to the original C9: insert's return value is the same unit
for calls that create observably different nodes, so it cannot be a reference
to the newly created node. -/
theorem C9_counterexample :
    SkipList.insertReturnValue SkipList.new 5 "a" 1 =
      SkipList.insertReturnValue SkipList.new 7 "b" 2 ∧
    (SkipList.insert SkipList.new 5 "a" 1).map toPairs ≠
      (SkipList.insert SkipList.new 7 "b" 2).map toPairs := by
  constructor
  · decide
  · decide

/-- C10: the logical contents are independent of the randomness — replaying
the same (score, value) sequence with any two streams of random draws yields
states with the same length, the same bottom-level (score, value) sequence and
the same tail element; the draws affect only heights and higher-level shape. -/
theorem C10_randomness_independent :
    ∀ (kvs : List (Int × String)) (ds1 ds2 : List (List Nat)) (s1 s2 : SkipList),
      ds1.length = kvs.length → ds2.length = kvs.length →
      runDraws SkipList.new (kvs.zip ds1) = some s1 →
      runDraws SkipList.new (kvs.zip ds2) = some s2 →
      s1.length = s2.length ∧ toPairs s1 = toPairs s2 ∧
      s1.tail.bind (entryData s1) = s2.tail.bind (entryData s2) := by
  intro kvs ds1 ds2 s1 s2 hd1 hd2 hr1 hr2
  have hre1 : ReachableH s1 kvs := by
    have := runDraws_reachable kvs ds1 SkipList.new s1 [] hd1 ReachableH.new hr1
    simpa using this
  have hre2 : ReachableH s2 kvs := by
    have := runDraws_reachable kvs ds2 SkipList.new s2 [] hd2 ReachableH.new hr2
    simpa using this
  obtain ⟨m1, hm1, hsm1, hk1, hl1⟩ := reachable_model hre1
  obtain ⟨m2, hm2, hsm2, hk2, hl2⟩ := reachable_model hre2
  subst hsm1
  subst hsm2
  refine ⟨?_, ?_, ?_⟩
  · show m1.entries.length = m2.entries.length
    rw [hl1, hl2]
  · rw [toPairs_concrete hm1, toPairs_concrete hm2, hk1, hk2]
  · rw [tailData_concrete hm1, tailData_concrete hm2, hk1, hk2]

/-- Witness for C10 on two different draw streams for the same insert. -/
theorem C10_randomness_independent_witness :
    ∃ s1 s2 : SkipList,
      runDraws SkipList.new ([((5, "a"), [20000])] : List ((Int × String) × List Nat)) =
        some s1 ∧
      runDraws SkipList.new ([((5, "a"), [1, 20000])] : List ((Int × String) × List Nat)) =
        some s2 ∧
      s1.length = s2.length ∧ toPairs s1 = toPairs s2 ∧
      s1.tail.bind (entryData s1) = s2.tail.bind (entryData s2) := by
  refine ⟨(runDraws SkipList.new [((5, "a"), [20000])]).getD SkipList.new,
    (runDraws SkipList.new [((5, "a"), [1, 20000])]).getD SkipList.new,
    by decide, by decide, ?_⟩
  exact C10_randomness_independent [(5, "a")] [[20000]] [[1, 20000]] _ _
    (by decide) (by decide) (by decide) (by decide)
